import Mathlib

/-!
# LiveGraph storage core: edge blocks, edge iterator, block manager

A shallow embedding of `src/core/blocks.hpp`, `src/core/edge_iterator.hpp` and
`src/core/block_manager.hpp`.

Conventions of the embedding.

* `size_t`, `uintptr_t`, `vertex_t` are `Nat` with an explicit `% 2 ^ 64` where the
  source computes in 64 bits; `timestamp_t` is `Int`; `uint16_t` / `uint32_t` fields
  are `Nat` constrained by a well-formedness predicate.
* Pointers into a block are byte offsets from the block start (`this`), as `Int`.
  The object stores of a block are typed: `entry_mem` holds the `EdgeEntry` objects
  keyed by the byte offset of their first byte, `data_mem` holds payload bytes keyed
  by byte offset, `bloom_bits` holds the bits of the Bloom region.
* `while` loops carry a fuel argument and return `none` when the fuel runs out while
  the loop condition still holds.
-/

namespace livegraph

/-! ## Definitions -/

/-- Enum `BlockHeader::Type`. -/
inductive BlockType where
  | FREE
  | VERTEX
  | EDGE
  | EDGE_LABEL
  | SPECIAL
deriving DecidableEq, Repr

/-- Class `EdgeEntry` (24 bytes): `length : u16`, `dst_high : u16`, `dst_low : u32`,
`creation_time`, `deletion_time : i64`. -/
structure EdgeEntry where
  length : Nat
  dst_high : Nat
  dst_low : Nat
  creation_time : Int
  deletion_time : Int
deriving DecidableEq, Repr

/-- The field widths of an `EdgeEntry`: `length` and `dst_high` are 16 bits wide, `dst_low`
32 bits. -/
def EdgeEntry.WF (e : EdgeEntry) : Prop :=
  e.length < 2 ^ 16 ∧ e.dst_high < 2 ^ 16 ∧ e.dst_low < 2 ^ 32

instance (e : EdgeEntry) : Decidable e.WF := by
  unfold EdgeEntry.WF; infer_instance

/-- Method `EdgeEntry::get_dst`: `((vertex_t)dst_high << 32) + (vertex_t)dst_low`. -/
def EdgeEntry.get_dst (e : EdgeEntry) : Nat :=
  ((e.dst_high <<< 32) % 2 ^ 64 + e.dst_low) % 2 ^ 64

/-- Method `EdgeEntry::set_dst`. -/
def EdgeEntry.set_dst (e : EdgeEntry) (dst : Nat) : EdgeEntry :=
  { e with dst_high := (dst >>> 32) &&& (2 ^ 16 - 1), dst_low := dst &&& (2 ^ 32 - 1) }

/-- Constant `sizeof(EdgeEntry)`, see the `static_assert`s of `blocks.hpp`. -/
def sizeof_EdgeEntry : Nat := 24

/-- Constant `sizeof(EdgeBlockHeader)`. -/
def sizeof_EdgeBlockHeader : Nat := 48

/-- Constant `EdgeBlockHeader::BLOOM_FILTER_THRESHOLD`. -/
def BLOOM_FILTER_THRESHOLD : Nat := 10

/-- Constant `EdgeBlockHeader::BLOOM_FILTER_PORTION`. -/
def BLOOM_FILTER_PORTION : Nat := 4

/-- Modelled from the spec: class `BloomFilter` of `bloom_filter.hpp` (its source is not
available). The spec describes it as a fixed-size bit array co-located at the tail of
large edge blocks. A filter object is a view: the first constructor argument, the byte offset
of the region it covers, and whether it was built by the two-argument constructor
(`valid()`); the default constructor gives an invalid one. -/
structure BloomFilter where
  size_arg : Nat
  start : Int
  is_valid : Bool
deriving DecidableEq, Repr

/-- Modelled from the spec: the default constructor `BloomFilter()`. -/
def BloomFilter.default : BloomFilter :=
  { size_arg := 0, start := 0, is_valid := false }

/-- Modelled from the spec: `BloomFilter::valid`. -/
def BloomFilter.valid (f : BloomFilter) : Bool := f.is_valid

/-- Class `EdgeBlockHeader` together with the memory of its block. -/
structure EdgeBlockHeader where
  order : Nat
  type : BlockType
  vid_high : Nat
  vid_low : Nat
  creation_time : Int
  prev_pointer : Nat
  committed_time : Int
  num_entries : Nat
  data_length : Nat
  entry_mem : Int → EdgeEntry
  data_mem : Int → Nat
  bloom_bits : Nat → Bool

/-- Method `BlockHeader::get_block_size`: `1ul << order` (defined for `order < 64`). -/
def EdgeBlockHeader.get_block_size (b : EdgeBlockHeader) : Nat :=
  (1 <<< b.order) % 2 ^ 64

/-- Method `N2OBlockHeader::set_vertex_id`. -/
def EdgeBlockHeader.set_vertex_id (b : EdgeBlockHeader) (vid : Nat) : EdgeBlockHeader :=
  { b with vid_high := (vid >>> 32) &&& (2 ^ 16 - 1), vid_low := vid &&& (2 ^ 32 - 1) }

/-- Method `N2OBlockHeader::get_vertex_id`. -/
def EdgeBlockHeader.get_vertex_id (b : EdgeBlockHeader) : Nat :=
  ((b.vid_high <<< 32) % 2 ^ 64 + b.vid_low) % 2 ^ 64

/-- Method `N2OBlockHeader::fill`. -/
def EdgeBlockHeader.n2o_fill (b : EdgeBlockHeader) (order : Nat) (type : BlockType)
    (vid : Nat) (creation_time : Int) (prev_pointer : Nat) : EdgeBlockHeader :=
  { ({ b with order := order, type := type }).set_vertex_id vid with
    creation_time := creation_time, prev_pointer := prev_pointer }

/-- Method `EdgeBlockHeader::get_data`: the flexible array member right after the header. -/
def EdgeBlockHeader.get_data (_b : EdgeBlockHeader) : Int := sizeof_EdgeBlockHeader

/-- Method `EdgeBlockHeader::get_entries` (both overloads have the same body). -/
def EdgeBlockHeader.get_entries (b : EdgeBlockHeader) : Int :=
  let block_size := b.get_block_size
  let block_size :=
    if b.order ≥ BLOOM_FILTER_THRESHOLD then
      (block_size + 2 ^ 64 - (block_size >>> BLOOM_FILTER_PORTION)) % 2 ^ 64
    else block_size
  (block_size : Int)

/-- Method `EdgeBlockHeader::get_bloom_filter`, the non-const overload. -/
def EdgeBlockHeader.get_bloom_filter (b : EdgeBlockHeader) : BloomFilter :=
  if b.order < BLOOM_FILTER_THRESHOLD then BloomFilter.default
  else
    let block_size := b.get_block_size
    let bloom_filter_size := block_size >>> BLOOM_FILTER_PORTION
    { size_arg := b.order - BLOOM_FILTER_PORTION,
      start := (block_size : Int) - bloom_filter_size,
      is_valid := true }

/-- Method `EdgeBlockHeader::get_bloom_filter`, the const overload. -/
def EdgeBlockHeader.get_bloom_filter_const (b : EdgeBlockHeader) : BloomFilter :=
  if b.order < BLOOM_FILTER_THRESHOLD then BloomFilter.default
  else
    let block_size := b.get_block_size
    let bloom_filter_size := block_size >>> BLOOM_FILTER_PORTION
    { size_arg := bloom_filter_size,
      start := (block_size : Int) - bloom_filter_size,
      is_valid := true }

/-- Modelled from the spec: `BloomFilter::clear` on the bits of the block's Bloom region. -/
def BloomFilter.clear (_f : BloomFilter) (_bits : Nat → Bool) : Nat → Bool :=
  fun _ => false

/-- Modelled from the spec: `BloomFilter::insert`. The hash choice is outside the spec, so
the bit positions of a vertex id are a parameter `hashes size_arg vertex_id`. -/
def BloomFilter.insert (hashes : Nat → Nat → List Nat) (f : BloomFilter) (bits : Nat → Bool)
    (v : Nat) : Nat → Bool :=
  fun i => if i ∈ hashes f.size_arg v then true else bits i

/-- Modelled from the spec: `BloomFilter::contains`. -/
def BloomFilter.contains (hashes : Nat → Nat → List Nat) (f : BloomFilter) (bits : Nat → Bool)
    (v : Nat) : Bool :=
  (hashes f.size_arg v).all bits

/-- Method `EdgeBlockHeader::clear`. -/
def EdgeBlockHeader.clear (b : EdgeBlockHeader) : EdgeBlockHeader :=
  let b := { b with num_entries := 0 }
  let b := { b with data_length := 0 }
  let filter := b.get_bloom_filter
  if filter.valid then { b with bloom_bits := filter.clear b.bloom_bits } else b

/-- Method `EdgeBlockHeader::fill`. -/
def EdgeBlockHeader.fill (b : EdgeBlockHeader) (order vid : Nat) (creation_time : Int)
    (prev_pointer : Nat) (committed_time : Int) : EdgeBlockHeader :=
  let b := b.n2o_fill order BlockType.EDGE vid creation_time prev_pointer
  let b := { b with committed_time := committed_time }
  b.clear

/-- Method `EdgeBlockHeader::has_space`; the sum is computed in `size_t`. -/
def EdgeBlockHeader.has_space (b : EdgeBlockHeader) (entry : EdgeEntry)
    (num_entries data_length : Nat) : Bool :=
  let block_size := b.get_block_size
  let bloom_filter_size :=
    if b.order < BLOOM_FILTER_THRESHOLD then 0 else block_size >>> BLOOM_FILTER_PORTION
  if (sizeof_EdgeBlockHeader + (num_entries + 1) * sizeof_EdgeEntry + data_length
      + entry.length + bloom_filter_size) % 2 ^ 64 > b.get_block_size then false
  else true

/-- The copy loop `for (i = 0; i < n; i++) (dst + off)[i] = src[i]` of `append`. -/
def copy_bytes (mem : Int → Nat) (dst : Int) (src : Nat → Nat) (n : Nat) : Int → Nat :=
  (List.range n).foldl (fun m i => Function.update m (dst + (i : Nat)) (src i)) mem

/-- Method `EdgeBlockHeader::append(entry, data, filter)`. The result is the new block and
the returned pointer, `none` for `nullptr`. -/
def EdgeBlockHeader.append_with (hashes : Nat → Nat → List Nat) (b : EdgeBlockHeader)
    (entry : EdgeEntry) (data : Nat → Nat) (filter : BloomFilter) :
    EdgeBlockHeader × Option Int :=
  let num := b.num_entries
  let length := b.data_length
  if !b.has_space entry num length then (b, none)
  else
    let slot : Int := b.get_entries - (sizeof_EdgeEntry : Int) * ((num : Int) + 1)
    let b := { b with entry_mem := Function.update b.entry_mem slot entry }
    let b := { b with data_mem := copy_bytes b.data_mem (b.get_data + length) data entry.length }
    let b := { b with num_entries := (num + 1) % 2 ^ 64 }
    let b := { b with data_length := (length + entry.length) % 2 ^ 64 }
    let b := if filter.valid then
        { b with bloom_bits := filter.insert hashes b.bloom_bits entry.get_dst }
      else b
    (b, some (b.get_entries - (sizeof_EdgeEntry : Int) * ((num : Int) + 1)))

/-- Method `EdgeBlockHeader::append(entry, data)`. -/
def EdgeBlockHeader.append (hashes : Nat → Nat → List Nat) (b : EdgeBlockHeader)
    (entry : EdgeEntry) (data : Nat → Nat) : EdgeBlockHeader × Option Int :=
  let filter := b.get_bloom_filter
  b.append_with hashes entry data filter

/-- A sequence of `append` calls all of which succeed (return a non-null slot); `none` as
soon as one of them returns `nullptr`. -/
def EdgeBlockHeader.append_all (hashes : Nat → Nat → List Nat) :
    EdgeBlockHeader → List (EdgeEntry × (Nat → Nat)) → Option EdgeBlockHeader
  | b, [] => some b
  | b, (entry, data) :: rest =>
    match b.append hashes entry data with
    | (b1, some _) => append_all hashes b1 rest
    | (_, none) => none

/-- Modelled from the spec: `cmp_timestamp(&x, read_epoch_id, local_txn_id)` of `utils.hpp`
(its source is not available). The spec: negative timestamps are pending transaction
ids; a pending timestamp matches (compares equal) only when its magnitude equals the
reader's `local_txn_id`, else it compares as plus infinity; any other timestamp is compared
with the read epoch. -/
def cmp_timestamp (x read_epoch_id local_txn_id : Int) : Int :=
  if x < 0 then (if -x = local_txn_id then 0 else 1)
  else if x < read_epoch_id then -1
  else if x = read_epoch_id then 0
  else 1

/-- Class `EdgeIterator`: the private fields. Pointers are byte offsets; `entries` and
`entries_cursor` point to `EdgeEntry` objects, `data` and `data_cursor` to bytes. -/
structure EdgeIterator where
  entries : Int
  data : Int
  num_entries : Nat
  data_length : Nat
  read_epoch_id : Int
  local_txn_id : Int
  reverse : Bool
  entries_cursor : Int
  data_cursor : Int
deriving DecidableEq, Repr

/-- Method `EdgeIterator::valid`. -/
def EdgeIterator.valid (it : EdgeIterator) : Bool :=
  if !it.reverse then !(it.entries_cursor == it.entries)
  else !(it.entries_cursor == it.entries - (sizeof_EdgeEntry : Int) * it.num_entries)

/-- The visibility test both loops of the iterator apply to the entry at pointer `p`:
`cmp_timestamp(creation_time) <= 0 && cmp_timestamp(deletion_time) > 0`. The comparison
function `cmp` of `utils.hpp` is a parameter. -/
def EdgeIterator.visible_at (cmp : Int → Int → Int → Int) (em : Int → EdgeEntry)
    (it : EdgeIterator) (p : Int) : Bool :=
  decide (cmp (em p).creation_time it.read_epoch_id it.local_txn_id ≤ 0) &&
  decide (cmp (em p).deletion_time it.read_epoch_id it.local_txn_id > 0)

/-- The statements `data_cursor -= entries_cursor->get_length(); entries_cursor++;`. -/
def EdgeIterator.step_fwd (em : Int → EdgeEntry) (it : EdgeIterator) : EdgeIterator :=
  let it := { it with data_cursor := it.data_cursor - (em it.entries_cursor).length }
  { it with entries_cursor := it.entries_cursor + sizeof_EdgeEntry }

/-- The statements `data_cursor += (entries_cursor - 1)->get_length(); entries_cursor--;`. -/
def EdgeIterator.step_rev (em : Int → EdgeEntry) (it : EdgeIterator) : EdgeIterator :=
  let it :=
    { it with data_cursor := it.data_cursor + (em (it.entries_cursor - sizeof_EdgeEntry)).length }
  { it with entries_cursor := it.entries_cursor - sizeof_EdgeEntry }

/-- The `while` loop of the constructor, branch `!reverse`. -/
def EdgeIterator.ctor_loop_fwd (cmp : Int → Int → Int → Int) (em : Int → EdgeEntry) :
    Nat → EdgeIterator → Option EdgeIterator
  | 0, it =>
    if it.valid then
      if it.visible_at cmp em it.entries_cursor then some it else none
    else some it
  | fuel + 1, it =>
    if it.valid then
      if it.visible_at cmp em it.entries_cursor then some it
      else ctor_loop_fwd cmp em fuel (it.step_fwd em)
    else some it

/-- The `while` loop of the constructor, branch `reverse`. -/
def EdgeIterator.ctor_loop_rev (cmp : Int → Int → Int → Int) (em : Int → EdgeEntry) :
    Nat → EdgeIterator → Option EdgeIterator
  | 0, it =>
    if it.valid then
      if it.visible_at cmp em (it.entries_cursor - sizeof_EdgeEntry) then some it else none
    else some it
  | fuel + 1, it =>
    if it.valid then
      if it.visible_at cmp em (it.entries_cursor - sizeof_EdgeEntry) then some it
      else ctor_loop_rev cmp em fuel (it.step_rev em)
    else some it

/-- Constructor `EdgeIterator::EdgeIterator`. Each loop runs at most `num_entries` rounds
from the initial cursor, which is the fuel given. -/
def EdgeIterator.ctor (cmp : Int → Int → Int → Int) (em : Int → EdgeEntry)
    (entries data : Int) (num_entries data_length : Nat) (read_epoch_id local_txn_id : Int)
    (reverse : Bool) : Option EdgeIterator :=
  let it : EdgeIterator :=
    { entries := entries, data := data, num_entries := num_entries,
      data_length := data_length, read_epoch_id := read_epoch_id,
      local_txn_id := local_txn_id, reverse := reverse,
      entries_cursor :=
        if !reverse then entries - (sizeof_EdgeEntry : Int) * num_entries else entries,
      data_cursor := if !reverse then data + data_length else data }
  if !reverse then EdgeIterator.ctor_loop_fwd cmp em num_entries it
  else EdgeIterator.ctor_loop_rev cmp em num_entries it

/-- The `while` loop of `next`, branch `!reverse`. -/
def EdgeIterator.next_loop_fwd (cmp : Int → Int → Int → Int) (em : Int → EdgeEntry) :
    Nat → EdgeIterator → Option EdgeIterator
  | 0, it => if it.valid then none else some it
  | fuel + 1, it =>
    if it.valid then
      let it := it.step_fwd em
      if it.visible_at cmp em it.entries_cursor then some it
      else next_loop_fwd cmp em fuel it
    else some it

/-- The `while` loop of `next`, branch `reverse`. -/
def EdgeIterator.next_loop_rev (cmp : Int → Int → Int → Int) (em : Int → EdgeEntry) :
    Nat → EdgeIterator → Option EdgeIterator
  | 0, it => if it.valid then none else some it
  | fuel + 1, it =>
    if it.valid then
      let it := it.step_rev em
      if it.visible_at cmp em (it.entries_cursor - sizeof_EdgeEntry) then some it
      else next_loop_rev cmp em fuel it
    else some it

/-- Method `EdgeIterator::next`, with fuel `num_entries` for its loop. -/
def EdgeIterator.next (cmp : Int → Int → Int → Int) (em : Int → EdgeEntry)
    (it : EdgeIterator) : Option EdgeIterator :=
  if !it.reverse then EdgeIterator.next_loop_fwd cmp em it.num_entries it
  else EdgeIterator.next_loop_rev cmp em it.num_entries it

/-- Method `EdgeIterator::dst_id`; `Graph::VERTEX_TOMBSTONE` (of `graph.hpp`) is a
parameter. -/
def EdgeIterator.dst_id (VERTEX_TOMBSTONE : Nat) (em : Int → EdgeEntry)
    (it : EdgeIterator) : Nat :=
  if !it.valid then VERTEX_TOMBSTONE
  else if !it.reverse then (em it.entries_cursor).get_dst
  else (em (it.entries_cursor - sizeof_EdgeEntry)).get_dst

/-- The bytes of `std::string_view(p, n)`. -/
def string_view (dm : Int → Nat) (p : Int) (n : Nat) : List Nat :=
  (List.range n).map (fun i => dm (p + (i : Nat)))

/-- Method `EdgeIterator::edge_data`. -/
def EdgeIterator.edge_data (em : Int → EdgeEntry) (dm : Int → Nat)
    (it : EdgeIterator) : List Nat :=
  if !it.valid then []
  else if !it.reverse then
    string_view dm (it.data_cursor - (em it.entries_cursor).length) (em it.entries_cursor).length
  else
    string_view dm it.data_cursor (em (it.entries_cursor - sizeof_EdgeEntry)).length

/-- The entry the iterator is positioned on: `*entries_cursor` when scanning with
`reverse = false`, `*(entries_cursor - 1)` with `reverse = true`. -/
def EdgeIterator.current_slot (it : EdgeIterator) : Int :=
  if !it.reverse then it.entries_cursor else it.entries_cursor - sizeof_EdgeEntry

/-- The caller's loop `while (it.valid()) { use(it); it.next(); }`: the list of iterator
states the caller sees while the iterator is valid. -/
def EdgeIterator.drain (cmp : Int → Int → Int → Int) (em : Int → EdgeEntry) :
    Nat → EdgeIterator → Option (List EdgeIterator)
  | 0, it => if it.valid then none else some []
  | fuel + 1, it =>
    if it.valid then
      match it.next cmp em with
      | some it1 => (drain cmp em fuel it1).map (fun l => it :: l)
      | none => none
    else some []

/-- Construction followed by the caller's loop: all states the iterator stops on. -/
def EdgeIterator.scan (cmp : Int → Int → Int → Int) (em : Int → EdgeEntry)
    (entries data : Int) (num_entries data_length : Nat) (read_epoch_id local_txn_id : Int)
    (reverse : Bool) : Option (List EdgeIterator) :=
  match EdgeIterator.ctor cmp em entries data num_entries data_length read_epoch_id
      local_txn_id reverse with
  | some it => EdgeIterator.drain cmp em num_entries it
  | none => none

/-- An iterator over a block, as `get_edges` builds it:
`EdgeIterator(get_entries(), get_data(), num_entries, data_length, ...)`. -/
def EdgeBlockHeader.scan (cmp : Int → Int → Int → Int) (b : EdgeBlockHeader)
    (read_epoch_id local_txn_id : Int) (reverse : Bool) : Option (List EdgeIterator) :=
  EdgeIterator.scan cmp b.entry_mem b.get_entries b.get_data b.num_entries b.data_length
    read_epoch_id local_txn_id reverse

/-- A block whose memory holds arbitrary fixed content before `fill`. -/
def EdgeBlockHeader.blank : EdgeBlockHeader :=
  { order := 0, type := BlockType.FREE, vid_high := 0, vid_low := 0, creation_time := 0,
    prev_pointer := 0, committed_time := 0, num_entries := 7, data_length := 9,
    entry_mem := fun _ => ⟨3, 0, 99, 1, 2⟩, data_mem := fun _ => 0xAA,
    bloom_bits := fun _ => true }

/-- The bytes of a caller buffer given as a list. -/
def buffer (l : List Nat) : Nat → Nat := fun i => l.getD i 0

/-- Constant `BlockManager::NULLPOINTER`. -/
def NULLPOINTER : Nat := 0

/-- Constant `BlockManager::MAX_ORDER`. -/
def MAX_ORDER : Nat := 64

/-- Constant `BlockManager::LARGE_BLOCK_THRESHOLD`. -/
def LARGE_BLOCK_THRESHOLD : Nat := 20

/-- Constant `BlockManager::FILE_TRUNC_SIZE`: `1ul << 30`. -/
def FILE_TRUNC_SIZE : Nat := 1 <<< 30

/-- Class `BlockManager` as one thread sees it: `free_blocks` is that thread's
`free_blocks.local()`, a vector of `LARGE_BLOCK_THRESHOLD` vectors, and `large_free_blocks`
a vector of `MAX_ORDER` vectors. The mapping itself and the file descriptor are left out:
`mmap`, `madvise` and `ftruncate` are taken to succeed. -/
structure BlockManager where
  capacity : Nat
  free_blocks : List (List Nat)
  large_free_blocks : List (List Nat)
  used_size : Nat
  file_size : Nat
  null_holder : Nat
deriving DecidableEq, Repr

/-- Method `BlockManager::pop`: the popped pointer and the free lists after it.
`free_block[order]` is defined for `order` below the vector's size. -/
def BlockManager.pop (free_block : List (List Nat)) (order : Nat) : Nat × List (List Nat) :=
  let pointer := NULLPOINTER
  if (free_block.getD order []).length ≠ 0 then
    let pointer := (free_block.getD order []).getLastD NULLPOINTER
    (pointer, free_block.set order (free_block.getD order []).dropLast)
  else (pointer, free_block)

/-- Method `BlockManager::push`. -/
def BlockManager.push (free_block : List (List Nat)) (order : Nat) (pointer : Nat) :
    List (List Nat) :=
  free_block.set order (free_block.getD order [] ++ [pointer])

/-- Method `BlockManager::alloc`: the returned offset and the manager after the call. -/
def BlockManager.alloc (m : BlockManager) (order : Nat) : Nat × BlockManager :=
  let r : Nat × BlockManager :=
    if order < LARGE_BLOCK_THRESHOLD then
      let q := BlockManager.pop m.free_blocks order
      (q.1, { m with free_blocks := q.2 })
    else
      let q := BlockManager.pop m.large_free_blocks order
      (q.1, { m with large_free_blocks := q.2 })
  let pointer := r.1
  let m := r.2
  if pointer = NULLPOINTER then
    let block_size := (1 <<< order) % 2 ^ 64
    let pointer := m.used_size
    let m := { m with used_size := (m.used_size + block_size) % 2 ^ 64 }
    if (pointer + block_size) % 2 ^ 64 ≥ m.file_size then
      let new_file_size :=
        (((pointer + block_size) % 2 ^ 64 / FILE_TRUNC_SIZE + 1) * FILE_TRUNC_SIZE) % 2 ^ 64
      if new_file_size ≥ m.file_size then (pointer, { m with file_size := new_file_size })
      else (pointer, m)
    else (pointer, m)
  else (pointer, m)

/-- Method `BlockManager::free`. -/
def BlockManager.free (m : BlockManager) (block order : Nat) : BlockManager :=
  if order < LARGE_BLOCK_THRESHOLD then
    { m with free_blocks := BlockManager.push m.free_blocks order block }
  else
    { m with large_free_blocks := BlockManager.push m.large_free_blocks order block }

/-- Constructor `BlockManager::BlockManager` up to the statement `used_size = 0`: the member
initialisers and the two assignments (`null_holder` is not yet assigned). -/
def BlockManager.initial (capacity : Nat) : BlockManager :=
  { capacity := capacity,
    free_blocks := List.replicate LARGE_BLOCK_THRESHOLD [],
    large_free_blocks := List.replicate MAX_ORDER [],
    used_size := 0,
    file_size := FILE_TRUNC_SIZE,
    null_holder := 0 }

/-- Constructor `BlockManager::BlockManager`, ending in
`null_holder = alloc(LARGE_BLOCK_THRESHOLD)`. -/
def BlockManager.ctor (capacity : Nat) : BlockManager :=
  let m := BlockManager.initial capacity
  let r := m.alloc LARGE_BLOCK_THRESHOLD
  { r.2 with null_holder := r.1 }

/-- The sizes the two vectors of free lists are constructed with. -/
def BlockManager.WF (m : BlockManager) : Prop :=
  m.free_blocks.length = LARGE_BLOCK_THRESHOLD ∧ m.large_free_blocks.length = MAX_ORDER

/-- A call made by the single client thread of a block manager. -/
inductive BMCall where
  | alloc (order : Nat)
  | free (block order : Nat)
deriving DecidableEq, Repr

/-- Runs a sequence of calls; the result is the final manager and, in call order, the
`(offset, order)` pair of every `alloc`. -/
def BlockManager.run : BlockManager → List BMCall → BlockManager × List (Nat × Nat)
  | m, [] => (m, [])
  | m, BMCall.alloc order :: rest =>
    let r := m.alloc order
    let t := BlockManager.run r.2 rest
    (t.1, (r.1, order) :: t.2)
  | m, BMCall.free block order :: rest => BlockManager.run (m.free block order) rest

/-- The calls are legal from manager `m` when `allocated` lists the blocks handed out so
far: every order is below `MAX_ORDER` and every `free` returns a block that an earlier
`alloc` handed out, with the order it was allocated with. -/
def BlockManager.legal : BlockManager → List (Nat × Nat) → List BMCall → Prop
  | _, _, [] => True
  | m, allocated, BMCall.alloc order :: rest =>
    order < MAX_ORDER ∧
      BlockManager.legal (m.alloc order).2 (((m.alloc order).1, order) :: allocated) rest
  | m, allocated, BMCall.free block order :: rest =>
    (block, order) ∈ allocated ∧ BlockManager.legal (m.free block order) allocated rest

/-- The orders of the `alloc` calls of a sequence. -/
def BMCall.alloc_orders : List BMCall → List Nat
  | [] => []
  | BMCall.alloc order :: rest => order :: BMCall.alloc_orders rest
  | BMCall.free _ _ :: rest => BMCall.alloc_orders rest

/-- Every offset the manager holds (the `used_size` cursor and the entries of all free
lists) is a multiple of `d`. -/
def BlockManager.AllDvd (d : Nat) (m : BlockManager) : Prop :=
  d ∣ m.used_size ∧ (∀ l ∈ m.free_blocks, ∀ p ∈ l, d ∣ p) ∧
    (∀ l ∈ m.large_free_blocks, ∀ p ∈ l, d ∣ p)

/-- The visibility predicate of the iterator on an entry, for the snapshot
`(read_epoch_id, local_txn_id)`: `cmp(creation_time) <= 0 && cmp(deletion_time) > 0`. -/
def EdgeEntry.visible (cmp : Int → Int → Int → Int) (read_epoch_id local_txn_id : Int)
    (e : EdgeEntry) : Bool :=
  decide (cmp e.creation_time read_epoch_id local_txn_id ≤ 0) &&
  decide (cmp e.deletion_time read_epoch_id local_txn_id > 0)

/-- The iterator scanning with `reverse = false` when `j` entries remain: its cursor is `j`
entries below `entries`. -/
def EdgeIterator.fwd_at (E D : Int) (n dl : Nat) (R T : Int) (j : Nat) (dc : Int) :
    EdgeIterator :=
  { entries := E, data := D, num_entries := n, data_length := dl, read_epoch_id := R,
    local_txn_id := T, reverse := false, entries_cursor := E - 24 * (j : Int),
    data_cursor := dc }

/-- Where a scan with `reverse = false` comes to rest when it starts with `j` entries
remaining and data cursor `dc`: the remaining count and data cursor at the first visible
entry, or `(0, _)` at the end. -/
def fwd_land (cmp : Int → Int → Int → Int) (em : Int → EdgeEntry) (E R T : Int) :
    Nat → Int → Nat × Int
  | 0, dc => (0, dc)
  | j + 1, dc =>
    if (em (E - 24 * ((j : Int) + 1))).visible cmp R T then (j + 1, dc)
    else fwd_land cmp em E R T j (dc - (em (E - 24 * ((j : Int) + 1))).length)

/-- The states a scan with `reverse = false` stops on, from `j` entries remaining. -/
def fwd_states (cmp : Int → Int → Int → Int) (em : Int → EdgeEntry) (E D : Int) (n dl : Nat)
    (R T : Int) : Nat → Int → List EdgeIterator
  | 0, _ => []
  | j + 1, dc =>
    let rest := fwd_states cmp em E D n dl R T j (dc - (em (E - 24 * ((j : Int) + 1))).length)
    if (em (E - 24 * ((j : Int) + 1))).visible cmp R T then
      EdgeIterator.fwd_at E D n dl R T (j + 1) dc :: rest
    else rest

/-- The iterator scanning with `reverse = true` when `j` of the `n` entries remain: its
cursor is `n - j` entries below `entries`. -/
def EdgeIterator.rev_at (E D : Int) (n dl : Nat) (R T : Int) (j : Nat) (dc : Int) :
    EdgeIterator :=
  { entries := E, data := D, num_entries := n, data_length := dl, read_epoch_id := R,
    local_txn_id := T, reverse := true, entries_cursor := E - 24 * ((n : Int) - j),
    data_cursor := dc }

/-- Where a scan with `reverse = true` comes to rest, from `j` entries remaining. -/
def rev_land (cmp : Int → Int → Int → Int) (em : Int → EdgeEntry) (E : Int) (n : Nat)
    (R T : Int) : Nat → Int → Nat × Int
  | 0, dc => (0, dc)
  | j + 1, dc =>
    if (em (E - 24 * ((n : Int) - j))).visible cmp R T then (j + 1, dc)
    else rev_land cmp em E n R T j (dc + (em (E - 24 * ((n : Int) - j))).length)

/-- The states a scan with `reverse = true` stops on, from `j` entries remaining. -/
def rev_states (cmp : Int → Int → Int → Int) (em : Int → EdgeEntry) (E D : Int) (n dl : Nat)
    (R T : Int) : Nat → Int → List EdgeIterator
  | 0, _ => []
  | j + 1, dc =>
    let rest := rev_states cmp em E D n dl R T j (dc + (em (E - 24 * ((n : Int) - j))).length)
    if (em (E - 24 * ((n : Int) - j))).visible cmp R T then
      EdgeIterator.rev_at E D n dl R T (j + 1) dc :: rest
    else rest

/-- The bytes reserved for the Bloom filter at the top of an edge block of the given order:
`2^order >> 4` from order `BLOOM_FILTER_THRESHOLD` on, none below. -/
def bloom_bytes (order : Nat) : Nat :=
  if order ≥ BLOOM_FILTER_THRESHOLD then 2 ^ order >>> BLOOM_FILTER_PORTION else 0

/-- The edge-block size invariant:
`sizeof(header) + num_entries * sizeof(entry) + data_length + bloom_bytes <= 2^order`. -/
def EdgeBlockHeader.size_ok (b : EdgeBlockHeader) : Prop :=
  sizeof_EdgeBlockHeader + sizeof_EdgeEntry * b.num_entries + b.data_length
    + bloom_bytes b.order ≤ 2 ^ b.order

/-- The bytes `data[0 .. entry.length)` that `append(entry, data)` copies. -/
def payload (x : EdgeEntry × (Nat → Nat)) : List Nat :=
  (List.range x.1.length).map x.2

/-- The sum of the payload lengths of a list of appended entries. -/
def total_length (xs : List (EdgeEntry × (Nat → Nat))) : Nat :=
  (xs.map (fun x => x.1.length)).sum

/-- The entry store `em` and the byte store `dm` hold the appended list `xs`: entry `i`
sits at `A - 24 * (i + 1)` and its payload at `D + (sum of the earlier lengths)`. -/
def Stored (em : Int → EdgeEntry) (dm : Int → Nat) (A D : Int)
    (xs : List (EdgeEntry × (Nat → Nat))) : Prop :=
  ∀ (i : Nat) (x : EdgeEntry × (Nat → Nat)), xs[i]? = some x →
    em (A - 24 * ((i : Int) + 1)) = x.1 ∧
    ∀ k : Nat, k < x.1.length → dm (D + (total_length (xs.take i) : Nat) + (k : Nat)) = x.2 k

/-- Block `b` holds exactly the appended list `xs`: the published pair is
`(|xs|, total payload length)`, the stores hold `xs`, and the two regions fit in the block. -/
def EdgeBlockHeader.Holds (b : EdgeBlockHeader) (xs : List (EdgeEntry × (Nat → Nat))) : Prop :=
  b.num_entries = xs.length ∧ b.data_length = total_length xs ∧
    Stored b.entry_mem b.data_mem b.get_entries b.get_data xs ∧
    24 * xs.length + total_length xs ≤ 2 ^ b.order

/-- What a caller reads off an iterator state: the entry under the cursor, `dst_id()` and
`edge_data()`. -/
def EdgeIterator.view (tomb : Nat) (em : Int → EdgeEntry) (dm : Int → Nat)
    (it : EdgeIterator) : EdgeEntry × Nat × List Nat :=
  (em it.current_slot, it.dst_id tomb em, it.edge_data em dm)

/-- What an appended pair `(entry, data)` should read back as. -/
def expected_view (x : EdgeEntry × (Nat → Nat)) : EdgeEntry × Nat × List Nat :=
  (x.1, x.1.get_dst, payload x)

/-- A block built by `fill` followed by `append` calls that all succeed. -/
def EdgeBlockHeader.build (hashes : Nat → Nat → List Nat) (b0 : EdgeBlockHeader)
    (order vid : Nat) (creation_time : Int) (prev_pointer : Nat) (committed_time : Int)
    (xs : List (EdgeEntry × (Nat → Nat))) : Option EdgeBlockHeader :=
  (b0.fill order vid creation_time prev_pointer committed_time).append_all hashes xs

/-- The views of all states a scan over block `b` stops on. -/
def EdgeBlockHeader.scan_views (cmp : Int → Int → Int → Int) (tomb : Nat)
    (b : EdgeBlockHeader) (read_epoch_id local_txn_id : Int) (reverse : Bool) :
    Option (List (EdgeEntry × Nat × List Nat)) :=
  (b.scan cmp read_epoch_id local_txn_id reverse).map
    (fun l => l.map (EdgeIterator.view tomb b.entry_mem b.data_mem))

/-- The entries a scan over block `b` stops on, in the order it yields them. -/
def EdgeBlockHeader.scan_entries (cmp : Int → Int → Int → Int) (b : EdgeBlockHeader)
    (read_epoch_id local_txn_id : Int) (reverse : Bool) : Option (List EdgeEntry) :=
  (b.scan_views cmp 0 read_epoch_id local_txn_id reverse).map (fun l => l.map (fun v => v.1))

/-- A concrete sequence of appends used in the examples: entry 0 (dst 11, one byte), entry 1
(dst 12, two bytes, deleted at epoch 3), entry 2 (dst 13, one byte). -/
def sample_appends : List (EdgeEntry × (Nat → Nat)) :=
  [(⟨1, 0, 11, 1, 100⟩, buffer [65]), (⟨2, 0, 12, 2, 3⟩, buffer [66, 67]),
   (⟨1, 0, 13, 2, 100⟩, buffer [68])]

/-- A hash family for the examples: two bit positions per vertex id. -/
def sample_hashes : Nat → Nat → List Nat :=
  fun size_arg v => [v % 2 ^ size_arg, (v / 7) % 2 ^ size_arg]

/-- Whether the scan over `n` entries stops on the slot at pointer `p`; `none` if the scan
does not return. -/
def EdgeIterator.yields (cmp : Int → Int → Int → Int) (em : Int → EdgeEntry)
    (entries data : Int) (num_entries data_length : Nat) (read_epoch_id local_txn_id : Int)
    (reverse : Bool) (p : Int) : Option Bool :=
  (EdgeIterator.scan cmp em entries data num_entries data_length read_epoch_id local_txn_id
    reverse).map (fun l => decide (p ∈ l.map EdgeIterator.current_slot))

/-- An entry store for the examples with four slots below pointer 128, read by transaction
7 at epoch 5: slot 104 created by transaction 7 and live, slot 80 created by transaction 9,
slot 56 committed at epoch 1 and deleted by transaction 7, everything else committed at
epoch 1 and deleted by transaction 9. -/
def sample_pending : Int → EdgeEntry :=
  fun p =>
    if p = 104 then ⟨0, 0, 1, -7, 2 ^ 63 - 1⟩
    else if p = 80 then ⟨0, 0, 2, -9, 2 ^ 63 - 1⟩
    else if p = 56 then ⟨0, 0, 3, 1, -7⟩
    else ⟨0, 0, 4, 1, -9⟩

/-- A sequence of `append` calls, each of which may succeed or return `nullptr`: the final
block and the returned pointers in call order. -/
def EdgeBlockHeader.append_each (hashes : Nat → Nat → List Nat) :
    EdgeBlockHeader → List (EdgeEntry × (Nat → Nat)) → EdgeBlockHeader × List (Option Int)
  | b, [] => (b, [])
  | b, (entry, data) :: rest =>
    let r := b.append hashes entry data
    let t := append_each hashes r.1 rest
    (t.1, r.2 :: t.2)

/-- Method `BlockManager::convert<T>`; `data` is the base address of the mapping and `none`
is `nullptr`. -/
def BlockManager.convert (data : Nat) (block : Nat) : Option Nat :=
  if block = NULLPOINTER then none else some (data + block)

/-- The calls are admissible from manager `m` when `returned` lists the offsets `alloc` has
handed to the caller so far: every order is below `MAX_ORDER` and every `free` is applied to
an offset that an earlier `alloc` returned to the caller. -/
def BlockManager.frees_returned : BlockManager → List Nat → List BMCall → Prop
  | _, _, [] => True
  | m, returned, BMCall.alloc order :: rest =>
    order < MAX_ORDER ∧
      BlockManager.frees_returned (m.alloc order).2 ((m.alloc order).1 :: returned) rest
  | m, returned, BMCall.free block order :: rest =>
    order < MAX_ORDER ∧ block ∈ returned ∧
      BlockManager.frees_returned (m.free block order) returned rest

/-- Decision procedure for `BlockManager.frees_returned`. -/
instance BlockManager.decFreesReturned :
    (m : BlockManager) → (returned : List Nat) → (ops : List BMCall) →
      Decidable (m.frees_returned returned ops)
  | _, _, [] => isTrue trivial
  | m, returned, BMCall.alloc order :: rest =>
    @instDecidableAnd _ _ (Nat.decLt _ _)
      (BlockManager.decFreesReturned (m.alloc order).2 ((m.alloc order).1 :: returned) rest)
  | m, returned, BMCall.free block order :: rest =>
    @instDecidableAnd _ _ (Nat.decLt _ _)
      (@instDecidableAnd _ _ (inferInstanceAs (Decidable (block ∈ returned)))
        (BlockManager.decFreesReturned (m.free block order) returned rest))

/-- The number of bytes the `alloc` calls of a sequence ask for. -/
def BMCall.requested : List BMCall → Nat
  | [] => 0
  | BMCall.alloc order :: rest => 2 ^ order + BMCall.requested rest
  | BMCall.free _ _ :: rest => BMCall.requested rest

/-- The calls `alloc(20); alloc(21); ...; alloc(63); alloc(6)`. -/
def wrapping_calls : List BMCall :=
  (List.range 44).map (fun i => BMCall.alloc (20 + i)) ++ [BMCall.alloc 6]

/-- Class `N2OBlockHeader`, with the two fields of its base class `BlockHeader`. -/
structure N2OBlockHeader where
  order : Nat
  type : BlockType
  vid_high : Nat
  vid_low : Nat
  creation_time : Int
  prev_pointer : Nat
deriving DecidableEq, Repr

/-- Method `BlockHeader::get_block_size`: `1ul << order` (defined for `order < 64`). -/
def N2OBlockHeader.get_block_size (h : N2OBlockHeader) : Nat :=
  (1 <<< h.order) % 2 ^ 64

/-- Method `N2OBlockHeader::get_vertex_id`. -/
def N2OBlockHeader.get_vertex_id (h : N2OBlockHeader) : Nat :=
  ((h.vid_high <<< 32) % 2 ^ 64 + h.vid_low) % 2 ^ 64

/-- Method `N2OBlockHeader::set_vertex_id`, with `NDEBUG` (the `assert` on the range of
`vid` compiled out). -/
def N2OBlockHeader.set_vertex_id (h : N2OBlockHeader) (vid : Nat) : N2OBlockHeader :=
  { h with vid_high := (vid >>> 32) &&& (2 ^ 16 - 1), vid_low := vid &&& (2 ^ 32 - 1) }

/-- Method `N2OBlockHeader::fill`. -/
def N2OBlockHeader.fill (h : N2OBlockHeader) (order : Nat) (type : BlockType) (vid : Nat)
    (creation_time : Int) (prev_pointer : Nat) : N2OBlockHeader :=
  let h := { h with order := order, type := type }
  let h := h.set_vertex_id vid
  let h := { h with creation_time := creation_time }
  { h with prev_pointer := prev_pointer }

/-- Constant `sizeof(VertexBlockHeader)`. -/
def sizeof_VertexBlockHeader : Nat := 32

/-- Class `VertexBlockHeader` together with the bytes of its block, keyed by byte offset
from the block start. -/
structure VertexBlockHeader extends N2OBlockHeader where
  length : Nat
  data_mem : Int → Nat

/-- Constant `VertexBlockHeader::TOMBSTONE`: `UINT64_MAX`. -/
def VertexBlockHeader.TOMBSTONE : Nat := 2 ^ 64 - 1

/-- Method `VertexBlockHeader::get_length`. -/
def VertexBlockHeader.get_length (b : VertexBlockHeader) : Nat := b.length

/-- Method `VertexBlockHeader::set_length`. -/
def VertexBlockHeader.set_length (b : VertexBlockHeader) (length : Nat) : VertexBlockHeader :=
  { b with length := length }

/-- Method `VertexBlockHeader::get_data`: the flexible array member right after the
header. -/
def VertexBlockHeader.get_data (_b : VertexBlockHeader) : Int := sizeof_VertexBlockHeader

/-- Method `VertexBlockHeader::set_data`: the block after the call and the returned flag.
`length` is a `size_t`; the sum of the size test is computed in `size_t`. -/
def VertexBlockHeader.set_data (b : VertexBlockHeader) (data : Nat → Nat) (length : Nat) :
    VertexBlockHeader × Bool :=
  if (sizeof_VertexBlockHeader + length) % 2 ^ 64 > b.get_block_size then (b, false)
  else
    let b := { b with data_mem := copy_bytes b.data_mem b.get_data data length }
    let b := b.set_length length
    (b, true)

/-- Method `VertexBlockHeader::fill`; the flag returned by `set_data` is dropped, as in the
source. -/
def VertexBlockHeader.fill (b : VertexBlockHeader) (order vid : Nat) (creation_time : Int)
    (prev_pointer : Nat) (data : Nat → Nat) (length : Nat) : VertexBlockHeader :=
  let b := { b with toN2OBlockHeader :=
    b.toN2OBlockHeader.fill order BlockType.VERTEX vid creation_time prev_pointer }
  if length = VertexBlockHeader.TOMBSTONE then b.set_length VertexBlockHeader.TOMBSTONE
  else (b.set_data data length).1

/-- Class `EdgeLabelEntry` (16 bytes): `label : u16`, `pointer : u64`. -/
structure EdgeLabelEntry where
  label : Nat
  pointer : Nat
deriving DecidableEq, Repr

/-- Constant `sizeof(EdgeLabelEntry)`. -/
def sizeof_EdgeLabelEntry : Nat := 16

/-- Constant `sizeof(EdgeLabelBlockHeader)`. -/
def sizeof_EdgeLabelBlockHeader : Nat := 32

/-- Class `EdgeLabelBlockHeader` together with its flexible array `entries[]`, indexed by
array position. -/
structure EdgeLabelBlockHeader extends N2OBlockHeader where
  num_entries : Nat
  entries : Nat → EdgeLabelEntry

/-- Method `EdgeLabelBlockHeader::clear`. -/
def EdgeLabelBlockHeader.clear (b : EdgeLabelBlockHeader) : EdgeLabelBlockHeader :=
  { b with num_entries := 0 }

/-- Method `EdgeLabelBlockHeader::append`: the block after the call and the returned flag;
the size test is computed in `size_t`. -/
def EdgeLabelBlockHeader.append (b : EdgeLabelBlockHeader) (entry : EdgeLabelEntry) :
    EdgeLabelBlockHeader × Bool :=
  let num := b.num_entries
  if (sizeof_EdgeLabelBlockHeader + (num + 1) * sizeof_EdgeLabelEntry) % 2 ^ 64
      > b.get_block_size then (b, false)
  else
    let b := { b with entries := Function.update b.entries num entry }
    let b := { b with num_entries := (num + 1) % 2 ^ 64 }
    (b, true)

/-- Method `EdgeLabelBlockHeader::fill`. -/
def EdgeLabelBlockHeader.fill (b : EdgeLabelBlockHeader) (order vid : Nat)
    (creation_time : Int) (prev_pointer : Nat) : EdgeLabelBlockHeader :=
  let b := { b with toN2OBlockHeader :=
    b.toN2OBlockHeader.fill order BlockType.EDGE_LABEL vid creation_time prev_pointer }
  b.clear

/-- A sequence of `EdgeLabelBlockHeader::append` calls all of which return `true`; `none`
as soon as one returns `false`. -/
def EdgeLabelBlockHeader.append_all :
    EdgeLabelBlockHeader → List EdgeLabelEntry → Option EdgeLabelBlockHeader
  | b, [] => some b
  | b, entry :: rest =>
    match b.append entry with
    | (b1, true) => append_all b1 rest
    | (_, false) => none

/-- Method `EdgeBlockHeader::append_without_update_size`. -/
def EdgeBlockHeader.append_without_update_size (hashes : Nat → Nat → List Nat)
    (b : EdgeBlockHeader) (entry : EdgeEntry) (data : Nat → Nat) (num length : Nat) :
    EdgeBlockHeader × Option Int :=
  let filter := b.get_bloom_filter
  if !b.has_space entry num length then (b, none)
  else
    let slot : Int := b.get_entries - (sizeof_EdgeEntry : Int) * ((num : Int) + 1)
    let b := { b with entry_mem := Function.update b.entry_mem slot entry }
    let b := { b with data_mem := copy_bytes b.data_mem (b.get_data + length) data entry.length }
    let b := if filter.valid then
        { b with bloom_bits := filter.insert hashes b.bloom_bits entry.get_dst }
      else b
    (b, some (b.get_entries - (sizeof_EdgeEntry : Int) * ((num : Int) + 1)))

/-- Method `EdgeBlockHeader::set_num_entries_data_length_atomic`, called by the only thread
that touches the block: the compare-and-swap of the tail against itself succeeds at once
and stores the pair. Both arguments are `size_t` values. -/
def EdgeBlockHeader.set_num_entries_data_length_atomic (b : EdgeBlockHeader)
    (num_entries data_length : Nat) : EdgeBlockHeader :=
  { b with num_entries := num_entries, data_length := data_length }

/-- Method `EdgeBlockHeader::get_num_entries_data_length_atomic`. -/
def EdgeBlockHeader.get_num_entries_data_length_atomic (b : EdgeBlockHeader) : Nat × Nat :=
  (b.num_entries, b.data_length)

/-- A vertex block whose memory holds arbitrary fixed content before `fill`. -/
def VertexBlockHeader.blank : VertexBlockHeader :=
  { order := 0, type := BlockType.FREE, vid_high := 0, vid_low := 0, creation_time := 0,
    prev_pointer := 0, length := 2 ^ 64 - 1, data_mem := fun _ => 0xAA }

/-- An edge-label block whose memory holds arbitrary fixed content before `fill`. -/
def EdgeLabelBlockHeader.blank : EdgeLabelBlockHeader :=
  { order := 0, type := BlockType.FREE, vid_high := 0, vid_low := 0, creation_time := 0,
    prev_pointer := 0, num_entries := 9, entries := fun _ => ⟨7, 7⟩ }

/-- The block the sample appends produce in an order-8 block. -/
def sample_block : EdgeBlockHeader :=
  ((EdgeBlockHeader.blank.fill 8 5 1 0 1).append_each sample_hashes sample_appends).1

/-- The half-open byte ranges `[lo1, hi1)` and `[lo2, hi2)` do not overlap. -/
def ranges_disjoint (lo1 hi1 lo2 hi2 : Int) : Prop := hi1 ≤ lo2 ∨ hi2 ≤ lo1

/-- The half-open byte range `[lo, hi)` lies inside a block of `size` bytes. -/
def range_inside (lo hi : Int) (size : Nat) : Prop := 0 ≤ lo ∧ lo ≤ hi ∧ hi ≤ (size : Int)

/-- Decision procedure for `BlockManager.legal`. -/
instance BlockManager.decLegal :
    (m : BlockManager) → (allocated : List (Nat × Nat)) → (ops : List BMCall) →
      Decidable (m.legal allocated ops)
  | _, _, [] => isTrue trivial
  | m, allocated, BMCall.alloc order :: rest =>
    @instDecidableAnd _ _ (Nat.decLt _ _)
      (BlockManager.decLegal (m.alloc order).2 (((m.alloc order).1, order) :: allocated) rest)
  | m, allocated, BMCall.free block order :: rest =>
    @instDecidableAnd _ _ (inferInstanceAs (Decidable ((block, order) ∈ allocated)))
      (BlockManager.decLegal (m.free block order) allocated rest)

/-- The calls `alloc(63); alloc(62); ...; alloc(30)`. -/
def growth_calls : List BMCall :=
  (List.range 34).map (fun i => BMCall.alloc (63 - i))

/-- The free list of a size class: `alloc(order)` pops from it and `free(_, order)` pushes to
it. It is `free_blocks[order]` (the calling thread's) below `LARGE_BLOCK_THRESHOLD` and
`large_free_blocks[order]` from there on. -/
def BlockManager.free_list (m : BlockManager) (order : Nat) : List Nat :=
  if order < LARGE_BLOCK_THRESHOLD then m.free_blocks.getD order []
  else m.large_free_blocks.getD order []

/-- The order argument of a call. -/
def BMCall.order : BMCall → Nat
  | BMCall.alloc order => order
  | BMCall.free _ order => order

/-- The calls `alloc(20); alloc(21); ...; alloc(63); alloc(20); free(2^20, 20); alloc(21)`. -/
def reuse_calls : List BMCall :=
  (List.range 44).map (fun i => BMCall.alloc (20 + i)) ++
    [BMCall.alloc 20, BMCall.free (2 ^ 20) 20, BMCall.alloc 21]

/-- Removes one occurrence of block `a` from a list of blocks. -/
def remove_block (a : Nat × Nat) : List (Nat × Nat) → List (Nat × Nat)
  | [] => []
  | x :: rest => if x = a then rest else x :: remove_block a rest

/-- Runs a sequence of calls and keeps the list of live blocks, i.e. the `(offset, order)`
pairs that are allocated and not yet freed: `alloc` adds its block, `free` removes one
occurrence of the block it returns. -/
def BlockManager.run_live :
    BlockManager → List (Nat × Nat) → List BMCall → BlockManager × List (Nat × Nat)
  | m, live, [] => (m, live)
  | m, live, BMCall.alloc order :: rest =>
    BlockManager.run_live (m.alloc order).2 (((m.alloc order).1, order) :: live) rest
  | m, live, BMCall.free block order :: rest =>
    BlockManager.run_live (m.free block order) (remove_block (block, order) live) rest

/-- The calls respect the discipline of a single client when `live` lists the live blocks:
every `alloc` order is below `MAX_ORDER` and every `free` returns a currently live block
with the order it was allocated with (after which it is no longer live). -/
def BlockManager.frees_live : BlockManager → List (Nat × Nat) → List BMCall → Prop
  | _, _, [] => True
  | m, live, BMCall.alloc order :: rest =>
    order < MAX_ORDER ∧
      BlockManager.frees_live (m.alloc order).2 (((m.alloc order).1, order) :: live) rest
  | m, live, BMCall.free block order :: rest =>
    (block, order) ∈ live ∧
      BlockManager.frees_live (m.free block order) (remove_block (block, order) live) rest

/-- Decision procedure for `BlockManager.frees_live`. -/
instance BlockManager.decFreesLive :
    (m : BlockManager) → (live : List (Nat × Nat)) → (ops : List BMCall) →
      Decidable (m.frees_live live ops)
  | _, _, [] => isTrue trivial
  | m, live, BMCall.alloc order :: rest =>
    @instDecidableAnd _ _ (Nat.decLt _ _)
      (BlockManager.decFreesLive (m.alloc order).2 (((m.alloc order).1, order) :: live) rest)
  | m, live, BMCall.free block order :: rest =>
    @instDecidableAnd _ _ (inferInstanceAs (Decidable ((block, order) ∈ live)))
      (BlockManager.decFreesLive (m.free block order) (remove_block (block, order) live) rest)

/-- The byte ranges `[p, p + 2^order)` of two blocks `(p, order)` do not overlap. -/
def blocks_disjoint (a b : Nat × Nat) : Prop :=
  a.1 + 2 ^ a.2 ≤ b.1 ∨ b.1 + 2 ^ b.2 ≤ a.1

instance (a b : Nat × Nat) : Decidable (blocks_disjoint a b) := by
  unfold blocks_disjoint; infer_instance

/-- The `(offset, order)` pairs held in a vector of free lists whose first list has order
`start`. -/
def pairs_from : Nat → List (List Nat) → List (Nat × Nat)
  | _, [] => []
  | start, l :: rest => l.map (fun p => (p, start)) ++ pairs_from (start + 1) rest

/-- All blocks a manager knows of: the live ones and those in its free lists. -/
def BlockManager.all_blocks (m : BlockManager) (live : List (Nat × Nat)) : List (Nat × Nat) :=
  live ++ (pairs_from 0 m.free_blocks ++ pairs_from 0 m.large_free_blocks)

/-- The pointers of the `n` published entry slots `[entries - n, entries)`. -/
def published_slots (entries : Int) (n : Nat) : List Int :=
  (List.range n).map (fun (i : Nat) => entries - (sizeof_EdgeEntry : Int) * ((i : Int) + 1))

/-- The `while` loop of the constructor, branch `!reverse`, with the log of the entry slots
it reads, in program order: the timestamps of `*entries_cursor` in the `if`, then
`entries_cursor->get_length()`. -/
def EdgeIterator.ctor_loop_fwd_logged (cmp : Int → Int → Int → Int) (em : Int → EdgeEntry) :
    Nat → EdgeIterator → Option (EdgeIterator × List Int)
  | 0, it =>
    if it.valid then
      if it.visible_at cmp em it.entries_cursor then some (it, [it.entries_cursor]) else none
    else some (it, [])
  | fuel + 1, it =>
    if it.valid then
      if it.visible_at cmp em it.entries_cursor then some (it, [it.entries_cursor])
      else (ctor_loop_fwd_logged cmp em fuel (it.step_fwd em)).map
        (fun r => (r.1, it.entries_cursor :: it.entries_cursor :: r.2))
    else some (it, [])

/-- The `while` loop of the constructor, branch `reverse`, with the log of the entry slots
it reads: the timestamps of `*(entries_cursor - 1)`, then `(entries_cursor - 1)->get_length()`. -/
def EdgeIterator.ctor_loop_rev_logged (cmp : Int → Int → Int → Int) (em : Int → EdgeEntry) :
    Nat → EdgeIterator → Option (EdgeIterator × List Int)
  | 0, it =>
    if it.valid then
      if it.visible_at cmp em (it.entries_cursor - sizeof_EdgeEntry) then
        some (it, [it.entries_cursor - sizeof_EdgeEntry])
      else none
    else some (it, [])
  | fuel + 1, it =>
    if it.valid then
      if it.visible_at cmp em (it.entries_cursor - sizeof_EdgeEntry) then
        some (it, [it.entries_cursor - sizeof_EdgeEntry])
      else (ctor_loop_rev_logged cmp em fuel (it.step_rev em)).map
        (fun r => (r.1, (it.entries_cursor - sizeof_EdgeEntry)
          :: (it.entries_cursor - sizeof_EdgeEntry) :: r.2))
    else some (it, [])

/-- Constructor `EdgeIterator::EdgeIterator` with the log of the entry slots it reads. -/
def EdgeIterator.ctor_logged (cmp : Int → Int → Int → Int) (em : Int → EdgeEntry)
    (entries data : Int) (num_entries data_length : Nat) (read_epoch_id local_txn_id : Int)
    (reverse : Bool) : Option (EdgeIterator × List Int) :=
  let it : EdgeIterator :=
    { entries := entries, data := data, num_entries := num_entries,
      data_length := data_length, read_epoch_id := read_epoch_id,
      local_txn_id := local_txn_id, reverse := reverse,
      entries_cursor :=
        if !reverse then entries - (sizeof_EdgeEntry : Int) * num_entries else entries,
      data_cursor := if !reverse then data + data_length else data }
  if !reverse then EdgeIterator.ctor_loop_fwd_logged cmp em num_entries it
  else EdgeIterator.ctor_loop_rev_logged cmp em num_entries it

/-- The `while` loop of `next`, branch `!reverse`, with the log of the entry slots it reads:
`entries_cursor->get_length()` before the increment, then the timestamps of
`*entries_cursor` after it. -/
def EdgeIterator.next_loop_fwd_logged (cmp : Int → Int → Int → Int) (em : Int → EdgeEntry) :
    Nat → EdgeIterator → Option (EdgeIterator × List Int)
  | 0, it => if it.valid then none else some (it, [])
  | fuel + 1, it =>
    if it.valid then
      let it1 := it.step_fwd em
      if it1.visible_at cmp em it1.entries_cursor then
        some (it1, [it.entries_cursor, it1.entries_cursor])
      else (next_loop_fwd_logged cmp em fuel it1).map
        (fun r => (r.1, it.entries_cursor :: it1.entries_cursor :: r.2))
    else some (it, [])

/-- The `while` loop of `next`, branch `reverse`, with the log of the entry slots it reads:
`(entries_cursor - 1)->get_length()` before the decrement, then the timestamps of
`*(entries_cursor - 1)` after it. -/
def EdgeIterator.next_loop_rev_logged (cmp : Int → Int → Int → Int) (em : Int → EdgeEntry) :
    Nat → EdgeIterator → Option (EdgeIterator × List Int)
  | 0, it => if it.valid then none else some (it, [])
  | fuel + 1, it =>
    if it.valid then
      let it1 := it.step_rev em
      if it1.visible_at cmp em (it1.entries_cursor - sizeof_EdgeEntry) then
        some (it1, [it.entries_cursor - sizeof_EdgeEntry, it1.entries_cursor - sizeof_EdgeEntry])
      else (next_loop_rev_logged cmp em fuel it1).map
        (fun r => (r.1, (it.entries_cursor - sizeof_EdgeEntry)
          :: (it1.entries_cursor - sizeof_EdgeEntry) :: r.2))
    else some (it, [])

/-- Method `EdgeIterator::next` with the log of the entry slots it reads. -/
def EdgeIterator.next_logged (cmp : Int → Int → Int → Int) (em : Int → EdgeEntry)
    (it : EdgeIterator) : Option (EdgeIterator × List Int) :=
  if !it.reverse then EdgeIterator.next_loop_fwd_logged cmp em it.num_entries it
  else EdgeIterator.next_loop_rev_logged cmp em it.num_entries it

/-- The caller's loop `while (it.valid()) it.next();`: for each call of `next` the entry
slots it reads. -/
def EdgeIterator.drain_logged (cmp : Int → Int → Int → Int) (em : Int → EdgeEntry) :
    Nat → EdgeIterator → Option (List (List Int))
  | 0, it => if it.valid then none else some []
  | fuel + 1, it =>
    if it.valid then
      match it.next_logged cmp em with
      | some r => (drain_logged cmp em fuel r.1).map (fun l => r.2 :: l)
      | none => none
    else some []

/-- Construction followed by the caller's loop: the entry slots read by the constructor,
then those read by each call of `next`. -/
def EdgeIterator.scan_logged (cmp : Int → Int → Int → Int) (em : Int → EdgeEntry)
    (entries data : Int) (num_entries data_length : Nat) (read_epoch_id local_txn_id : Int)
    (reverse : Bool) : Option (List (List Int)) :=
  match EdgeIterator.ctor_logged cmp em entries data num_entries data_length read_epoch_id
      local_txn_id reverse with
  | some r => (EdgeIterator.drain_logged cmp em num_entries r.1).map (fun l => r.2 :: l)
  | none => none

/-- The iterator after `k` calls of `next`; `none` if one of the calls does not return. -/
def EdgeIterator.nexts (cmp : Int → Int → Int → Int) (em : Int → EdgeEntry) :
    Nat → EdgeIterator → Option EdgeIterator
  | 0, it => some it
  | k + 1, it =>
    match it.next cmp em with
    | some it1 => EdgeIterator.nexts cmp em k it1
    | none => none

theorem pop_push (fb : List (List Nat)) (order p : Nat) (h : order < fb.length) :
    BlockManager.pop (BlockManager.push fb order p) order = (p, fb) := by
  unfold BlockManager.pop BlockManager.push
  have h1 : (fb.set order (fb.getD order [] ++ [p])).getD order [] = fb.getD order [] ++ [p] := by
    simp [List.getD_eq_getElem?_getD, List.getElem?_set, h]
  rw [h1]
  simp
  apply List.ext_getElem?
  intro i
  by_cases hi : order = i
  · subst hi; simp [List.getElem?_set, h, List.getD_eq_getElem?_getD]
  · simp [List.getElem?_set, hi]

theorem pop_dvd (d : Nat) (fb : List (List Nat)) (order : Nat)
    (h : ∀ l ∈ fb, ∀ p ∈ l, d ∣ p) :
    d ∣ (BlockManager.pop fb order).1 ∧ ∀ l ∈ (BlockManager.pop fb order).2, ∀ p ∈ l, d ∣ p := by
  unfold BlockManager.pop
  by_cases hlen : (fb.getD order []).length ≠ 0
  · have hne : fb.getD order [] ≠ [] := by
      intro h0; rw [h0] at hlen; simp at hlen
    have hmem : fb.getD order [] ∈ fb := by
      rw [List.getD_eq_getElem?_getD] at hne ⊢
      cases hget : fb[order]? with
      | none => simp [hget] at hne
      | some l => simp only [Option.getD_some]; exact List.getElem?_mem hget
    rw [if_pos hlen]
    refine ⟨?_, ?_⟩
    · apply h _ hmem
      rw [List.getLastD_eq_getLast?, List.getLast?_eq_getLast _ hne]
      exact List.getLast_mem hne
    · intro l hl p hp
      rcases List.mem_or_eq_of_mem_set hl with hl | hl
      · exact h l hl p hp
      · subst hl
        exact h _ hmem p (List.dropLast_subset _ hp)
  · rw [if_neg hlen]
    exact ⟨by simp [NULLPOINTER], h⟩

theorem push_dvd (d : Nat) (fb : List (List Nat)) (order p : Nat)
    (h : ∀ l ∈ fb, ∀ q ∈ l, d ∣ q) (hp : d ∣ p) :
    ∀ l ∈ BlockManager.push fb order p, ∀ q ∈ l, d ∣ q := by
  unfold BlockManager.push
  intro l hl q hq
  rcases List.mem_or_eq_of_mem_set hl with hl | hl
  · exact h l hl q hq
  · subst hl
    rcases List.mem_append.mp hq with hq | hq
    · rw [List.getD_eq_getElem?_getD] at hq
      cases hget : fb[order]? with
      | none => simp [hget] at hq
      | some l =>
        simp only [hget, Option.getD_some] at hq
        exact h l (List.getElem?_mem hget) q hq
    · simp at hq; subst hq; exact hp

theorem free_allDvd (d : Nat) (m : BlockManager) (p order : Nat)
    (h : m.AllDvd d) (hp : d ∣ p) : (m.free p order).AllDvd d := by
  obtain ⟨h1, h2, h3⟩ := h
  unfold BlockManager.free
  split
  · exact ⟨h1, push_dvd d _ order p h2 hp, h3⟩
  · exact ⟨h1, h2, push_dvd d _ order p h3 hp⟩

theorem alloc_allDvd (k0 : Nat) (m : BlockManager) (order : Nat)
    (h : m.AllDvd (2 ^ k0)) (hk : k0 ≤ order) (ho : order < MAX_ORDER) :
    2 ^ k0 ∣ (m.alloc order).1 ∧ (m.alloc order).2.AllDvd (2 ^ k0) := by
  obtain ⟨h1, h2, h3⟩ := h
  have h64 : 2 ^ k0 ∣ 2 ^ 64 := Nat.pow_dvd_pow 2 (by unfold MAX_ORDER at ho; omega)
  have hbs : 2 ^ k0 ∣ (1 <<< order) % 2 ^ 64 := by
    rw [Nat.one_shiftLeft]
    exact (Nat.dvd_mod_iff h64).mpr (Nat.pow_dvd_pow 2 hk)
  have hused : 2 ^ k0 ∣ (m.used_size + (1 <<< order) % 2 ^ 64) % 2 ^ 64 :=
    (Nat.dvd_mod_iff h64).mpr (Nat.dvd_add h1 hbs)
  unfold BlockManager.alloc
  by_cases hlt : order < LARGE_BLOCK_THRESHOLD
  · obtain ⟨p1, p2⟩ := pop_dvd (2 ^ k0) m.free_blocks order h2
    simp only [hlt, if_true]
    split
    · split
      · split
        · exact ⟨h1, hused, p2, h3⟩
        · exact ⟨h1, hused, p2, h3⟩
      · exact ⟨h1, hused, p2, h3⟩
    · exact ⟨p1, h1, p2, h3⟩
  · obtain ⟨p1, p2⟩ := pop_dvd (2 ^ k0) m.large_free_blocks order h3
    simp only [hlt, if_false]
    split
    · split
      · split
        · exact ⟨h1, hused, h2, p2⟩
        · exact ⟨h1, hused, h2, p2⟩
      · exact ⟨h1, hused, h2, p2⟩
    · exact ⟨p1, h1, h2, p2⟩

theorem run_allDvd (k0 : Nat) (ops : List BMCall) :
    ∀ (m : BlockManager) (allocated : List (Nat × Nat)),
      m.AllDvd (2 ^ k0) → (∀ pr ∈ allocated, 2 ^ k0 ∣ pr.1) →
      m.legal allocated ops → (∀ k ∈ BMCall.alloc_orders ops, k0 ≤ k) →
      ∀ pr ∈ (m.run ops).2, 2 ^ k0 ∣ pr.1 := by
  induction ops with
  | nil => intro m allocated _ _ _ _ pr hpr; simp [BlockManager.run] at hpr
  | cons op rest ih =>
    intro m allocated hm hal hlegal hord pr hpr
    cases op with
    | alloc order =>
      simp only [BlockManager.legal] at hlegal
      simp only [BMCall.alloc_orders, List.mem_cons, forall_eq_or_imp] at hord
      obtain ⟨ha, hm1⟩ := alloc_allDvd k0 m order hm hord.1 hlegal.1
      simp only [BlockManager.run, List.mem_cons] at hpr
      rcases hpr with hpr | hpr
      · subst hpr; exact ha
      · refine ih _ _ hm1 ?_ hlegal.2 hord.2 pr hpr
        intro q hq
        rcases List.mem_cons.mp hq with hq | hq
        · subst hq; exact ha
        · exact hal q hq
    | free block order =>
      simp only [BlockManager.legal] at hlegal
      simp only [BMCall.alloc_orders] at hord
      simp only [BlockManager.run] at hpr
      exact ih _ _ (free_allDvd _ m block order hm (hal _ hlegal.1)) hal hlegal.2 hord pr hpr

theorem ctor_def (capacity : Nat) :
    BlockManager.ctor capacity =
      { ((BlockManager.initial capacity).alloc LARGE_BLOCK_THRESHOLD).2 with
        null_holder := ((BlockManager.initial capacity).alloc LARGE_BLOCK_THRESHOLD).1 } := by
  unfold BlockManager.ctor
  simp only

theorem initial_allDvd (capacity d : Nat) : (BlockManager.initial capacity).AllDvd d := by
  refine ⟨by simp [BlockManager.initial], ?_, ?_⟩
  · intro l hl p hp
    rw [List.eq_of_mem_replicate hl] at hp; simp at hp
  · intro l hl p hp
    rw [List.eq_of_mem_replicate hl] at hp; simp at hp

theorem with_null_holder_allDvd (d : Nat) (r : Nat × BlockManager) (hm : r.2.AllDvd d) :
    BlockManager.AllDvd d { r.2 with null_holder := r.1 } := by
  unfold BlockManager.AllDvd at hm ⊢
  exact hm

theorem with_null_holder_eq (r : Nat × BlockManager) :
    ({ r.2 with null_holder := r.1 } : BlockManager).null_holder = r.1 := rfl

theorem ctor_allDvd (capacity k0 : Nat) (hk : k0 ≤ LARGE_BLOCK_THRESHOLD) :
    (BlockManager.ctor capacity).AllDvd (2 ^ k0) ∧
      2 ^ k0 ∣ (BlockManager.ctor capacity).null_holder := by
  obtain ⟨ha, hm⟩ := alloc_allDvd k0 _ LARGE_BLOCK_THRESHOLD (initial_allDvd capacity (2 ^ k0)) hk
    (by unfold LARGE_BLOCK_THRESHOLD MAX_ORDER; omega)
  rw [ctor_def]
  refine ⟨with_null_holder_allDvd _ _ hm, ?_⟩
  rw [with_null_holder_eq]
  exact ha

theorem ctor_wf_concrete : (BlockManager.ctor (2 ^ 40)).WF := by
  unfold BlockManager.WF
  constructor <;> decide

/-- C9. Allocator reuse on one thread: for a manager whose two vectors of free lists have
their constructed sizes, every order below 64 and every non-zero offset `p`,
`free(p, order)` immediately followed by `alloc(order)` returns `p` and leaves the manager
(free lists, `used_size` cursor, `file_size`) exactly as it was before the `free`. -/
theorem free_then_alloc_returns_block (m : BlockManager) (order p : Nat) (hwf : m.WF)
    (ho : order < MAX_ORDER) (hp : p ≠ 0) :
    ((m.free p order).alloc order).1 = p ∧ ((m.free p order).alloc order).2 = m := by
  obtain ⟨h1, h2⟩ := hwf
  unfold BlockManager.free BlockManager.alloc
  by_cases hlt : order < LARGE_BLOCK_THRESHOLD
  · have := pop_push m.free_blocks order p (by omega)
    simp [hlt, this, NULLPOINTER, hp]
  · have := pop_push m.large_free_blocks order p (by omega)
    simp [hlt, this, NULLPOINTER, hp]

/-- Witness of C9: on a freshly constructed manager, freeing offset `4096` with order 12
and allocating order 12 again. -/
theorem free_then_alloc_returns_block_witness :
    (((BlockManager.ctor (2 ^ 40)).free 4096 12).alloc 12).1 = 4096 ∧
      (((BlockManager.ctor (2 ^ 40)).free 4096 12).alloc 12).2 = BlockManager.ctor (2 ^ 40) :=
  free_then_alloc_returns_block (BlockManager.ctor (2 ^ 40)) 12 4096 ctor_wf_concrete
    (by decide) (by decide)

/-- C10 as stated fails: on a fresh manager the legal calls `alloc(6); alloc(12)` return
`2^20` and then `2^20 + 64`, and the second offset is not a multiple of `2^12`. -/
theorem alloc_offset_not_multiple_of_block_size :
    (BlockManager.ctor (2 ^ 40)).legal [((BlockManager.ctor (2 ^ 40)).null_holder, 20)]
        [BMCall.alloc 6, BMCall.alloc 12] ∧
      ((BlockManager.ctor (2 ^ 40)).run [BMCall.alloc 6, BMCall.alloc 12]).2
        = [(2 ^ 20, 6), (2 ^ 20 + 64, 12)] ∧
      ¬ (2 ^ 12 ∣ 2 ^ 20 + 64) := by
  refine ⟨⟨by decide, by decide, trivial⟩, by decide, by decide⟩

/-- C10, amended. On a freshly constructed manager, for every legal sequence of calls (each
`free` returns a block handed out earlier, with its order) whose `alloc` orders are all at
least `k0`, with `k0` at most the null-holder's order 20, every offset returned by `alloc`
is a multiple of `2^k0`. -/
theorem alloc_offsets_multiple_of_least_order (capacity k0 : Nat) (ops : List BMCall)
    (hk : k0 ≤ LARGE_BLOCK_THRESHOLD)
    (hlegal : (BlockManager.ctor capacity).legal
      [((BlockManager.ctor capacity).null_holder, LARGE_BLOCK_THRESHOLD)] ops)
    (hord : ∀ k ∈ BMCall.alloc_orders ops, k0 ≤ k) :
    ∀ pr ∈ ((BlockManager.ctor capacity).run ops).2, 2 ^ k0 ∣ pr.1 := by
  obtain ⟨hm, hn⟩ := ctor_allDvd capacity k0 hk
  have hal : ∀ (n : Nat), 2 ^ k0 ∣ n →
      ∀ pr ∈ [(n, LARGE_BLOCK_THRESHOLD)], 2 ^ k0 ∣ pr.1 := by
    intro n hn q hq
    rw [List.mem_singleton] at hq
    subst hq
    exact hn
  exact run_allDvd k0 ops _ _ hm (hal _ hn) hlegal hord

/-- Witness of C10 (amended): `alloc(6); alloc(12); free(2^20, 6); alloc(6)` with `k0 = 6`;
the offset `2^20 + 64` of the order-12 block is a multiple of `2^6`. -/
theorem alloc_offsets_multiple_of_least_order_witness :
    (2 ^ 20 + 64, 12) ∈ ((BlockManager.ctor (2 ^ 40)).run
        [BMCall.alloc 6, BMCall.alloc 12, BMCall.free (2 ^ 20) 6, BMCall.alloc 6]).2 ∧
      2 ^ 6 ∣ ((2 ^ 20 + 64, 12) : Nat × Nat).1 :=
  ⟨by decide,
   alloc_offsets_multiple_of_least_order (2 ^ 40) 6
    [BMCall.alloc 6, BMCall.alloc 12, BMCall.free (2 ^ 20) 6, BMCall.alloc 6]
    (by decide) ⟨by decide, by decide, by decide, by decide, trivial⟩ (by decide)
    (2 ^ 20 + 64, 12) (by decide)⟩

/-! ### Edge iterator over raw memory -/

theorem visible_at_eq (cmp : Int → Int → Int → Int) (em : Int → EdgeEntry)
    (it : EdgeIterator) (p : Int) :
    it.visible_at cmp em p = (em p).visible cmp it.read_epoch_id it.local_txn_id := rfl

theorem fwd_at_valid (E D : Int) (n dl : Nat) (R T : Int) (j : Nat) (dc : Int) :
    (EdgeIterator.fwd_at E D n dl R T j dc).valid = decide (j ≠ 0) := by
  unfold EdgeIterator.valid EdgeIterator.fwd_at
  simp only [Bool.not_false, if_true]
  by_cases h : j = 0
  · subst h; simp
  · have : ¬ (E - 24 * (j : Int) = E) := by omega
    simp [h, this]

theorem fwd_at_step (em : Int → EdgeEntry) (E D : Int) (n dl : Nat) (R T : Int) (j : Nat)
    (dc : Int) :
    (EdgeIterator.fwd_at E D n dl R T (j + 1) dc).step_fwd em =
      EdgeIterator.fwd_at E D n dl R T j (dc - (em (E - 24 * ((j : Int) + 1))).length) := by
  unfold EdgeIterator.step_fwd EdgeIterator.fwd_at
  simp only [sizeof_EdgeEntry, Nat.cast_add, Nat.cast_one, Nat.cast_ofNat]
  congr 1
  omega

theorem ctor_loop_fwd_eq (cmp : Int → Int → Int → Int) (em : Int → EdgeEntry) (E D : Int)
    (n dl : Nat) (R T : Int) :
    ∀ (j fuel : Nat) (dc : Int), j ≤ fuel →
      EdgeIterator.ctor_loop_fwd cmp em fuel (EdgeIterator.fwd_at E D n dl R T j dc) =
        some (EdgeIterator.fwd_at E D n dl R T (fwd_land cmp em E R T j dc).1
          (fwd_land cmp em E R T j dc).2) := by
  intro j
  induction j with
  | zero =>
    intro fuel dc _
    cases fuel <;> simp [EdgeIterator.ctor_loop_fwd, fwd_at_valid, fwd_land]
  | succ j ih =>
    intro fuel dc hf
    obtain ⟨fuel, rfl⟩ : ∃ f, fuel = f + 1 := ⟨fuel - 1, by omega⟩
    have hv : (EdgeIterator.fwd_at E D n dl R T (j + 1) dc).entries_cursor
        = E - 24 * ((j : Int) + 1) := by
      simp [EdgeIterator.fwd_at]
    have hR : (EdgeIterator.fwd_at E D n dl R T (j + 1) dc).read_epoch_id = R := rfl
    have hT : (EdgeIterator.fwd_at E D n dl R T (j + 1) dc).local_txn_id = T := rfl
    rw [EdgeIterator.ctor_loop_fwd, fwd_at_valid, visible_at_eq, hv, hR, hT, fwd_at_step, fwd_land]
    by_cases hvis : (em (E - 24 * ((j : Int) + 1))).visible cmp R T = true
    · simp [hvis]
    · simp only [hvis]
      simp only [ne_eq, Nat.add_one_ne_zero, not_false_eq_true, decide_True, if_true,
        Bool.false_eq_true, if_false]
      exact ih fuel _ (by omega)

theorem next_loop_fwd_eq (cmp : Int → Int → Int → Int) (em : Int → EdgeEntry) (E D : Int)
    (n dl : Nat) (R T : Int) :
    ∀ (j fuel : Nat) (dc : Int), j + 1 ≤ fuel →
      EdgeIterator.next_loop_fwd cmp em fuel (EdgeIterator.fwd_at E D n dl R T (j + 1) dc) =
        some (EdgeIterator.fwd_at E D n dl R T
          (fwd_land cmp em E R T j (dc - (em (E - 24 * ((j : Int) + 1))).length)).1
          (fwd_land cmp em E R T j (dc - (em (E - 24 * ((j : Int) + 1))).length)).2) := by
  intro j
  induction j with
  | zero =>
    intro fuel dc hf
    obtain ⟨fuel, rfl⟩ : ∃ f, fuel = f + 1 := ⟨fuel - 1, by omega⟩
    rw [EdgeIterator.next_loop_fwd, fwd_at_valid]
    simp only [ne_eq, Nat.add_one_ne_zero, not_false_eq_true, decide_True, if_true]
    rw [fwd_at_step]
    simp only [fwd_land]
    split
    · rfl
    · cases fuel <;> simp [EdgeIterator.next_loop_fwd, fwd_at_valid]
  | succ j ih =>
    intro fuel dc hf
    obtain ⟨fuel, rfl⟩ : ∃ f, fuel = f + 1 := ⟨fuel - 1, by omega⟩
    rw [EdgeIterator.next_loop_fwd, fwd_at_valid]
    simp only [ne_eq, Nat.add_one_ne_zero, not_false_eq_true, decide_True, if_true]
    rw [fwd_at_step]
    have hv : ∀ dc1, (EdgeIterator.fwd_at E D n dl R T (j + 1) dc1).entries_cursor
        = E - 24 * ((j : Int) + 1) := by
      intro dc1; simp [EdgeIterator.fwd_at]
    have hR : ∀ dc1, (EdgeIterator.fwd_at E D n dl R T (j + 1) dc1).read_epoch_id = R :=
      fun _ => rfl
    have hT : ∀ dc1, (EdgeIterator.fwd_at E D n dl R T (j + 1) dc1).local_txn_id = T :=
      fun _ => rfl
    rw [visible_at_eq, hv, hR, hT]
    rw [fwd_land]
    by_cases hvis : (em (E - 24 * ((j : Int) + 1))).visible cmp R T = true
    · simp [hvis]
    · simp only [hvis, Bool.false_eq_true, if_false]
      have := ih fuel (dc - ((em (E - 24 * (((j + 1 : Nat) : Int) + 1))).length : Int)) (by omega)
      simpa using this
theorem next_fwd_eq (cmp : Int → Int → Int → Int) (em : Int → EdgeEntry) (E D : Int)
    (n dl : Nat) (R T : Int) (j : Nat) (dc : Int) (hj : j + 1 ≤ n) :
    (EdgeIterator.fwd_at E D n dl R T (j + 1) dc).next cmp em =
      some (EdgeIterator.fwd_at E D n dl R T
        (fwd_land cmp em E R T j (dc - (em (E - 24 * ((j : Int) + 1))).length)).1
        (fwd_land cmp em E R T j (dc - (em (E - 24 * ((j : Int) + 1))).length)).2) := by
  have h := next_loop_fwd_eq cmp em E D n dl R T j n dc hj
  unfold EdgeIterator.next
  have hr : (EdgeIterator.fwd_at E D n dl R T (j + 1) dc).reverse = false := rfl
  have hn : (EdgeIterator.fwd_at E D n dl R T (j + 1) dc).num_entries = n := rfl
  rw [hr, hn]
  simpa using h

theorem drain_fwd_eq (cmp : Int → Int → Int → Int) (em : Int → EdgeEntry) (E D : Int)
    (n dl : Nat) (R T : Int) :
    ∀ (j fuel : Nat) (dc : Int), j ≤ fuel → j ≤ n →
      EdgeIterator.drain cmp em fuel
        (EdgeIterator.fwd_at E D n dl R T (fwd_land cmp em E R T j dc).1
          (fwd_land cmp em E R T j dc).2) =
        some (fwd_states cmp em E D n dl R T j dc) := by
  intro j
  induction j with
  | zero =>
    intro fuel dc _ _
    cases fuel <;> simp [EdgeIterator.drain, fwd_at_valid, fwd_land, fwd_states]
  | succ j ih =>
    intro fuel dc hf hn
    rw [fwd_land, fwd_states]
    by_cases hvis : (em (E - 24 * ((j : Int) + 1))).visible cmp R T = true
    · obtain ⟨fuel, rfl⟩ : ∃ f, fuel = f + 1 := ⟨fuel - 1, by omega⟩
      simp only [hvis, if_true]
      rw [EdgeIterator.drain, fwd_at_valid]
      simp only [ne_eq, Nat.add_one_ne_zero, not_false_eq_true, decide_True, if_true]
      rw [next_fwd_eq cmp em E D n dl R T j dc hn]
      simp only
      rw [ih fuel _ (by omega) (by omega)]
      rfl
    · simp only [hvis, Bool.false_eq_true, if_false]
      exact ih fuel _ (by omega) (by omega)

theorem scan_fwd_eq (cmp : Int → Int → Int → Int) (em : Int → EdgeEntry) (E D : Int)
    (n dl : Nat) (R T : Int) :
    EdgeIterator.scan cmp em E D n dl R T false =
      some (fwd_states cmp em E D n dl R T n (D + dl)) := by
  unfold EdgeIterator.scan EdgeIterator.ctor
  simp only [Bool.not_false, if_true]
  have h0 : EdgeIterator.mk E D n dl R T false (E - (↑sizeof_EdgeEntry : Int) * ↑n) (D + ↑dl)
      = EdgeIterator.fwd_at E D n dl R T n (D + dl) := by
    simp [EdgeIterator.fwd_at, sizeof_EdgeEntry]
  rw [h0]
  rw [ctor_loop_fwd_eq cmp em E D n dl R T n n _ (le_refl n)]
  simp only
  exact drain_fwd_eq cmp em E D n dl R T n n _ (le_refl n) (le_refl n)
theorem rev_at_valid (E D : Int) (n dl : Nat) (R T : Int) (j : Nat) (dc : Int) :
    (EdgeIterator.rev_at E D n dl R T j dc).valid = decide (j ≠ 0) := by
  unfold EdgeIterator.valid EdgeIterator.rev_at
  simp only [Bool.not_true, Bool.false_eq_true, if_false, sizeof_EdgeEntry, Nat.cast_ofNat]
  by_cases h : j = 0
  · subst h; simp
  · have : ¬ (E - 24 * ((n : Int) - (j : Int)) = E - 24 * (n : Int)) := by omega
    simp [h, this]

theorem rev_at_step (em : Int → EdgeEntry) (E D : Int) (n dl : Nat) (R T : Int) (j : Nat)
    (dc : Int) :
    (EdgeIterator.rev_at E D n dl R T (j + 1) dc).step_rev em =
      EdgeIterator.rev_at E D n dl R T j (dc + (em (E - 24 * ((n : Int) - j))).length) := by
  unfold EdgeIterator.step_rev EdgeIterator.rev_at
  simp only [sizeof_EdgeEntry, Nat.cast_add, Nat.cast_one, Nat.cast_ofNat]
  have h : E - 24 * ((n : Int) - ((j : Int) + 1)) - 24 = E - 24 * ((n : Int) - (j : Int)) := by
    omega
  rw [h]

theorem rev_at_slot (E D : Int) (n dl : Nat) (R T : Int) (j : Nat) (dc : Int) :
    (EdgeIterator.rev_at E D n dl R T (j + 1) dc).entries_cursor - (sizeof_EdgeEntry : Int)
      = E - 24 * ((n : Int) - j) := by
  simp only [EdgeIterator.rev_at, sizeof_EdgeEntry, Nat.cast_add, Nat.cast_one, Nat.cast_ofNat]
  omega

theorem ctor_loop_rev_eq (cmp : Int → Int → Int → Int) (em : Int → EdgeEntry) (E D : Int)
    (n dl : Nat) (R T : Int) :
    ∀ (j fuel : Nat) (dc : Int), j ≤ fuel →
      EdgeIterator.ctor_loop_rev cmp em fuel (EdgeIterator.rev_at E D n dl R T j dc) =
        some (EdgeIterator.rev_at E D n dl R T (rev_land cmp em E n R T j dc).1
          (rev_land cmp em E n R T j dc).2) := by
  intro j
  induction j with
  | zero =>
    intro fuel dc _
    cases fuel <;> simp [EdgeIterator.ctor_loop_rev, rev_at_valid, rev_land]
  | succ j ih =>
    intro fuel dc hf
    obtain ⟨fuel, rfl⟩ : ∃ f, fuel = f + 1 := ⟨fuel - 1, by omega⟩
    have hR : (EdgeIterator.rev_at E D n dl R T (j + 1) dc).read_epoch_id = R := rfl
    have hT : (EdgeIterator.rev_at E D n dl R T (j + 1) dc).local_txn_id = T := rfl
    rw [EdgeIterator.ctor_loop_rev, rev_at_valid, visible_at_eq, rev_at_slot, hR, hT,
      rev_at_step, rev_land]
    by_cases hvis : (em (E - 24 * ((n : Int) - j))).visible cmp R T = true
    · simp [hvis]
    · simp only [hvis]
      simp only [ne_eq, Nat.add_one_ne_zero, not_false_eq_true, decide_True, if_true,
        Bool.false_eq_true, if_false]
      exact ih fuel _ (by omega)

theorem next_loop_rev_eq (cmp : Int → Int → Int → Int) (em : Int → EdgeEntry) (E D : Int)
    (n dl : Nat) (R T : Int) :
    ∀ (j fuel : Nat) (dc : Int), j + 1 ≤ fuel →
      EdgeIterator.next_loop_rev cmp em fuel (EdgeIterator.rev_at E D n dl R T (j + 1) dc) =
        some (EdgeIterator.rev_at E D n dl R T
          (rev_land cmp em E n R T j (dc + (em (E - 24 * ((n : Int) - j))).length)).1
          (rev_land cmp em E n R T j (dc + (em (E - 24 * ((n : Int) - j))).length)).2) := by
  intro j
  induction j with
  | zero =>
    intro fuel dc hf
    obtain ⟨fuel, rfl⟩ : ∃ f, fuel = f + 1 := ⟨fuel - 1, by omega⟩
    rw [EdgeIterator.next_loop_rev, rev_at_valid]
    simp only [ne_eq, Nat.add_one_ne_zero, not_false_eq_true, decide_True, if_true]
    rw [rev_at_step]
    simp only [rev_land]
    split
    · rfl
    · cases fuel <;> simp [EdgeIterator.next_loop_rev, rev_at_valid]
  | succ j ih =>
    intro fuel dc hf
    obtain ⟨fuel, rfl⟩ : ∃ f, fuel = f + 1 := ⟨fuel - 1, by omega⟩
    rw [EdgeIterator.next_loop_rev, rev_at_valid]
    simp only [ne_eq, Nat.add_one_ne_zero, not_false_eq_true, decide_True, if_true]
    rw [rev_at_step]
    have hR : ∀ dc1, (EdgeIterator.rev_at E D n dl R T (j + 1) dc1).read_epoch_id = R :=
      fun _ => rfl
    have hT : ∀ dc1, (EdgeIterator.rev_at E D n dl R T (j + 1) dc1).local_txn_id = T :=
      fun _ => rfl
    rw [visible_at_eq, rev_at_slot, hR, hT]
    rw [rev_land]
    by_cases hvis : (em (E - 24 * ((n : Int) - j))).visible cmp R T = true
    · simp [hvis]
    · simp only [hvis, Bool.false_eq_true, if_false]
      exact ih fuel _ (by omega)

theorem next_rev_eq (cmp : Int → Int → Int → Int) (em : Int → EdgeEntry) (E D : Int)
    (n dl : Nat) (R T : Int) (j : Nat) (dc : Int) (hj : j + 1 ≤ n) :
    (EdgeIterator.rev_at E D n dl R T (j + 1) dc).next cmp em =
      some (EdgeIterator.rev_at E D n dl R T
        (rev_land cmp em E n R T j (dc + (em (E - 24 * ((n : Int) - j))).length)).1
        (rev_land cmp em E n R T j (dc + (em (E - 24 * ((n : Int) - j))).length)).2) := by
  have h := next_loop_rev_eq cmp em E D n dl R T j n dc hj
  unfold EdgeIterator.next
  have hr : (EdgeIterator.rev_at E D n dl R T (j + 1) dc).reverse = true := rfl
  have hn : (EdgeIterator.rev_at E D n dl R T (j + 1) dc).num_entries = n := rfl
  rw [hr, hn]
  simpa using h

theorem drain_rev_eq (cmp : Int → Int → Int → Int) (em : Int → EdgeEntry) (E D : Int)
    (n dl : Nat) (R T : Int) :
    ∀ (j fuel : Nat) (dc : Int), j ≤ fuel → j ≤ n →
      EdgeIterator.drain cmp em fuel
        (EdgeIterator.rev_at E D n dl R T (rev_land cmp em E n R T j dc).1
          (rev_land cmp em E n R T j dc).2) =
        some (rev_states cmp em E D n dl R T j dc) := by
  intro j
  induction j with
  | zero =>
    intro fuel dc _ _
    cases fuel <;> simp [EdgeIterator.drain, rev_at_valid, rev_land, rev_states]
  | succ j ih =>
    intro fuel dc hf hn
    rw [rev_land, rev_states]
    by_cases hvis : (em (E - 24 * ((n : Int) - j))).visible cmp R T = true
    · obtain ⟨fuel, rfl⟩ : ∃ f, fuel = f + 1 := ⟨fuel - 1, by omega⟩
      simp only [hvis, if_true]
      rw [EdgeIterator.drain, rev_at_valid]
      simp only [ne_eq, Nat.add_one_ne_zero, not_false_eq_true, decide_True, if_true]
      rw [next_rev_eq cmp em E D n dl R T j dc hn]
      simp only
      rw [ih fuel _ (by omega) (by omega)]
      rfl
    · simp only [hvis, Bool.false_eq_true, if_false]
      exact ih fuel _ (by omega) (by omega)

theorem scan_rev_eq (cmp : Int → Int → Int → Int) (em : Int → EdgeEntry) (E D : Int)
    (n dl : Nat) (R T : Int) :
    EdgeIterator.scan cmp em E D n dl R T true =
      some (rev_states cmp em E D n dl R T n D) := by
  unfold EdgeIterator.scan EdgeIterator.ctor
  simp only [Bool.not_true, Bool.false_eq_true, if_false]
  have h0 : EdgeIterator.mk E D n dl R T true E D
      = EdgeIterator.rev_at E D n dl R T n D := by
    simp [EdgeIterator.rev_at]
  rw [h0]
  rw [ctor_loop_rev_eq cmp em E D n dl R T n n _ (le_refl n)]
  simp only
  exact drain_rev_eq cmp em E D n dl R T n n _ (le_refl n) (le_refl n)

theorem fwd_at_current_slot (E D : Int) (n dl : Nat) (R T : Int) (j : Nat) (dc : Int) :
    (EdgeIterator.fwd_at E D n dl R T j dc).current_slot = E - 24 * (j : Int) := by
  simp [EdgeIterator.current_slot, EdgeIterator.fwd_at]

theorem rev_at_current_slot (E D : Int) (n dl : Nat) (R T : Int) (j : Nat) (dc : Int) :
    (EdgeIterator.rev_at E D n dl R T (j + 1) dc).current_slot = E - 24 * ((n : Int) - j) := by
  simp only [EdgeIterator.current_slot, EdgeIterator.rev_at, sizeof_EdgeEntry, Nat.cast_add,
    Nat.cast_one, Nat.cast_ofNat, Bool.not_true, Bool.false_eq_true, if_false]
  omega

theorem fwd_states_mem (cmp : Int → Int → Int → Int) (em : Int → EdgeEntry) (E D : Int)
    (n dl : Nat) (R T : Int) (p : Int) :
    ∀ (j : Nat) (dc : Int),
      p ∈ (fwd_states cmp em E D n dl R T j dc).map EdgeIterator.current_slot ↔
        ∃ k : Nat, k < j ∧ p = E - 24 * ((k : Int) + 1) ∧ (em p).visible cmp R T = true := by
  intro j
  induction j with
  | zero => intro dc; simp [fwd_states]
  | succ j ih =>
    intro dc
    rw [fwd_states]
    by_cases hvis : (em (E - 24 * ((j : Int) + 1))).visible cmp R T = true
    · simp only [hvis, if_true, List.map_cons, List.mem_cons, ih, fwd_at_current_slot]
      constructor
      · rintro (h | ⟨k, hk, hp, hv⟩)
        · refine ⟨j, by omega, ?_, ?_⟩
          · rw [h]; push_cast; ring
          · rw [h]; push_cast; exact hvis
        · exact ⟨k, by omega, hp, hv⟩
      · rintro ⟨k, hk, hp, hv⟩
        by_cases hkj : k = j
        · left; subst hkj; rw [hp]; push_cast; ring
        · right; exact ⟨k, by omega, hp, hv⟩
    · simp only [hvis, Bool.false_eq_true, if_false, ih]
      constructor
      · rintro ⟨k, hk, hp, hv⟩
        exact ⟨k, by omega, hp, hv⟩
      · rintro ⟨k, hk, hp, hv⟩
        by_cases hkj : k = j
        · subst hkj; rw [hp] at hv; exact absurd hv hvis
        · exact ⟨k, by omega, hp, hv⟩

theorem fwd_states_nodup (cmp : Int → Int → Int → Int) (em : Int → EdgeEntry) (E D : Int)
    (n dl : Nat) (R T : Int) :
    ∀ (j : Nat) (dc : Int),
      ((fwd_states cmp em E D n dl R T j dc).map EdgeIterator.current_slot).Nodup := by
  intro j
  induction j with
  | zero => intro dc; simp [fwd_states]
  | succ j ih =>
    intro dc
    rw [fwd_states]
    by_cases hvis : (em (E - 24 * ((j : Int) + 1))).visible cmp R T = true
    · simp only [hvis, if_true, List.map_cons, List.nodup_cons, fwd_at_current_slot]
      refine ⟨?_, ih _⟩
      intro hmem
      obtain ⟨k, hk, hp, _⟩ := (fwd_states_mem cmp em E D n dl R T _ j _).mp hmem
      push_cast at hp
      omega
    · simp only [hvis, Bool.false_eq_true, if_false]
      exact ih _

theorem rev_states_mem (cmp : Int → Int → Int → Int) (em : Int → EdgeEntry) (E D : Int)
    (n dl : Nat) (R T : Int) (p : Int) :
    ∀ (j : Nat) (dc : Int),
      p ∈ (rev_states cmp em E D n dl R T j dc).map EdgeIterator.current_slot ↔
        ∃ k : Nat, k < j ∧ p = E - 24 * ((n : Int) - k) ∧ (em p).visible cmp R T = true := by
  intro j
  induction j with
  | zero => intro dc; simp [rev_states]
  | succ j ih =>
    intro dc
    rw [rev_states]
    by_cases hvis : (em (E - 24 * ((n : Int) - j))).visible cmp R T = true
    · simp only [hvis, if_true, List.map_cons, List.mem_cons, ih, rev_at_current_slot]
      constructor
      · rintro (h | ⟨k, hk, hp, hv⟩)
        · exact ⟨j, by omega, h, by rw [h]; exact hvis⟩
        · exact ⟨k, by omega, hp, hv⟩
      · rintro ⟨k, hk, hp, hv⟩
        by_cases hkj : k = j
        · left; subst hkj; exact hp
        · right; exact ⟨k, by omega, hp, hv⟩
    · simp only [hvis, Bool.false_eq_true, if_false, ih]
      constructor
      · rintro ⟨k, hk, hp, hv⟩
        exact ⟨k, by omega, hp, hv⟩
      · rintro ⟨k, hk, hp, hv⟩
        by_cases hkj : k = j
        · subst hkj; rw [hp] at hv; exact absurd hv hvis
        · exact ⟨k, by omega, hp, hv⟩

theorem rev_states_nodup (cmp : Int → Int → Int → Int) (em : Int → EdgeEntry) (E D : Int)
    (n dl : Nat) (R T : Int) :
    ∀ (j : Nat) (dc : Int),
      ((rev_states cmp em E D n dl R T j dc).map EdgeIterator.current_slot).Nodup := by
  intro j
  induction j with
  | zero => intro dc; simp [rev_states]
  | succ j ih =>
    intro dc
    rw [rev_states]
    by_cases hvis : (em (E - 24 * ((n : Int) - j))).visible cmp R T = true
    · simp only [hvis, if_true, List.map_cons, List.nodup_cons, rev_at_current_slot]
      refine ⟨?_, ih _⟩
      intro hmem
      obtain ⟨k, hk, hp, _⟩ := (rev_states_mem cmp em E D n dl R T _ j _).mp hmem
      omega
    · simp only [hvis, Bool.false_eq_true, if_false]
      exact ih _

/-- The slots a scan stops on, in either direction: exactly the visible ones among the
`n` published slots `entries - 24 * (k + 1)`, `k < n`, each once. -/
theorem scan_slots (cmp : Int → Int → Int → Int) (em : Int → EdgeEntry) (E D : Int)
    (n dl : Nat) (R T : Int) (reverse : Bool) :
    ∃ states, EdgeIterator.scan cmp em E D n dl R T reverse = some states ∧
      (states.map EdgeIterator.current_slot).Nodup ∧
      ∀ p : Int, p ∈ states.map EdgeIterator.current_slot ↔
        ∃ k : Nat, k < n ∧ p = E - 24 * ((k : Int) + 1) ∧ (em p).visible cmp R T = true := by
  cases reverse with
  | false =>
    refine ⟨_, scan_fwd_eq cmp em E D n dl R T, fwd_states_nodup cmp em E D n dl R T n _, ?_⟩
    intro p
    exact fwd_states_mem cmp em E D n dl R T p n _
  | true =>
    refine ⟨_, scan_rev_eq cmp em E D n dl R T, rev_states_nodup cmp em E D n dl R T n _, ?_⟩
    intro p
    rw [rev_states_mem cmp em E D n dl R T p n _]
    constructor
    · rintro ⟨k, hk, hp, hv⟩
      exact ⟨n - 1 - k, by omega, by rw [hp]; omega, hv⟩
    · rintro ⟨k, hk, hp, hv⟩
      exact ⟨n - 1 - k, by omega, by rw [hp]; omega, hv⟩

/-! ### Edge block: `has_space` and `append` -/

theorem get_block_size_eq (b : EdgeBlockHeader) (h : b.order < 64) :
    b.get_block_size = 2 ^ b.order := by
  unfold EdgeBlockHeader.get_block_size
  rw [Nat.one_shiftLeft]
  exact Nat.mod_eq_of_lt (Nat.pow_lt_pow_right (by norm_num) h)

theorem pow_order_le (order : Nat) (h : order < 64) : 2 ^ order ≤ 2 ^ 63 :=
  Nat.pow_le_pow_right (by norm_num) (by omega)

theorem has_space_iff (b : EdgeBlockHeader) (e : EdgeEntry) (n l : Nat) (h64 : b.order < 64)
    (hJ : 24 * n + l ≤ 2 ^ b.order) (hwf : e.WF) :
    b.has_space e n l = true ↔
      48 + 24 * (n + 1) + l + e.length + bloom_bytes b.order ≤ 2 ^ b.order := by
  have hP := pow_order_le b.order h64
  have hlen : e.length < 2 ^ 16 := hwf.1
  unfold EdgeBlockHeader.has_space bloom_bytes
  simp only [get_block_size_eq b h64, BLOOM_FILTER_THRESHOLD, BLOOM_FILTER_PORTION,
    sizeof_EdgeBlockHeader, sizeof_EdgeEntry, Nat.shiftRight_eq_div_pow]
  generalize 2 ^ b.order = P at *
  norm_num at hP hlen ⊢
  by_cases ho : b.order < 10
  · have ho2 : ¬ (10 ≤ b.order) := by omega
    simp only [ho, ho2, if_true, if_false]
    omega
  · have ho2 : 10 ≤ b.order := by omega
    simp only [ho, ho2, if_true, if_false]
    omega

theorem append_fail (hashes : Nat → Nat → List Nat) (b : EdgeBlockHeader) (e : EdgeEntry)
    (d : Nat → Nat) (h : b.has_space e b.num_entries b.data_length = false) :
    b.append hashes e d = (b, none) := by
  unfold EdgeBlockHeader.append EdgeBlockHeader.append_with
  simp [h]

theorem append_ok (hashes : Nat → Nat → List Nat) (b : EdgeBlockHeader) (e : EdgeEntry)
    (d : Nat → Nat) (h : b.has_space e b.num_entries b.data_length = true) :
    (b.append hashes e d).2 =
        some (b.get_entries - 24 * ((b.num_entries : Int) + 1)) ∧
      (b.append hashes e d).1.order = b.order ∧
      (b.append hashes e d).1.num_entries = (b.num_entries + 1) % 2 ^ 64 ∧
      (b.append hashes e d).1.data_length = (b.data_length + e.length) % 2 ^ 64 ∧
      (b.append hashes e d).1.entry_mem =
        Function.update b.entry_mem (b.get_entries - 24 * ((b.num_entries : Int) + 1)) e ∧
      (b.append hashes e d).1.data_mem =
        copy_bytes b.data_mem (48 + (b.data_length : Int)) d e.length ∧
      (b.append hashes e d).1.bloom_bits =
        (if b.get_bloom_filter.valid then
          b.get_bloom_filter.insert hashes b.bloom_bits e.get_dst
        else b.bloom_bits) := by
  unfold EdgeBlockHeader.append EdgeBlockHeader.append_with
  simp only [h, Bool.not_true, Bool.false_eq_true, if_false]
  by_cases hv : b.get_bloom_filter.valid = true
  · simp only [hv, if_true]
    refine ⟨?_, trivial, trivial, trivial, ?_, ?_, trivial⟩
    · simp [EdgeBlockHeader.get_entries, EdgeBlockHeader.get_block_size, sizeof_EdgeEntry]
    · simp [EdgeBlockHeader.get_entries, EdgeBlockHeader.get_block_size, sizeof_EdgeEntry]
    · simp [EdgeBlockHeader.get_data, sizeof_EdgeBlockHeader]
  · simp only [hv, Bool.false_eq_true, if_false]
    refine ⟨?_, trivial, trivial, trivial, ?_, ?_, trivial⟩
    · simp [EdgeBlockHeader.get_entries, EdgeBlockHeader.get_block_size, sizeof_EdgeEntry]
    · simp [EdgeBlockHeader.get_entries, EdgeBlockHeader.get_block_size, sizeof_EdgeEntry]
    · simp [EdgeBlockHeader.get_data, sizeof_EdgeBlockHeader]

theorem copy_bytes_apply (mem : Int → Nat) (dst : Int) (src : Nat → Nat) :
    ∀ (n : Nat) (a : Int),
      copy_bytes mem dst src n a =
        if dst ≤ a ∧ a < dst + n then src (a - dst).toNat else mem a := by
  intro n
  induction n with
  | zero =>
    intro a
    have : ¬ (dst ≤ a ∧ a < dst + ((0 : Nat) : Int)) := by omega
    rw [if_neg this]
    rfl
  | succ n ih =>
    intro a
    have hrec : copy_bytes mem dst src (n + 1)
        = Function.update (copy_bytes mem dst src n) (dst + (n : Nat)) (src n) := by
      unfold copy_bytes
      rw [List.range_succ, List.foldl_append]
      rfl
    rw [hrec]
    by_cases ha : a = dst + (n : Int)
    · subst ha
      have h1 : dst ≤ dst + (n : Int) ∧ dst + (n : Int) < dst + ((n + 1 : Nat) : Int) := by
        omega
      have h2 : (dst + (n : Int) - dst).toNat = n := by omega
      rw [Function.update_same, if_pos h1, h2]
    · rw [Function.update_noteq ha, ih]
      by_cases hr : dst ≤ a ∧ a < dst + (n : Int)
      · have h1 : dst ≤ a ∧ a < dst + ((n + 1 : Nat) : Int) := by omega
        rw [if_pos hr, if_pos h1]
      · have h1 : ¬ (dst ≤ a ∧ a < dst + ((n + 1 : Nat) : Int)) := by omega
        rw [if_neg hr, if_neg h1]

theorem total_length_append (xs ys : List (EdgeEntry × (Nat → Nat))) :
    total_length (xs ++ ys) = total_length xs + total_length ys := by
  simp [total_length]

theorem total_length_take_succ (xs : List (EdgeEntry × (Nat → Nat))) (i : Nat)
    (x : EdgeEntry × (Nat → Nat)) (h : xs[i]? = some x) :
    total_length (xs.take (i + 1)) = total_length (xs.take i) + x.1.length := by
  rw [List.take_succ, h, total_length_append]
  simp [total_length]

theorem total_length_take_le (xs : List (EdgeEntry × (Nat → Nat))) (i : Nat) :
    total_length (xs.take i) ≤ total_length xs := by
  conv_rhs => rw [← List.take_append_drop i xs]
  rw [total_length_append]
  omega

theorem get_entries_congr (b c : EdgeBlockHeader) (h : c.order = b.order) :
    c.get_entries = b.get_entries := by
  unfold EdgeBlockHeader.get_entries EdgeBlockHeader.get_block_size
  rw [h]

theorem get_data_eq (b : EdgeBlockHeader) : b.get_data = 48 := by
  simp [EdgeBlockHeader.get_data, sizeof_EdgeBlockHeader]

theorem holds_append (hashes : Nat → Nat → List Nat) (b : EdgeBlockHeader)
    (pre : List (EdgeEntry × (Nat → Nat))) (e : EdgeEntry) (d : Nat → Nat)
    (h64 : b.order < 64) (hb : b.Holds pre) (hwf : e.WF)
    (hs : b.has_space e b.num_entries b.data_length = true) :
    (b.append hashes e d).1.Holds (pre ++ [(e, d)]) ∧
      (b.append hashes e d).1.order = b.order := by
  obtain ⟨hn, hl, hst, hJ⟩ := hb
  obtain ⟨-, ho, hn1, hl1, hem, hdm, -⟩ := append_ok hashes b e d hs
  have hJ0 : 24 * b.num_entries + b.data_length ≤ 2 ^ b.order := by rw [hn, hl]; exact hJ
  have hsp := (has_space_iff b e b.num_entries b.data_length h64 hJ0 hwf).mp hs
  have hP := pow_order_le b.order h64
  have hlen : e.length < 2 ^ 16 := hwf.1
  norm_num at hP hlen
  have hn2 : (b.append hashes e d).1.num_entries = b.num_entries + 1 := by
    rw [hn1]; norm_num; omega
  have hl2 : (b.append hashes e d).1.data_length = b.data_length + e.length := by
    rw [hl1]; norm_num; omega
  refine ⟨⟨?_, ?_, ?_, ?_⟩, ho⟩
  · rw [hn2, hn]; simp
  · rw [hl2, hl, total_length_append]; simp [total_length]
  · rw [hem, hdm, get_entries_congr b _ ho, get_data_eq]
    rw [get_data_eq] at hst
    intro i x hx
    by_cases hi : i < pre.length
    · rw [List.getElem?_append_left hi] at hx
      obtain ⟨h1, h2⟩ := hst i x hx
      have hne : b.get_entries - 24 * ((i : Int) + 1)
          ≠ b.get_entries - 24 * ((b.num_entries : Int) + 1) := by
        rw [hn]; omega
      refine ⟨by rw [Function.update_noteq hne]; exact h1, ?_⟩
      intro k hk
      rw [List.take_append_of_le_length (by omega), copy_bytes_apply]
      have hle := total_length_take_le pre (i + 1)
      rw [total_length_take_succ pre i x hx] at hle
      have hno : ¬ ((48 : Int) + (b.data_length : Int)
            ≤ 48 + ((total_length (List.take i pre) : Nat) : Int) + (k : Int) ∧
          (48 : Int) + ((total_length (List.take i pre) : Nat) : Int) + (k : Int)
            < 48 + (b.data_length : Int) + (e.length : Int)) := by
        rw [hl]; omega
      rw [if_neg hno]
      exact h2 k hk
    · have hlen2 : (pre ++ [(e, d)]).length = pre.length + 1 := by simp
      have hi2 : i = pre.length := by
        have := (List.getElem?_eq_some.mp hx).1
        omega
      subst hi2
      rw [List.getElem?_append_right (le_refl _)] at hx
      simp only [Nat.sub_self, List.getElem?_cons_zero, Option.some.injEq] at hx
      subst hx
      refine ⟨by rw [hn, Function.update_same], ?_⟩
      intro k hk
      have hk1 : k < e.length := hk
      rw [List.take_append_of_le_length (le_refl _), List.take_length, copy_bytes_apply]
      have hyes : ((48 : Int) + (b.data_length : Int)
            ≤ 48 + ((total_length pre : Nat) : Int) + (k : Int) ∧
          (48 : Int) + ((total_length pre : Nat) : Int) + (k : Int)
            < 48 + (b.data_length : Int) + (e.length : Int)) := by
        rw [hl]; omega
      rw [if_pos hyes]
      have hk2 : ((48 : Int) + ((total_length pre : Nat) : Int) + (k : Int)
          - (48 + (b.data_length : Int))).toNat = k := by
        rw [hl]; omega
      rw [hk2]
  · rw [ho, total_length_append]
    simp only [total_length, List.length_append, List.length_singleton, List.map_cons,
      List.map_nil, List.sum_cons, List.sum_nil] at hl hJ ⊢
    rw [hn, hl] at hsp
    omega

theorem append_all_holds (hashes : Nat → Nat → List Nat) :
    ∀ (xs : List (EdgeEntry × (Nat → Nat))) (b : EdgeBlockHeader)
      (pre : List (EdgeEntry × (Nat → Nat))) (b1 : EdgeBlockHeader),
      b.order < 64 → b.Holds pre → (∀ x ∈ xs, x.1.WF) →
      b.append_all hashes xs = some b1 → b1.Holds (pre ++ xs) ∧ b1.order = b.order := by
  intro xs
  induction xs with
  | nil =>
    intro b pre b1 _ hb _ h
    simp only [EdgeBlockHeader.append_all, Option.some.injEq] at h
    subst h
    simpa using hb
  | cons x rest ih =>
    intro b pre b1 h64 hb hwf h
    obtain ⟨e, d⟩ := x
    rw [EdgeBlockHeader.append_all] at h
    by_cases hs : b.has_space e b.num_entries b.data_length = true
    · obtain ⟨hh, ho⟩ := holds_append hashes b pre e d h64 hb (hwf (e, d) (by simp)) hs
      have hsome := (append_ok hashes b e d hs).1
      revert h hh ho hsome
      generalize b.append hashes e d = r
      obtain ⟨r1, r2⟩ := r
      intro h hh ho hsome
      simp only at hsome hh ho
      subst hsome
      simp only at h
      obtain ⟨h1, h2⟩ := ih r1 (pre ++ [(e, d)]) b1 (by omega) hh
        (fun y hy => hwf y (List.mem_cons_of_mem _ hy)) h
      refine ⟨by simpa using h1, by omega⟩
    · have hs2 : b.has_space e b.num_entries b.data_length = false := by
        simpa using hs
      rw [append_fail hashes b e d hs2] at h
      simp at h

theorem fill_holds (b0 : EdgeBlockHeader) (order vid : Nat) (ct : Int) (prev : Nat)
    (committed : Int) :
    (b0.fill order vid ct prev committed).Holds [] ∧
      (b0.fill order vid ct prev committed).order = order := by
  have ho : (b0.fill order vid ct prev committed).order = order := by
    unfold EdgeBlockHeader.fill EdgeBlockHeader.clear
    simp only
    split <;> rfl
  have hn : (b0.fill order vid ct prev committed).num_entries = 0 := by
    unfold EdgeBlockHeader.fill EdgeBlockHeader.clear
    simp only
    split <;> rfl
  have hl : (b0.fill order vid ct prev committed).data_length = 0 := by
    unfold EdgeBlockHeader.fill EdgeBlockHeader.clear
    simp only
    split <;> rfl
  refine ⟨⟨by rw [hn]; rfl, by rw [hl]; rfl, ?_, by simp [total_length]⟩, ho⟩
  intro i x hx
  simp at hx

/-! ### Scans over a block that holds an appended list -/

theorem string_view_stored (dm : Int → Nat) (p : Int) (x : EdgeEntry × (Nat → Nat))
    (h : ∀ k : Nat, k < x.1.length → dm (p + (k : Nat)) = x.2 k) :
    string_view dm p x.1.length = payload x := by
  unfold string_view payload
  apply List.map_congr_left
  intro k hk
  exact h k (List.mem_range.mp hk)

theorem fwd_at_view (tomb : Nat) (em : Int → EdgeEntry) (dm : Int → Nat) (A D : Int)
    (n dl : Nat) (R T : Int) (xs : List (EdgeEntry × (Nat → Nat)))
    (hst : Stored em dm A D xs) (j : Nat) (x : EdgeEntry × (Nat → Nat))
    (hx : xs[j]? = some x) :
    (EdgeIterator.fwd_at A D n dl R T (j + 1)
      (D + (total_length (xs.take (j + 1)) : Nat))).view tomb em dm = expected_view x := by
  obtain ⟨h1, h2⟩ := hst j x hx
  have hv := fwd_at_valid A D n dl R T (j + 1) (D + (total_length (xs.take (j + 1)) : Nat))
  simp only [ne_eq, Nat.add_one_ne_zero, not_false_eq_true, decide_True] at hv
  have hc : (EdgeIterator.fwd_at A D n dl R T (j + 1)
      (D + (total_length (xs.take (j + 1)) : Nat))).entries_cursor
        = A - 24 * ((j : Int) + 1) := by
    simp [EdgeIterator.fwd_at]
  have hd : (EdgeIterator.fwd_at A D n dl R T (j + 1)
      (D + (total_length (xs.take (j + 1)) : Nat))).data_cursor
        = D + (total_length (xs.take (j + 1)) : Nat) := rfl
  have hr : (EdgeIterator.fwd_at A D n dl R T (j + 1)
      (D + (total_length (xs.take (j + 1)) : Nat))).reverse = false := rfl
  unfold EdgeIterator.view expected_view EdgeIterator.dst_id EdgeIterator.edge_data
    EdgeIterator.current_slot
  simp only [hv, hr, hc, hd, Bool.not_true, Bool.not_false, Bool.false_eq_true, if_false,
    if_true, h1]
  have hp : D + ((total_length (xs.take (j + 1)) : Nat) : Int) - (x.1.length : Int)
      = D + (total_length (xs.take j) : Nat) := by
    rw [total_length_take_succ xs j x hx]; push_cast; ring
  rw [hp, string_view_stored dm _ x h2]

theorem fwd_states_views (cmp : Int → Int → Int → Int) (tomb : Nat) (em : Int → EdgeEntry)
    (dm : Int → Nat) (A D : Int) (n dl : Nat) (R T : Int)
    (xs : List (EdgeEntry × (Nat → Nat))) (hst : Stored em dm A D xs) :
    ∀ j : Nat, j ≤ xs.length →
      (fwd_states cmp em A D n dl R T j (D + (total_length (xs.take j) : Nat))).map
          (EdgeIterator.view tomb em dm) =
        (((xs.take j).filter (fun x => x.1.visible cmp R T)).reverse).map expected_view := by
  intro j
  induction j with
  | zero => intro _; simp [fwd_states]
  | succ j ih =>
    intro hj
    have hlt : j < xs.length := by omega
    have hx : xs[j]? = some xs[j] := List.getElem?_eq_getElem hlt
    obtain ⟨h1, -⟩ := hst j xs[j] hx
    have hdc : D + ((total_length (xs.take (j + 1)) : Nat) : Int)
        - ((em (A - 24 * ((j : Int) + 1))).length : Int)
        = D + (total_length (xs.take j) : Nat) := by
      rw [h1, total_length_take_succ xs j xs[j] hx]; push_cast; ring
    have htake : xs.take (j + 1) = xs.take j ++ [xs[j]] := by
      rw [List.take_succ, hx]; rfl
    rw [fwd_states, hdc, h1]
    conv_rhs => rw [htake]
    simp only [List.filter_append, List.reverse_append, List.map_append]
    rw [← ih (by omega)]
    by_cases hvis : xs[j].1.visible cmp R T = true
    · simp only [hvis, if_true, List.map_cons, List.filter_cons_of_pos, List.filter_nil,
        List.reverse_cons, List.reverse_nil, List.nil_append, List.map_nil,
        List.singleton_append]
      rw [fwd_at_view tomb em dm A D n dl R T xs hst j xs[j] hx]
    · simp [hvis]

theorem rev_at_view (tomb : Nat) (em : Int → EdgeEntry) (dm : Int → Nat) (A D : Int)
    (dl : Nat) (R T : Int) (xs : List (EdgeEntry × (Nat → Nat)))
    (hst : Stored em dm A D xs) (i j : Nat) (hij : i + (j + 1) = xs.length)
    (x : EdgeEntry × (Nat → Nat)) (hx : xs[i]? = some x) :
    (EdgeIterator.rev_at A D xs.length dl R T (j + 1)
      (D + (total_length (xs.take i) : Nat))).view tomb em dm = expected_view x := by
  obtain ⟨h1, h2⟩ := hst i x hx
  have hv := rev_at_valid A D xs.length dl R T (j + 1) (D + (total_length (xs.take i) : Nat))
  simp only [ne_eq, Nat.add_one_ne_zero, not_false_eq_true, decide_True] at hv
  have hc : (EdgeIterator.rev_at A D xs.length dl R T (j + 1)
      (D + (total_length (xs.take i) : Nat))).entries_cursor - (sizeof_EdgeEntry : Int)
        = A - 24 * ((i : Int) + 1) := by
    rw [rev_at_slot]
    have : (xs.length : Int) = (i : Int) + ((j : Int) + 1) := by rw [← hij]; push_cast; ring
    rw [this]; ring
  have hd : (EdgeIterator.rev_at A D xs.length dl R T (j + 1)
      (D + (total_length (xs.take i) : Nat))).data_cursor
        = D + (total_length (xs.take i) : Nat) := rfl
  have hr : (EdgeIterator.rev_at A D xs.length dl R T (j + 1)
      (D + (total_length (xs.take i) : Nat))).reverse = true := rfl
  unfold EdgeIterator.view expected_view EdgeIterator.dst_id EdgeIterator.edge_data
    EdgeIterator.current_slot
  simp only [hv, hr, hc, hd, Bool.not_true, Bool.not_false, Bool.false_eq_true, if_false,
    if_true, h1]
  rw [string_view_stored dm _ x h2]

theorem rev_states_views (cmp : Int → Int → Int → Int) (tomb : Nat) (em : Int → EdgeEntry)
    (dm : Int → Nat) (A D : Int) (dl : Nat) (R T : Int)
    (xs : List (EdgeEntry × (Nat → Nat))) (hst : Stored em dm A D xs) :
    ∀ i j : Nat, i + j = xs.length →
      (rev_states cmp em A D xs.length dl R T j (D + (total_length (xs.take i) : Nat))).map
          (EdgeIterator.view tomb em dm) =
        ((xs.drop i).filter (fun x => x.1.visible cmp R T)).map expected_view := by
  intro i j
  induction j generalizing i with
  | zero =>
    intro h
    have : xs.drop i = [] := List.drop_eq_nil_of_le (by omega)
    simp [rev_states, this]
  | succ j ih =>
    intro hij
    have hlt : i < xs.length := by omega
    have hx : xs[i]? = some xs[i] := List.getElem?_eq_getElem hlt
    obtain ⟨h1, -⟩ := hst i xs[i] hx
    have hslot : A - 24 * ((xs.length : Int) - (j : Int)) = A - 24 * ((i : Int) + 1) := by
      have : (xs.length : Int) = (i : Int) + ((j : Int) + 1) := by
        rw [← hij]; push_cast; ring
      rw [this]; ring
    have hdc : D + ((total_length (xs.take i) : Nat) : Int)
        + ((em (A - 24 * ((i : Int) + 1))).length : Int)
        = D + (total_length (xs.take (i + 1)) : Nat) := by
      rw [h1, total_length_take_succ xs i xs[i] hx]; push_cast; ring
    rw [rev_states, hslot, hdc, List.drop_eq_getElem_cons hlt, h1]
    by_cases hvis : xs[i].1.visible cmp R T = true
    · simp only [hvis, if_true, List.map_cons, List.filter_cons_of_pos]
      rw [rev_at_view tomb em dm A D dl R T xs hst i j hij xs[i] hx, ih (i + 1) (by omega)]
    · simp only [hvis, Bool.false_eq_true, if_false]
      rw [ih (i + 1) (by omega), List.filter_cons_of_neg (by simpa using hvis)]

theorem build_holds (hashes : Nat → Nat → List Nat) (b0 : EdgeBlockHeader)
    (order vid : Nat) (ct : Int) (prev : Nat) (committed : Int)
    (xs : List (EdgeEntry × (Nat → Nat))) (h64 : order < 64) (hwf : ∀ x ∈ xs, x.1.WF)
    (b : EdgeBlockHeader) (hb : b0.build hashes order vid ct prev committed xs = some b) :
    b.Holds xs ∧ b.order = order := by
  obtain ⟨h0, ho⟩ := fill_holds b0 order vid ct prev committed
  obtain ⟨h1, h2⟩ := append_all_holds hashes xs _ [] b (by omega) h0 hwf hb
  exact ⟨by simpa using h1, by omega⟩

theorem holds_scan_views (cmp : Int → Int → Int → Int) (tomb : Nat) (b : EdgeBlockHeader)
    (xs : List (EdgeEntry × (Nat → Nat))) (R T : Int) (hb : b.Holds xs) :
    b.scan_views cmp tomb R T false =
        some (((xs.filter (fun x => x.1.visible cmp R T)).reverse).map expected_view) ∧
      b.scan_views cmp tomb R T true =
        some ((xs.filter (fun x => x.1.visible cmp R T)).map expected_view) := by
  obtain ⟨hn, hl, hst, -⟩ := hb
  unfold EdgeBlockHeader.scan_views EdgeBlockHeader.scan
  constructor
  · rw [scan_fwd_eq, hn, hl]
    have h := fwd_states_views cmp tomb b.entry_mem b.data_mem b.get_entries b.get_data
      xs.length (total_length xs) R T xs hst xs.length (le_refl _)
    rw [List.take_length] at h
    simp only [Option.map_some']
    rw [h]
  · rw [scan_rev_eq, hn, hl]
    have h := rev_states_views cmp tomb b.entry_mem b.data_mem b.get_entries b.get_data
      (total_length xs) R T xs hst 0 xs.length (by omega)
    simp only [List.take_zero, List.drop_zero] at h
    have h0 : b.get_data + ((total_length ([] : List (EdgeEntry × (Nat → Nat))) : Nat) : Int)
        = b.get_data := by
      simp [total_length]
    rw [h0] at h
    simp only [Option.map_some']
    rw [h]

theorem map_fst_filter_visible (cmp : Int → Int → Int → Int) (R T : Int)
    (xs : List (EdgeEntry × (Nat → Nat))) :
    (xs.filter (fun x => x.1.visible cmp R T)).map (fun x => x.1) =
      (xs.map (fun x => x.1)).filter (fun e => e.visible cmp R T) := by
  induction xs with
  | nil => rfl
  | cons x rest ih =>
    by_cases h : x.1.visible cmp R T = true
    · simp [List.filter_cons, h, ih]
    · simp [List.filter_cons, h, ih]

theorem map_fst_expected_view (l : List (EdgeEntry × (Nat → Nat))) :
    (l.map expected_view).map (fun v => v.1) = l.map (fun x => x.1) := by
  simp [expected_view, Function.comp_def]

/-- C1 as stated fails: after appending entries with destinations 11, 12 (deleted before
the snapshot), 13 in this order, the scan with `reverse = false` at snapshot `(5, 0)` yields
the visible entries as 13, 11, which is not the insertion order 11, 13 of the visible
entries. -/
theorem forward_scan_not_in_insertion_order :
    ((EdgeBlockHeader.blank.build sample_hashes 7 5 1 0 1 sample_appends).bind
        (fun b => b.scan_entries cmp_timestamp 5 0 false)
      = some [⟨1, 0, 13, 2, 100⟩, ⟨1, 0, 11, 1, 100⟩]) ∧
    ((EdgeBlockHeader.blank.build sample_hashes 7 5 1 0 1 sample_appends).bind
        (fun b => b.scan_entries cmp_timestamp 5 0 false)
      ≠ some ((sample_appends.map (fun x => x.1)).filter
          (fun e => e.visible cmp_timestamp 5 0))) := by
  constructor
  · decide!
  · decide!

/-- C1, amended. For every edge block of order below 64 built by `fill` followed by appends
of well-formed entries that all succeed, and every snapshot, the scan with `reverse = false`
yields the visible entries newest first: the reverse of the order they were appended in. -/
theorem forward_scan_newest_first (hashes : Nat → Nat → List Nat)
    (cmp : Int → Int → Int → Int) (b0 : EdgeBlockHeader) (order vid : Nat) (ct : Int)
    (prev : Nat) (committed : Int) (xs : List (EdgeEntry × (Nat → Nat))) (R T : Int)
    (h64 : order < 64) (hwf : ∀ x ∈ xs, x.1.WF)
    (hsome : (b0.build hashes order vid ct prev committed xs).isSome = true) :
    (b0.build hashes order vid ct prev committed xs).bind
        (fun b => b.scan_entries cmp R T false) =
      some (((xs.map (fun x => x.1)).filter (fun e => e.visible cmp R T)).reverse) := by
  obtain ⟨b, hb⟩ := Option.isSome_iff_exists.mp hsome
  obtain ⟨hh, -⟩ := build_holds hashes b0 order vid ct prev committed xs h64 hwf b hb
  rw [hb, Option.some_bind]
  unfold EdgeBlockHeader.scan_entries
  rw [(holds_scan_views cmp 0 b xs R T hh).1]
  simp only [Option.map_some']
  rw [map_fst_expected_view, List.map_reverse, map_fst_filter_visible]

/-- Witness of C1 (amended): the three sample appends into an order-7 block. -/
theorem forward_scan_newest_first_witness :
    (EdgeBlockHeader.blank.build sample_hashes 7 5 1 0 1 sample_appends).bind
        (fun b => b.scan_entries cmp_timestamp 5 0 false) =
      some (((sample_appends.map (fun x => x.1)).filter
        (fun e => e.visible cmp_timestamp 5 0)).reverse) :=
  forward_scan_newest_first sample_hashes cmp_timestamp EdgeBlockHeader.blank 7 5 1 0 1
    sample_appends 5 0 (by decide) (by decide) (by decide!)

/-- C2 as stated fails: on the same block the scan with `reverse = true` yields the visible
entries as 11, 13, which is insertion order and not its reverse 13, 11. -/
theorem reverse_scan_not_newest_first :
    ((EdgeBlockHeader.blank.build sample_hashes 7 5 1 0 1 sample_appends).bind
        (fun b => b.scan_entries cmp_timestamp 5 0 true)
      = some [⟨1, 0, 11, 1, 100⟩, ⟨1, 0, 13, 2, 100⟩]) ∧
    ((EdgeBlockHeader.blank.build sample_hashes 7 5 1 0 1 sample_appends).bind
        (fun b => b.scan_entries cmp_timestamp 5 0 true)
      ≠ some (((sample_appends.map (fun x => x.1)).filter
          (fun e => e.visible cmp_timestamp 5 0)).reverse)) := by
  constructor
  · decide!
  · decide!

/-- C2, amended. For every edge block of order below 64 built by `fill` followed by appends
of well-formed entries that all succeed, and every snapshot, the scan with `reverse = true`
yields the visible entries oldest first: in the order they were appended in. -/
theorem reverse_scan_insertion_order (hashes : Nat → Nat → List Nat)
    (cmp : Int → Int → Int → Int) (b0 : EdgeBlockHeader) (order vid : Nat) (ct : Int)
    (prev : Nat) (committed : Int) (xs : List (EdgeEntry × (Nat → Nat))) (R T : Int)
    (h64 : order < 64) (hwf : ∀ x ∈ xs, x.1.WF)
    (hsome : (b0.build hashes order vid ct prev committed xs).isSome = true) :
    (b0.build hashes order vid ct prev committed xs).bind
        (fun b => b.scan_entries cmp R T true) =
      some ((xs.map (fun x => x.1)).filter (fun e => e.visible cmp R T)) := by
  obtain ⟨b, hb⟩ := Option.isSome_iff_exists.mp hsome
  obtain ⟨hh, -⟩ := build_holds hashes b0 order vid ct prev committed xs h64 hwf b hb
  rw [hb, Option.some_bind]
  unfold EdgeBlockHeader.scan_entries
  rw [(holds_scan_views cmp 0 b xs R T hh).2]
  simp only [Option.map_some']
  rw [map_fst_expected_view, map_fst_filter_visible]

/-- Witness of C2 (amended): the three sample appends into an order-7 block. -/
theorem reverse_scan_insertion_order_witness :
    (EdgeBlockHeader.blank.build sample_hashes 7 5 1 0 1 sample_appends).bind
        (fun b => b.scan_entries cmp_timestamp 5 0 true) =
      some ((sample_appends.map (fun x => x.1)).filter
        (fun e => e.visible cmp_timestamp 5 0)) :=
  reverse_scan_insertion_order sample_hashes cmp_timestamp EdgeBlockHeader.blank 7 5 1 0 1
    sample_appends 5 0 (by decide) (by decide) (by decide!)

/-- C3. For every entry store, every `n`, every snapshot and either direction, the scan
returns, and the slots it stops on (at construction and after each `next`, while valid)
contain no slot twice and are exactly the slots `entries - 24 * (k + 1)`, `k < n`, whose
entry satisfies `cmp(creation_time) <= 0` and `cmp(deletion_time) > 0`. -/
theorem scan_stops_once_on_each_visible_entry (cmp : Int → Int → Int → Int)
    (em : Int → EdgeEntry) (entries data : Int) (n dl : Nat) (R T : Int) (reverse : Bool) :
    ∃ states, EdgeIterator.scan cmp em entries data n dl R T reverse = some states ∧
      (states.map EdgeIterator.current_slot).Nodup ∧
      ∀ p : Int, p ∈ states.map EdgeIterator.current_slot ↔
        ∃ k : Nat, k < n ∧ p = entries - (sizeof_EdgeEntry : Int) * ((k : Int) + 1) ∧
          cmp (em p).creation_time R T ≤ 0 ∧ cmp (em p).deletion_time R T > 0 := by
  obtain ⟨states, h1, h2, h3⟩ := scan_slots cmp em entries data n dl R T reverse
  refine ⟨states, h1, h2, ?_⟩
  intro p
  rw [h3 p]
  simp only [EdgeEntry.visible, Bool.and_eq_true, decide_eq_true_eq, sizeof_EdgeEntry,
    Nat.cast_ofNat]

/-- C4. Round trip of `append` and iteration: for every edge block of order below 64
built by `fill` followed by appends of well-formed entries that all succeed, every snapshot
and either direction, the states the iterator stops on read back, one for one, as the
visible appended pairs: the entry under the cursor is the appended entry, `dst_id()` is its
destination and `edge_data()` is exactly the `length` bytes passed to `append`. -/
theorem append_iterate_round_trip (hashes : Nat → Nat → List Nat)
    (cmp : Int → Int → Int → Int) (tomb : Nat) (b0 : EdgeBlockHeader) (order vid : Nat)
    (ct : Int) (prev : Nat) (committed : Int) (xs : List (EdgeEntry × (Nat → Nat)))
    (R T : Int) (h64 : order < 64) (hwf : ∀ x ∈ xs, x.1.WF)
    (hsome : (b0.build hashes order vid ct prev committed xs).isSome = true) :
    (b0.build hashes order vid ct prev committed xs).bind
        (fun b => b.scan_views cmp tomb R T false) =
      some (((xs.filter (fun x => x.1.visible cmp R T)).reverse).map
        (fun x => (x.1, x.1.get_dst, payload x))) ∧
    (b0.build hashes order vid ct prev committed xs).bind
        (fun b => b.scan_views cmp tomb R T true) =
      some ((xs.filter (fun x => x.1.visible cmp R T)).map
        (fun x => (x.1, x.1.get_dst, payload x))) := by
  obtain ⟨b, hb⟩ := Option.isSome_iff_exists.mp hsome
  obtain ⟨hh, -⟩ := build_holds hashes b0 order vid ct prev committed xs h64 hwf b hb
  rw [hb, Option.some_bind, Option.some_bind]
  exact holds_scan_views cmp tomb b xs R T hh

/-- Witness of C4: the sample appends; entry 1 (two payload bytes) is invisible at snapshot
`(5, 0)` and is skipped in both directions. -/
theorem append_iterate_round_trip_witness :
    (EdgeBlockHeader.blank.build sample_hashes 7 5 1 0 1 sample_appends).bind
        (fun b => b.scan_views cmp_timestamp (2 ^ 64 - 1) 5 0 false) =
      some (((sample_appends.filter (fun x => x.1.visible cmp_timestamp 5 0)).reverse).map
        (fun x => (x.1, x.1.get_dst, payload x))) ∧
    (EdgeBlockHeader.blank.build sample_hashes 7 5 1 0 1 sample_appends).bind
        (fun b => b.scan_views cmp_timestamp (2 ^ 64 - 1) 5 0 true) =
      some ((sample_appends.filter (fun x => x.1.visible cmp_timestamp 5 0)).map
        (fun x => (x.1, x.1.get_dst, payload x))) :=
  append_iterate_round_trip sample_hashes cmp_timestamp (2 ^ 64 - 1) EdgeBlockHeader.blank
    7 5 1 0 1 sample_appends 5 0 (by decide) (by decide) (by decide!)

/-- C5. For every iterator that is not valid, in either direction, `dst_id()` returns
`Graph::VERTEX_TOMBSTONE` and `edge_data()` returns the empty string. -/
theorem invalid_iterator_reads_tombstone (tomb : Nat) (em : Int → EdgeEntry)
    (dm : Int → Nat) (it : EdgeIterator) (h : it.valid = false) :
    it.dst_id tomb em = tomb ∧ it.edge_data em dm = [] := by
  unfold EdgeIterator.dst_id EdgeIterator.edge_data
  simp [h]

/-- Witness of C5: the iterator the constructor returns for a block of `num_entries = 2`
whose two entries are both invisible at snapshot `(5, 0)`, scanning with
`reverse = false`. -/
theorem invalid_iterator_reads_tombstone_witness :
    EdgeIterator.ctor cmp_timestamp (fun _ => ⟨3, 0, 99, 7, 100⟩) 128 48 2 6 5 0 false
        = some ⟨128, 48, 2, 6, 5, 0, false, 128, 48⟩ ∧
      (EdgeIterator.dst_id 77 (fun _ => ⟨3, 0, 99, 7, 100⟩)
          ⟨128, 48, 2, 6, 5, 0, false, 128, 48⟩ = 77 ∧
        EdgeIterator.edge_data (fun _ => ⟨3, 0, 99, 7, 100⟩) (fun _ => 1)
          ⟨128, 48, 2, 6, 5, 0, false, 128, 48⟩ = []) :=
  ⟨by decide, invalid_iterator_reads_tombstone 77 (fun _ => ⟨3, 0, 99, 7, 100⟩) (fun _ => 1)
    ⟨128, 48, 2, 6, 5, 0, false, 128, 48⟩ (by decide)⟩

theorem yields_eq (cmp : Int → Int → Int → Int) (em : Int → EdgeEntry) (E D : Int)
    (n dl : Nat) (R T : Int) (reverse : Bool) (k : Nat) (hk : k < n) :
    EdgeIterator.yields cmp em E D n dl R T reverse (E - 24 * ((k : Int) + 1)) =
      some ((em (E - 24 * ((k : Int) + 1))).visible cmp R T) := by
  obtain ⟨states, h1, -, h3⟩ := scan_slots cmp em E D n dl R T reverse
  unfold EdgeIterator.yields
  rw [h1, Option.map_some']
  congr 1
  by_cases hv : (em (E - 24 * ((k : Int) + 1))).visible cmp R T = true
  · rw [hv, decide_eq_true_iff, h3]
    exact ⟨k, hk, rfl, hv⟩
  · have hv2 : (em (E - 24 * ((k : Int) + 1))).visible cmp R T = false := by simpa using hv
    rw [hv2, decide_eq_false_iff_not, h3]
    rintro ⟨_, _, _, h⟩
    exact hv h

/-- C6. Pending timestamps resolve by owner in the edge iterator, with `cmp` as the spec
defines it. For every reader `(R, T)`, either direction and every published slot `k < n`:
an entry whose creation time is a pending stamp of magnitude `T` and whose deletion time is
plus infinity (a non-pending timestamp above the read epoch) is yielded; an entry whose
creation time is a pending stamp of another transaction is not yielded; an entry committed
at or before `R` whose deletion time is a pending stamp is yielded exactly when the stamp's
magnitude differs from `T`. -/
theorem pending_timestamps_resolve_by_owner (em : Int → EdgeEntry) (E D : Int) (n dl : Nat)
    (R T : Int) (reverse : Bool) (k : Nat) (hk : k < n) :
    ((em (E - 24 * ((k : Int) + 1))).creation_time < 0 →
      -(em (E - 24 * ((k : Int) + 1))).creation_time = T →
      0 ≤ (em (E - 24 * ((k : Int) + 1))).deletion_time →
      R < (em (E - 24 * ((k : Int) + 1))).deletion_time →
      EdgeIterator.yields cmp_timestamp em E D n dl R T reverse (E - 24 * ((k : Int) + 1))
        = some true) ∧
    ((em (E - 24 * ((k : Int) + 1))).creation_time < 0 →
      -(em (E - 24 * ((k : Int) + 1))).creation_time ≠ T →
      EdgeIterator.yields cmp_timestamp em E D n dl R T reverse (E - 24 * ((k : Int) + 1))
        = some false) ∧
    (0 ≤ (em (E - 24 * ((k : Int) + 1))).creation_time →
      (em (E - 24 * ((k : Int) + 1))).creation_time ≤ R →
      (em (E - 24 * ((k : Int) + 1))).deletion_time < 0 →
      EdgeIterator.yields cmp_timestamp em E D n dl R T reverse (E - 24 * ((k : Int) + 1))
        = some (decide (-(em (E - 24 * ((k : Int) + 1))).deletion_time ≠ T))) := by
  rw [yields_eq cmp_timestamp em E D n dl R T reverse k hk]
  generalize em (E - 24 * ((k : Int) + 1)) = e
  unfold EdgeEntry.visible cmp_timestamp
  refine ⟨?_, ?_, ?_⟩
  · intro h1 h2 h3 h4
    have h5 : ¬ e.deletion_time < 0 := by omega
    have h6 : ¬ e.deletion_time < R := by omega
    have h7 : ¬ e.deletion_time = R := by omega
    simp [h1, h2, h5, h6, h7]
  · intro h1 h2
    simp [h1, h2]
  · intro h1 h2 h3
    have h5 : ¬ e.creation_time < 0 := by omega
    by_cases h6 : e.creation_time < R
    · by_cases h7 : -e.deletion_time = T
      · simp [h5, h6, h3, h7]
      · simp [h5, h6, h3, h7]
    · have h8 : e.creation_time = R := by omega
      have h9 : ¬ R < 0 := by omega
      by_cases h7 : -e.deletion_time = T
      · simp [h3, h7, h8, h9]
      · simp [h3, h7, h8, h9]

/-- Witness of C6: reader `(5, 7)` over the four sample slots: its own insert (slot 104) is
yielded, the insert of transaction 9 (slot 80) is not, the entry it deleted itself
(slot 56) is not, and the entry deleted by transaction 9 (slot 32) still is. -/
theorem pending_timestamps_resolve_by_owner_witness :
    EdgeIterator.yields cmp_timestamp sample_pending 128 48 4 0 5 7 false
        (128 - 24 * (((0 : Nat) : Int) + 1)) = some true ∧
      EdgeIterator.yields cmp_timestamp sample_pending 128 48 4 0 5 7 false
        (128 - 24 * (((1 : Nat) : Int) + 1)) = some false ∧
      EdgeIterator.yields cmp_timestamp sample_pending 128 48 4 0 5 7 true
        (128 - 24 * (((2 : Nat) : Int) + 1)) =
        some (decide (-(sample_pending (128 - 24 * (((2 : Nat) : Int) + 1))).deletion_time
          ≠ 7)) ∧
      EdgeIterator.yields cmp_timestamp sample_pending 128 48 4 0 5 7 true
        (128 - 24 * (((3 : Nat) : Int) + 1)) =
        some (decide (-(sample_pending (128 - 24 * (((3 : Nat) : Int) + 1))).deletion_time
          ≠ 7)) :=
  ⟨(pending_timestamps_resolve_by_owner sample_pending 128 48 4 0 5 7 false 0 (by decide)).1
      (by decide) (by decide) (by decide) (by decide),
   (pending_timestamps_resolve_by_owner sample_pending 128 48 4 0 5 7 false 1 (by decide)).2.1
      (by decide) (by decide),
   (pending_timestamps_resolve_by_owner sample_pending 128 48 4 0 5 7 true 2 (by decide)).2.2
      (by decide) (by decide) (by decide),
   (pending_timestamps_resolve_by_owner sample_pending 128 48 4 0 5 7 true 3 (by decide)).2.2
      (by decide) (by decide) (by decide)⟩

/-! ### Edge block: size invariant and Bloom filter -/

theorem fill_size_ok (b0 : EdgeBlockHeader) (order vid : Nat) (ct : Int) (prev : Nat)
    (committed : Int) (h6 : 6 ≤ order) :
    (b0.fill order vid ct prev committed).size_ok := by
  obtain ⟨⟨hn, hl, -, -⟩, ho⟩ := fill_holds b0 order vid ct prev committed
  unfold EdgeBlockHeader.size_ok bloom_bytes
  rw [hn, hl, ho]
  simp only [sizeof_EdgeBlockHeader, sizeof_EdgeEntry, BLOOM_FILTER_THRESHOLD,
    BLOOM_FILTER_PORTION, total_length, Nat.shiftRight_eq_div_pow, List.length_nil,
    List.map_nil, List.sum_nil]
  by_cases ho10 : 10 ≤ order
  · have hP : 2 ^ 10 ≤ 2 ^ order := Nat.pow_le_pow_right (by norm_num) ho10
    generalize 2 ^ order = P at *
    norm_num at hP ⊢
    simp only [ho10, if_true]
    omega
  · have hP : 2 ^ 6 ≤ 2 ^ order := Nat.pow_le_pow_right (by norm_num) h6
    generalize 2 ^ order = P at *
    norm_num at hP ⊢
    have ho2 : ¬ (order ≥ 10) := by omega
    simp only [ho10, if_false]
    omega

theorem append_size_ok (hashes : Nat → Nat → List Nat) (b : EdgeBlockHeader) (e : EdgeEntry)
    (d : Nat → Nat) (h64 : b.order ≤ 63) (hwf : e.WF) (hb : b.size_ok) :
    (b.append hashes e d).1.size_ok := by
  by_cases hs : b.has_space e b.num_entries b.data_length = true
  · obtain ⟨-, ho, hn1, hl1, -, -, -⟩ := append_ok hashes b e d hs
    unfold EdgeBlockHeader.size_ok at hb ⊢
    simp only [sizeof_EdgeBlockHeader, sizeof_EdgeEntry] at hb ⊢
    have hJ0 : 24 * b.num_entries + b.data_length ≤ 2 ^ b.order := by omega
    have hsp := (has_space_iff b e b.num_entries b.data_length (by omega) hJ0 hwf).mp hs
    have hP := pow_order_le b.order (by omega)
    have hlen : e.length < 2 ^ 16 := hwf.1
    norm_num at hP hlen
    have hn2 : (b.append hashes e d).1.num_entries = b.num_entries + 1 := by
      rw [hn1]; norm_num; omega
    have hl2 : (b.append hashes e d).1.data_length = b.data_length + e.length := by
      rw [hl1]; norm_num; omega
    rw [hn2, hl2, ho]
    omega
  · have hs2 : b.has_space e b.num_entries b.data_length = false := by simpa using hs
    rw [append_fail hashes b e d hs2]
    exact hb

/-- C7. Edge-block size invariant: for every order from 6 to 63 the block produced by
`fill` satisfies `48 + 24 * num_entries + data_length + bloom_bytes <= 2^order`, and every
call of `append` with a well-formed entry, whether it succeeds or returns `nullptr`, on a
block of order at most 63 that satisfies the inequality leaves a block that satisfies it. -/
theorem edge_block_size_invariant (hashes : Nat → Nat → List Nat) (b0 : EdgeBlockHeader)
    (order vid : Nat) (ct : Int) (prev : Nat) (committed : Int) (h6 : 6 ≤ order)
    (h63 : order ≤ 63) :
    (b0.fill order vid ct prev committed).size_ok ∧
      ∀ (b : EdgeBlockHeader) (e : EdgeEntry) (d : Nat → Nat),
        b.order = order → e.WF → b.size_ok → (b.append hashes e d).1.size_ok := by
  refine ⟨fill_size_ok b0 order vid ct prev committed h6, ?_⟩
  intro b e d ho hwf hb
  exact append_size_ok hashes b e d (by omega) hwf hb

/-- Witness of C7: an order-6 block right after `fill`, where an append of a one-byte entry
does not fit (48 + 24 + 1 > 64), and an order-10 block, where it does. -/
theorem edge_block_size_invariant_witness :
    ((EdgeBlockHeader.blank.fill 6 5 1 0 1).size_ok ∧
      ((EdgeBlockHeader.blank.fill 6 5 1 0 1).append sample_hashes ⟨1, 0, 11, 1, 100⟩
        (buffer [65])).1.size_ok) ∧
    ((EdgeBlockHeader.blank.fill 10 5 1 0 1).size_ok ∧
      ((EdgeBlockHeader.blank.fill 10 5 1 0 1).append sample_hashes ⟨1, 0, 11, 1, 100⟩
        (buffer [65])).1.size_ok) :=
  ⟨⟨(edge_block_size_invariant sample_hashes EdgeBlockHeader.blank 6 5 1 0 1
        (by decide) (by decide)).1,
    (edge_block_size_invariant sample_hashes EdgeBlockHeader.blank 6 5 1 0 1
        (by decide) (by decide)).2 _ _ _ (by decide) (by decide)
      (edge_block_size_invariant sample_hashes EdgeBlockHeader.blank 6 5 1 0 1
        (by decide) (by decide)).1⟩,
   ⟨(edge_block_size_invariant sample_hashes EdgeBlockHeader.blank 10 5 1 0 1
        (by decide) (by decide)).1,
    (edge_block_size_invariant sample_hashes EdgeBlockHeader.blank 10 5 1 0 1
        (by decide) (by decide)).2 _ _ _ (by decide) (by decide)
      (edge_block_size_invariant sample_hashes EdgeBlockHeader.blank 10 5 1 0 1
        (by decide) (by decide)).1⟩⟩

theorem append_order (hashes : Nat → Nat → List Nat) (b : EdgeBlockHeader) (e : EdgeEntry)
    (d : Nat → Nat) : (b.append hashes e d).1.order = b.order := by
  by_cases hs : b.has_space e b.num_entries b.data_length = true
  · exact (append_ok hashes b e d hs).2.1
  · have hs2 : b.has_space e b.num_entries b.data_length = false := by simpa using hs
    rw [append_fail hashes b e d hs2]

theorem append_bits_mono (hashes : Nat → Nat → List Nat) (b : EdgeBlockHeader)
    (e : EdgeEntry) (d : Nat → Nat) (i : Nat) (h : b.bloom_bits i = true) :
    (b.append hashes e d).1.bloom_bits i = true := by
  by_cases hs : b.has_space e b.num_entries b.data_length = true
  · rw [(append_ok hashes b e d hs).2.2.2.2.2.2]
    split
    · unfold BloomFilter.insert
      simp [h]
    · exact h
  · have hs2 : b.has_space e b.num_entries b.data_length = false := by simpa using hs
    rw [append_fail hashes b e d hs2]
    exact h

theorem get_bloom_filter_of_ge (b : EdgeBlockHeader) (h10 : 10 ≤ b.order) :
    b.get_bloom_filter.valid = true ∧
      b.get_bloom_filter.size_arg = b.order - BLOOM_FILTER_PORTION := by
  unfold EdgeBlockHeader.get_bloom_filter BloomFilter.valid
  have : ¬ b.order < BLOOM_FILTER_THRESHOLD := by unfold BLOOM_FILTER_THRESHOLD; omega
  simp [this]

theorem append_sets_bits (hashes : Nat → Nat → List Nat) (b : EdgeBlockHeader)
    (e : EdgeEntry) (d : Nat → Nat) (h10 : 10 ≤ b.order)
    (hs : (b.append hashes e d).2 ≠ none) :
    ∀ i ∈ hashes (b.order - BLOOM_FILTER_PORTION) e.get_dst,
      (b.append hashes e d).1.bloom_bits i = true := by
  have hsp : b.has_space e b.num_entries b.data_length = true := by
    by_contra hc
    have hs2 : b.has_space e b.num_entries b.data_length = false := by simpa using hc
    rw [append_fail hashes b e d hs2] at hs
    exact hs rfl
  obtain ⟨hv, hsz⟩ := get_bloom_filter_of_ge b h10
  intro i hi
  rw [(append_ok hashes b e d hsp).2.2.2.2.2.2, if_pos hv]
  unfold BloomFilter.insert
  rw [hsz, if_pos hi]

theorem append_each_order (hashes : Nat → Nat → List Nat) :
    ∀ (xs : List (EdgeEntry × (Nat → Nat))) (b : EdgeBlockHeader),
      (b.append_each hashes xs).1.order = b.order := by
  intro xs
  induction xs with
  | nil => intro b; rfl
  | cons x rest ih =>
    intro b
    obtain ⟨e, d⟩ := x
    rw [EdgeBlockHeader.append_each]
    simp only
    rw [ih, append_order]

theorem append_each_bits_mono (hashes : Nat → Nat → List Nat) (i : Nat) :
    ∀ (xs : List (EdgeEntry × (Nat → Nat))) (b : EdgeBlockHeader),
      b.bloom_bits i = true → (b.append_each hashes xs).1.bloom_bits i = true := by
  intro xs
  induction xs with
  | nil => intro b h; exact h
  | cons x rest ih =>
    intro b h
    obtain ⟨e, d⟩ := x
    rw [EdgeBlockHeader.append_each]
    simp only
    exact ih _ (append_bits_mono hashes b e d i h)

theorem append_each_contains (hashes : Nat → Nat → List Nat) :
    ∀ (xs : List (EdgeEntry × (Nat → Nat))) (b : EdgeBlockHeader), 10 ≤ b.order →
      ∀ (i : Nat) (x : EdgeEntry × (Nat → Nat)) (slot : Int), xs[i]? = some x →
        (b.append_each hashes xs).2[i]? = some (some slot) →
        (b.append_each hashes xs).1.get_bloom_filter.contains hashes
          (b.append_each hashes xs).1.bloom_bits x.1.get_dst = true := by
  intro xs
  induction xs with
  | nil => intro b _ i x slot hx; simp at hx
  | cons y rest ih =>
    intro b h10 i x slot hx hr
    obtain ⟨e, d⟩ := y
    have ho1 := append_order hashes b e d
    cases i with
    | zero =>
      simp only [List.getElem?_cons_zero, Option.some.injEq] at hx
      subst hx
      rw [EdgeBlockHeader.append_each] at hr ⊢
      simp only [List.getElem?_cons_zero, Option.some.injEq] at hr
      simp only
      have hne : (b.append hashes e d).2 ≠ none := by rw [hr]; simp
      have hbits := append_sets_bits hashes b e d h10 hne
      have ho2 := append_each_order hashes rest (b.append hashes e d).1
      obtain ⟨-, hsz⟩ := get_bloom_filter_of_ge
        ((b.append hashes e d).1.append_each hashes rest).1 (by omega)
      unfold BloomFilter.contains
      rw [hsz, ho2, ho1, List.all_eq_true]
      intro j hj
      exact append_each_bits_mono hashes j rest _ (hbits j hj)
    | succ i =>
      rw [EdgeBlockHeader.append_each] at hr ⊢
      simp only [List.getElem?_cons_succ] at hx hr
      simp only
      exact ih (b.append hashes e d).1 (by omega) i x slot hx hr

/-- C8. The Bloom filter has no false negatives at block level: for every edge block of
order at least 10 built by `fill` followed by any sequence of `append` calls (each may
succeed or fail), and every entry that was successfully appended,
`get_bloom_filter().contains(dst)` is true for its destination. -/
theorem bloom_filter_no_false_negative (hashes : Nat → Nat → List Nat)
    (b0 : EdgeBlockHeader) (order vid : Nat) (ct : Int) (prev : Nat) (committed : Int)
    (xs : List (EdgeEntry × (Nat → Nat))) (i : Nat) (x : EdgeEntry × (Nat → Nat))
    (slot : Int) (h10 : 10 ≤ order) (hx : xs[i]? = some x)
    (hr : ((b0.fill order vid ct prev committed).append_each hashes xs).2[i]?
      = some (some slot)) :
    ((b0.fill order vid ct prev committed).append_each hashes xs).1.get_bloom_filter.contains
      hashes ((b0.fill order vid ct prev committed).append_each hashes xs).1.bloom_bits
      x.1.get_dst = true := by
  have ho := (fill_holds b0 order vid ct prev committed).2
  exact append_each_contains hashes xs _ (by omega) i x slot hx hr

/-- Witness of C8: the three sample appends into an order-10 block; the destination 12 of
the second one is reported as contained. -/
theorem bloom_filter_no_false_negative_witness :
    ((EdgeBlockHeader.blank.fill 10 5 1 0 1).append_each sample_hashes
        sample_appends).1.get_bloom_filter.contains sample_hashes
      ((EdgeBlockHeader.blank.fill 10 5 1 0 1).append_each sample_hashes
        sample_appends).1.bloom_bits
      (⟨2, 0, 12, 2, 3⟩ : EdgeEntry).get_dst = true :=
  bloom_filter_no_false_negative sample_hashes EdgeBlockHeader.blank 10 5 1 0 1
    sample_appends 1 (⟨2, 0, 12, 2, 3⟩, buffer [66, 67]) 912 (by decide) (by rfl)
    (by decide!)

/-! ### Block manager: null pointer and capacity -/

theorem initial_alloc (c : Nat) : (BlockManager.initial c).alloc LARGE_BLOCK_THRESHOLD
    = (0, { BlockManager.initial c with used_size := 2 ^ 20 }) := by
  unfold BlockManager.alloc BlockManager.pop BlockManager.initial
  simp [LARGE_BLOCK_THRESHOLD, MAX_ORDER, NULLPOINTER, FILE_TRUNC_SIZE,
    List.getD_eq_getElem?_getD, List.getElem?_replicate]

theorem ctor_eq (c : Nat) : BlockManager.ctor c =
    { capacity := c, free_blocks := List.replicate LARGE_BLOCK_THRESHOLD [],
      large_free_blocks := List.replicate MAX_ORDER [], used_size := 2 ^ 20,
      file_size := FILE_TRUNC_SIZE, null_holder := 0 } := by
  rw [ctor_def, initial_alloc]
  simp only [BlockManager.initial]

theorem mem_replicate_nil_elim {p : Nat} {l : List Nat} {n k : Nat}
    (h : (List.replicate n ([] : List Nat))[k]? = some l) (hp : p ∈ l) : False := by
  have := List.getElem?_mem h
  rw [List.eq_of_mem_replicate this] at hp
  simp at hp

/-- Every offset on the free lists of manager `m` satisfies `P`. -/
theorem pop_mem (P : Nat → Prop) (fb : List (List Nat)) (order : Nat)
    (h : ∀ l ∈ fb, ∀ p ∈ l, P p) :
    ((BlockManager.pop fb order).1 = NULLPOINTER ∨ P (BlockManager.pop fb order).1) ∧
      ∀ l ∈ (BlockManager.pop fb order).2, ∀ p ∈ l, P p := by
  unfold BlockManager.pop
  by_cases hlen : (fb.getD order []).length ≠ 0
  · have hne : fb.getD order [] ≠ [] := by
      intro h0; rw [h0] at hlen; simp at hlen
    have hmem : fb.getD order [] ∈ fb := by
      rw [List.getD_eq_getElem?_getD] at hne ⊢
      cases hget : fb[order]? with
      | none => simp [hget] at hne
      | some l => simp only [Option.getD_some]; exact List.getElem?_mem hget
    rw [if_pos hlen]
    refine ⟨Or.inr ?_, ?_⟩
    · apply h _ hmem
      rw [List.getLastD_eq_getLast?, List.getLast?_eq_getLast _ hne]
      exact List.getLast_mem hne
    · intro l hl p hp
      rcases List.mem_or_eq_of_mem_set hl with hl | hl
      · exact h l hl p hp
      · subst hl
        exact h _ hmem p (List.dropLast_subset _ hp)
  · rw [if_neg hlen]
    exact ⟨Or.inl rfl, h⟩

theorem push_mem (P : Nat → Prop) (fb : List (List Nat)) (order p : Nat)
    (h : ∀ l ∈ fb, ∀ q ∈ l, P q) (hp : P p) :
    ∀ l ∈ BlockManager.push fb order p, ∀ q ∈ l, P q := by
  unfold BlockManager.push
  intro l hl q hq
  rcases List.mem_or_eq_of_mem_set hl with hl | hl
  · exact h l hl q hq
  · subst hl
    rcases List.mem_append.mp hq with hq | hq
    · rw [List.getD_eq_getElem?_getD] at hq
      cases hget : fb[order]? with
      | none => simp [hget] at hq
      | some l =>
        simp only [hget, Option.getD_some] at hq
        exact h l (List.getElem?_mem hget) q hq
    · simp at hq; subst hq; exact hp

theorem block_size_eq (order : Nat) (h : order < MAX_ORDER) :
    (1 <<< order) % 2 ^ 64 = 2 ^ order := by
  rw [Nat.one_shiftLeft]
  exact Nat.mod_eq_of_lt (Nat.pow_lt_pow_right (by norm_num) h)

/-- The result of `alloc`: either an offset popped from a free list, with the cursor
untouched, or the old cursor, with the cursor advanced by the block size modulo `2^64`. -/
theorem alloc_cases (m : BlockManager) (order : Nat) (ho : order < MAX_ORDER) :
    ((m.alloc order).1 ≠ NULLPOINTER ∧ (m.alloc order).2.used_size = m.used_size ∧
      (if order < LARGE_BLOCK_THRESHOLD
        then (m.alloc order).1 = (BlockManager.pop m.free_blocks order).1
        else (m.alloc order).1 = (BlockManager.pop m.large_free_blocks order).1)) ∨
    ((m.alloc order).1 = m.used_size ∧
      (m.alloc order).2.used_size = (m.used_size + 2 ^ order) % 2 ^ 64) := by
  have hbs := block_size_eq order ho
  unfold BlockManager.alloc
  by_cases hlt : order < LARGE_BLOCK_THRESHOLD
  · simp only [hlt, if_true]
    by_cases hp : (BlockManager.pop m.free_blocks order).1 = NULLPOINTER
    · right
      simp only [hp, if_true, hbs]
      split <;> [split; skip] <;> exact ⟨rfl, rfl⟩
    · left
      simp only [hp, if_false]
      exact ⟨hp, trivial, trivial⟩
  · simp only [hlt, if_false]
    by_cases hp : (BlockManager.pop m.large_free_blocks order).1 = NULLPOINTER
    · right
      simp only [hp, if_true, hbs]
      split <;> [split; skip] <;> exact ⟨rfl, rfl⟩
    · left
      simp only [hp, if_false]
      exact ⟨hp, trivial, trivial⟩

theorem alloc_free_lists (m : BlockManager) (order : Nat) :
    (m.alloc order).2.free_blocks =
        (if order < LARGE_BLOCK_THRESHOLD then (BlockManager.pop m.free_blocks order).2
          else m.free_blocks) ∧
      (m.alloc order).2.large_free_blocks =
        (if order < LARGE_BLOCK_THRESHOLD then m.large_free_blocks
          else (BlockManager.pop m.large_free_blocks order).2) := by
  unfold BlockManager.alloc
  by_cases hlt : order < LARGE_BLOCK_THRESHOLD
  · simp only [hlt, if_true]
    split <;> [split; skip] <;> [split; skip; skip] <;> exact ⟨rfl, rfl⟩
  · simp only [hlt, if_false]
    split <;> [split; skip] <;> [split; skip; skip] <;> exact ⟨rfl, rfl⟩

/-- No offset the manager holds in a free list is the null pointer, and the cursor is
positive and leaves room for `room` more bytes below `2^64`. -/
theorem run_nonnull (ops : List BMCall) :
    ∀ (m : BlockManager) (returned : List Nat),
      0 < m.used_size → m.used_size + BMCall.requested ops < 2 ^ 64 →
      (∀ l ∈ m.free_blocks, ∀ p ∈ l, p ≠ NULLPOINTER) →
      (∀ l ∈ m.large_free_blocks, ∀ p ∈ l, p ≠ NULLPOINTER) →
      (∀ p ∈ returned, p ≠ NULLPOINTER) →
      m.frees_returned returned ops →
      ∀ pr ∈ (m.run ops).2, pr.1 ≠ NULLPOINTER := by
  induction ops with
  | nil => intro m returned _ _ _ _ _ _ pr hpr; simp [BlockManager.run] at hpr
  | cons op rest ih =>
    intro m returned hpos hsum hfb hlb hret hfr pr hpr
    cases op with
    | alloc order =>
      simp only [BlockManager.frees_returned] at hfr
      simp only [BMCall.requested] at hsum
      obtain ⟨ho, hfr⟩ := hfr
      have hfl := alloc_free_lists m order
      have hp1 := pop_mem (fun p => p ≠ NULLPOINTER) m.free_blocks order hfb
      have hp2 := pop_mem (fun p => p ≠ NULLPOINTER) m.large_free_blocks order hlb
      have hpow : 0 < 2 ^ order := Nat.pow_pos (by norm_num)
      have ha : (m.alloc order).1 ≠ NULLPOINTER ∧ 0 < (m.alloc order).2.used_size ∧
          (m.alloc order).2.used_size + BMCall.requested rest < 2 ^ 64 := by
        rcases alloc_cases m order ho with ⟨h1, h2, -⟩ | ⟨h1, h2⟩
        · exact ⟨h1, by omega, by omega⟩
        · have hlt : m.used_size + 2 ^ order < 2 ^ 64 := by omega
          rw [Nat.mod_eq_of_lt hlt] at h2
          refine ⟨?_, by omega, by omega⟩
          rw [h1]; unfold NULLPOINTER; omega
      have hfb1 : ∀ l ∈ (m.alloc order).2.free_blocks, ∀ p ∈ l, p ≠ NULLPOINTER := by
        rw [hfl.1]; split
        · exact hp1.2
        · exact hfb
      have hlb1 : ∀ l ∈ (m.alloc order).2.large_free_blocks, ∀ p ∈ l, p ≠ NULLPOINTER := by
        rw [hfl.2]; split
        · exact hlb
        · exact hp2.2
      simp only [BlockManager.run, List.mem_cons] at hpr
      rcases hpr with hpr | hpr
      · subst hpr; exact ha.1
      · refine ih _ _ ha.2.1 ha.2.2 hfb1 hlb1 ?_ hfr pr hpr
        intro q hq
        rcases List.mem_cons.mp hq with hq | hq
        · subst hq; exact ha.1
        · exact hret q hq
    | free block order =>
      simp only [BlockManager.frees_returned] at hfr
      simp only [BMCall.requested] at hsum
      obtain ⟨-, hmem, hfr⟩ := hfr
      simp only [BlockManager.run] at hpr
      have hb := hret block hmem
      refine ih (m.free block order) returned ?_ ?_ ?_ ?_ hret hfr pr hpr
      · unfold BlockManager.free; split <;> exact hpos
      · unfold BlockManager.free; split <;> exact hsum
      · unfold BlockManager.free; split
        · exact push_mem _ _ order block hfb hb
        · exact hfb
      · unfold BlockManager.free; split
        · exact hlb
        · exact push_mem _ _ order block hlb hb

/-- C11 as stated fails: the calls `alloc(20); alloc(21); ...; alloc(63)` move the 64-bit
`used_size` cursor from `2^20` to `2^64`, which wraps to 0, and the next call `alloc(6)`
returns offset 0, the null pointer. No `free` is involved. -/
theorem alloc_returns_null_after_cursor_wraps :
    (BlockManager.ctor (2 ^ 40)).frees_returned [] wrapping_calls ∧
      ((BlockManager.ctor (2 ^ 40)).run wrapping_calls).2.getLast? = some (NULLPOINTER, 6) := by
  constructor
  · decide
  · decide!

/-- C11, amended. After the constructor has run, for every sequence of `alloc` and `free`
calls in which `free` is only applied to offsets previously returned by `alloc` to the
caller and in which the requested block sizes, together with the null holder's `2^20`
bytes, add up to less than `2^64` (the `used_size` cursor does not wrap), no `alloc` call
returns offset 0; and `convert` maps offset 0 to the null pointer and every other offset to
`data + offset`. -/
theorem null_pointer_never_allocated (capacity data : Nat) (ops : List BMCall)
    (hfree : (BlockManager.ctor capacity).frees_returned [] ops)
    (hsum : 2 ^ 20 + BMCall.requested ops < 2 ^ 64) :
    (∀ pr ∈ ((BlockManager.ctor capacity).run ops).2, pr.1 ≠ NULLPOINTER) ∧
      BlockManager.convert data NULLPOINTER = none ∧
      ∀ p : Nat, p ≠ NULLPOINTER → BlockManager.convert data p = some (data + p) := by
  refine ⟨?_, by simp [BlockManager.convert], ?_⟩
  · have hnil : ∀ (n : Nat), ∀ l ∈ List.replicate n ([] : List Nat), ∀ p ∈ l,
        p ≠ NULLPOINTER := by
      intro n l hl p hp
      rw [List.eq_of_mem_replicate hl] at hp
      simp at hp
    have hinv : ∀ m : BlockManager, m = BlockManager.ctor capacity →
        ∀ pr ∈ (m.run ops).2, pr.1 ≠ NULLPOINTER := by
      intro m hm
      have hu : m.used_size = 2 ^ 20 := by rw [hm, ctor_eq]
      have hf : m.free_blocks = List.replicate LARGE_BLOCK_THRESHOLD [] := by
        rw [hm, ctor_eq]
      have hl : m.large_free_blocks = List.replicate MAX_ORDER [] := by rw [hm, ctor_eq]
      refine run_nonnull ops m [] (by rw [hu]; norm_num) (by rw [hu]; exact hsum)
        (by rw [hf]; exact hnil _) (by rw [hl]; exact hnil _) (by simp) ?_
      rw [hm]; exact hfree
    exact hinv _ rfl
  · intro p hp
    simp [BlockManager.convert, hp]

/-- Witness of C11 (amended): `alloc(6); alloc(12); free(2^20, 6); alloc(6)` on a fresh
manager; the reused offset `2^20` is not the null pointer. -/
theorem null_pointer_never_allocated_witness :
    (2 ^ 20, 6) ∈ ((BlockManager.ctor (2 ^ 40)).run
        [BMCall.alloc 6, BMCall.alloc 12, BMCall.free (2 ^ 20) 6, BMCall.alloc 6]).2 ∧
      ((2 ^ 20, 6) : Nat × Nat).1 ≠ NULLPOINTER :=
  ⟨by decide,
   (null_pointer_never_allocated (2 ^ 40) 4096
      [BMCall.alloc 6, BMCall.alloc 12, BMCall.free (2 ^ 20) 6, BMCall.alloc 6]
      (by decide) (by decide)).1 (2 ^ 20, 6) (by decide)⟩

theorem pop_indexed (Q : Nat → Nat → Prop) (fb : List (List Nat)) (order : Nat)
    (h : ∀ k l, fb[k]? = some l → ∀ p ∈ l, Q k p) :
    ((BlockManager.pop fb order).1 = NULLPOINTER ∨ Q order (BlockManager.pop fb order).1) ∧
      ∀ k l, (BlockManager.pop fb order).2[k]? = some l → ∀ p ∈ l, Q k p := by
  unfold BlockManager.pop
  by_cases hlen : (fb.getD order []).length ≠ 0
  · have hne : fb.getD order [] ≠ [] := by
      intro h0; rw [h0] at hlen; simp at hlen
    have hget : fb[order]? = some (fb.getD order []) := by
      rw [List.getD_eq_getElem?_getD] at hne ⊢
      cases hg : fb[order]? with
      | none => simp [hg] at hne
      | some l => simp
    rw [if_pos hlen]
    refine ⟨Or.inr ?_, ?_⟩
    · apply h order _ hget
      rw [List.getLastD_eq_getLast?, List.getLast?_eq_getLast _ hne]
      exact List.getLast_mem hne
    · intro k l hl p hp
      rw [List.getElem?_set] at hl
      by_cases hk : order = k
      · subst hk
        rw [if_pos rfl] at hl
        split at hl
        · simp only [Option.some.injEq] at hl
          subst hl
          exact h order _ hget p (List.dropLast_subset _ hp)
        · simp at hl
      · rw [if_neg hk] at hl
        exact h k l hl p hp
  · rw [if_neg hlen]
    exact ⟨Or.inl rfl, h⟩

theorem push_indexed (Q : Nat → Nat → Prop) (fb : List (List Nat)) (order p : Nat)
    (h : ∀ k l, fb[k]? = some l → ∀ q ∈ l, Q k q) (hp : Q order p) :
    ∀ k l, (BlockManager.push fb order p)[k]? = some l → ∀ q ∈ l, Q k q := by
  unfold BlockManager.push
  intro k l hl q hq
  rw [List.getElem?_set] at hl
  by_cases hk : order = k
  · subst hk
    rw [if_pos rfl] at hl
    split at hl
    · simp only [Option.some.injEq] at hl
      subst hl
      rcases List.mem_append.mp hq with hq | hq
      · rw [List.getD_eq_getElem?_getD] at hq
        cases hget : fb[order]? with
        | none => simp [hget] at hq
        | some l1 =>
          simp only [hget, Option.getD_some] at hq
          exact h order l1 hget q hq
      · simp at hq; subst hq; exact hp
    · simp at hl
  · rw [if_neg hk] at hl
    exact h k l hl q hq

theorem run_inside (C : Nat) (ops : List BMCall) :
    ∀ (m : BlockManager) (allocated : List (Nat × Nat)),
      m.used_size + BMCall.requested ops ≤ C →
      (∀ k l, m.free_blocks[k]? = some l → ∀ p ∈ l, p + 2 ^ k ≤ C) →
      (∀ k l, m.large_free_blocks[k]? = some l → ∀ p ∈ l, p + 2 ^ k ≤ C) →
      (∀ pr ∈ allocated, pr.1 + 2 ^ pr.2 ≤ C) →
      m.legal allocated ops →
      ∀ pr ∈ (m.run ops).2, pr.1 + 2 ^ pr.2 ≤ C := by
  induction ops with
  | nil => intro m allocated _ _ _ _ _ pr hpr; simp [BlockManager.run] at hpr
  | cons op rest ih =>
    intro m allocated hsum hfb hlb hal hlegal pr hpr
    cases op with
    | alloc order =>
      simp only [BlockManager.legal] at hlegal
      simp only [BMCall.requested] at hsum
      obtain ⟨ho, hlegal⟩ := hlegal
      have hfl := alloc_free_lists m order
      have hp1 := pop_indexed (fun k p => p + 2 ^ k ≤ C) m.free_blocks order hfb
      have hp2 := pop_indexed (fun k p => p + 2 ^ k ≤ C) m.large_free_blocks order hlb
      have hpow : 0 < 2 ^ order := Nat.pow_pos (by norm_num)
      have ha : (m.alloc order).1 + 2 ^ order ≤ C ∧
          (m.alloc order).2.used_size + BMCall.requested rest ≤ C := by
        rcases alloc_cases m order ho with ⟨h1, h2, h3⟩ | ⟨h1, h2⟩
        · refine ⟨?_, by omega⟩
          by_cases hlt : order < LARGE_BLOCK_THRESHOLD
          · rw [if_pos hlt] at h3
            rcases hp1.1 with hn | hq
            · rw [h3] at h1; exact absurd hn h1
            · rw [h3]; exact hq
          · rw [if_neg hlt] at h3
            rcases hp2.1 with hn | hq
            · rw [h3] at h1; exact absurd hn h1
            · rw [h3]; exact hq
        · have hle : (m.used_size + 2 ^ order) % 2 ^ 64 ≤ m.used_size + 2 ^ order :=
            Nat.mod_le _ _
          refine ⟨by omega, by omega⟩
      have hfb1 : ∀ k l, (m.alloc order).2.free_blocks[k]? = some l →
          ∀ p ∈ l, p + 2 ^ k ≤ C := by
        rw [hfl.1]; split
        · exact hp1.2
        · exact hfb
      have hlb1 : ∀ k l, (m.alloc order).2.large_free_blocks[k]? = some l →
          ∀ p ∈ l, p + 2 ^ k ≤ C := by
        rw [hfl.2]; split
        · exact hlb
        · exact hp2.2
      simp only [BlockManager.run, List.mem_cons] at hpr
      rcases hpr with hpr | hpr
      · subst hpr; exact ha.1
      · refine ih _ _ ha.2 hfb1 hlb1 ?_ hlegal pr hpr
        intro q hq
        rcases List.mem_cons.mp hq with hq | hq
        · subst hq; exact ha.1
        · exact hal q hq
    | free block order =>
      simp only [BlockManager.legal] at hlegal
      simp only [BMCall.requested] at hsum
      obtain ⟨hmem, hlegal⟩ := hlegal
      simp only [BlockManager.run] at hpr
      have hb : block + 2 ^ order ≤ C := hal (block, order) hmem
      refine ih (m.free block order) allocated ?_ ?_ ?_ hal hlegal pr hpr
      · unfold BlockManager.free; split <;> exact hsum
      · unfold BlockManager.free; split
        · exact push_indexed _ _ order block hfb hb
        · exact hfb
      · unfold BlockManager.free; split
        · exact hlb
        · exact push_indexed _ _ order block hlb hb

/-- C12 as stated fails: on a manager of capacity `2^40` the call `alloc(41)` returns
offset `2^20`, and the block `[2^20, 2^20 + 2^41)` ends beyond the capacity. `alloc` never
looks at `capacity`. -/
theorem alloc_hands_out_block_beyond_capacity :
    (BlockManager.ctor (2 ^ 40)).legal [((BlockManager.ctor (2 ^ 40)).null_holder, 20)]
        [BMCall.alloc 41] ∧
      ((BlockManager.ctor (2 ^ 40)).run [BMCall.alloc 41]).2 = [(2 ^ 20, 41)] ∧
      ¬ (2 ^ 20 + 2 ^ 41 ≤ (BlockManager.ctor (2 ^ 40)).capacity) := by
  refine ⟨⟨by decide, trivial⟩, by decide, by decide⟩

/-- C12, amended. On a freshly constructed manager of capacity `C`, for every sequence of
`alloc` and `free` calls in which each `free` returns a previously allocated block with the
order it was allocated with, and whose requested block sizes, together with the null
holder's `2^20` bytes, add up to at most `C`, each returned offset `p` for order `k`
satisfies `p + 2^k <= C`. -/
theorem blocks_inside_region_when_requests_fit (capacity : Nat) (ops : List BMCall)
    (hlegal : (BlockManager.ctor capacity).legal
      [((BlockManager.ctor capacity).null_holder, LARGE_BLOCK_THRESHOLD)] ops)
    (hsum : 2 ^ 20 + BMCall.requested ops ≤ capacity) :
    ∀ pr ∈ ((BlockManager.ctor capacity).run ops).2, pr.1 + 2 ^ pr.2 ≤ capacity := by
  have hinv : ∀ m : BlockManager, m = BlockManager.ctor capacity →
      ∀ pr ∈ (m.run ops).2, pr.1 + 2 ^ pr.2 ≤ capacity := by
    intro m hm
    have hu : m.used_size = 2 ^ 20 := by rw [hm, ctor_eq]
    have hf : m.free_blocks = List.replicate LARGE_BLOCK_THRESHOLD [] := by
      rw [hm, ctor_eq]
    have hl : m.large_free_blocks = List.replicate MAX_ORDER [] := by rw [hm, ctor_eq]
    have hn : m.null_holder = 0 := by rw [hm, ctor_eq]
    have hlegal1 : m.legal [(m.null_holder, LARGE_BLOCK_THRESHOLD)] ops := by
      rw [hm]; exact hlegal
    rw [hn] at hlegal1
    refine run_inside capacity ops m [(0, LARGE_BLOCK_THRESHOLD)] (by rw [hu]; exact hsum)
      ?_ ?_ ?_ hlegal1
    · intro k l hk p hp
      rw [hf] at hk
      exact (mem_replicate_nil_elim hk hp).elim
    · intro k l hk p hp
      rw [hl] at hk
      exact (mem_replicate_nil_elim hk hp).elim
    · intro q hq
      rw [List.mem_singleton] at hq
      subst hq
      have : (2 : Nat) ^ LARGE_BLOCK_THRESHOLD = 2 ^ 20 := rfl
      simp only [this]
      omega
  exact hinv _ rfl

/-- Witness of C12 (amended): `alloc(6); alloc(12); free(2^20, 6); alloc(6)` on a manager
of capacity `2^40`; the order-12 block at `2^20 + 64` ends inside the capacity. -/
theorem blocks_inside_region_when_requests_fit_witness :
    (2 ^ 20 + 64, 12) ∈ ((BlockManager.ctor (2 ^ 40)).run
        [BMCall.alloc 6, BMCall.alloc 12, BMCall.free (2 ^ 20) 6, BMCall.alloc 6]).2 ∧
      ((2 ^ 20 + 64, 12) : Nat × Nat).1 + 2 ^ ((2 ^ 20 + 64, 12) : Nat × Nat).2 ≤ 2 ^ 40 :=
  ⟨by decide,
   blocks_inside_region_when_requests_fit (2 ^ 40)
      [BMCall.alloc 6, BMCall.alloc 12, BMCall.free (2 ^ 20) 6, BMCall.alloc 6]
      ⟨by decide, by decide, by decide, by decide, trivial⟩ (by decide)
      (2 ^ 20 + 64, 12) (by decide)⟩

/-! ### Packed vertex ids -/

theorem pack_unpack (v : Nat) (hv : v ≤ (2 ^ 16 - 1) * 2 ^ 32 + (2 ^ 32 - 1)) :
    ((((v >>> 32) &&& (2 ^ 16 - 1)) <<< 32) % 2 ^ 64 + (v &&& (2 ^ 32 - 1))) % 2 ^ 64 = v := by
  rw [Nat.and_pow_two_sub_one_eq_mod, Nat.and_pow_two_sub_one_eq_mod,
    Nat.shiftRight_eq_div_pow, Nat.shiftLeft_eq]
  norm_num at hv ⊢
  omega

/-- C13. 48-bit id packing round trip: for every vertex id
`v <= (2^16 - 1) * 2^32 + (2^32 - 1)`, `N2OBlockHeader::get_vertex_id` after
`set_vertex_id(v)` returns `v`, `EdgeEntry::get_dst` after `set_dst(v)` returns `v`, and
neither setter changes any other header or entry field. -/
theorem vertex_id_packing_round_trip (h : N2OBlockHeader) (e : EdgeEntry) (v : Nat)
    (hv : v ≤ (2 ^ 16 - 1) * 2 ^ 32 + (2 ^ 32 - 1)) :
    (h.set_vertex_id v).get_vertex_id = v ∧ (e.set_dst v).get_dst = v ∧
      ((h.set_vertex_id v).order = h.order ∧ (h.set_vertex_id v).type = h.type ∧
        (h.set_vertex_id v).creation_time = h.creation_time ∧
        (h.set_vertex_id v).prev_pointer = h.prev_pointer) ∧
      ((e.set_dst v).length = e.length ∧ (e.set_dst v).creation_time = e.creation_time ∧
        (e.set_dst v).deletion_time = e.deletion_time) := by
  refine ⟨?_, ?_, ⟨rfl, rfl, rfl, rfl⟩, ⟨rfl, rfl, rfl⟩⟩
  · exact pack_unpack v hv
  · exact pack_unpack v hv

/-- Witness of C13: the largest id `2^48 - 1` and a mid-range id written into nonzero
fields. -/
theorem vertex_id_packing_round_trip_witness :
    ((⟨12, BlockType.EDGE, 3, 4, 5, 6⟩ : N2OBlockHeader).set_vertex_id
        (2 ^ 48 - 1)).get_vertex_id = 2 ^ 48 - 1 ∧
      ((⟨2, 3, 4, 5, 6⟩ : EdgeEntry).set_dst (2 ^ 48 - 1)).get_dst = 2 ^ 48 - 1 ∧
      (((⟨12, BlockType.EDGE, 3, 4, 5, 6⟩ : N2OBlockHeader).set_vertex_id
          (2 ^ 48 - 1)).order = 12 ∧
        ((⟨12, BlockType.EDGE, 3, 4, 5, 6⟩ : N2OBlockHeader).set_vertex_id
          (2 ^ 48 - 1)).type = BlockType.EDGE ∧
        ((⟨12, BlockType.EDGE, 3, 4, 5, 6⟩ : N2OBlockHeader).set_vertex_id
          (2 ^ 48 - 1)).creation_time = 5 ∧
        ((⟨12, BlockType.EDGE, 3, 4, 5, 6⟩ : N2OBlockHeader).set_vertex_id
          (2 ^ 48 - 1)).prev_pointer = 6) ∧
      (((⟨2, 3, 4, 5, 6⟩ : EdgeEntry).set_dst (2 ^ 48 - 1)).length = 2 ∧
        ((⟨2, 3, 4, 5, 6⟩ : EdgeEntry).set_dst (2 ^ 48 - 1)).creation_time = 5 ∧
        ((⟨2, 3, 4, 5, 6⟩ : EdgeEntry).set_dst (2 ^ 48 - 1)).deletion_time = 6) :=
  vertex_id_packing_round_trip ⟨12, BlockType.EDGE, 3, 4, 5, 6⟩ ⟨2, 3, 4, 5, 6⟩ (2 ^ 48 - 1)
    (by decide)

/-! ### Vertex blocks and edge-label directory blocks -/

theorem n2o_block_size_eq (h : N2OBlockHeader) (h63 : h.order ≤ 63) :
    h.get_block_size = 2 ^ h.order := by
  unfold N2OBlockHeader.get_block_size
  rw [Nat.one_shiftLeft]
  exact Nat.mod_eq_of_lt (Nat.pow_lt_pow_right (by norm_num) (by omega))

theorem n2o_fill_order (h : N2OBlockHeader) (order : Nat) (type : BlockType) (vid : Nat)
    (ct : Int) (prev : Nat) : (h.fill order type vid ct prev).order = order := rfl

theorem label_append_iff (b : EdgeLabelBlockHeader) (e : EdgeLabelEntry)
    (h63 : b.order ≤ 63) (hJ : 16 * b.num_entries ≤ 2 ^ b.order) :
    ((b.append e).2 = false ↔ 32 + 16 * (b.num_entries + 1) > 2 ^ b.order) ∧
      ((b.append e).2 = false → (b.append e).1 = b) ∧
      ((b.append e).2 = true →
        (b.append e).1.toN2OBlockHeader = b.toN2OBlockHeader ∧
        (b.append e).1.num_entries = b.num_entries + 1 ∧
        (b.append e).1.entries = Function.update b.entries b.num_entries e) := by
  have hbs := n2o_block_size_eq b.toN2OBlockHeader h63
  have hP := pow_order_le b.order (by omega)
  norm_num at hP
  unfold EdgeLabelBlockHeader.append
  simp only [hbs, sizeof_EdgeLabelBlockHeader, sizeof_EdgeLabelEntry]
  generalize 2 ^ b.order = P at *
  have hmod : (32 + (b.num_entries + 1) * 16) % 2 ^ 64 = 32 + (b.num_entries + 1) * 16 := by
    apply Nat.mod_eq_of_lt
    norm_num
    omega
  have hmod2 : (b.num_entries + 1) % 2 ^ 64 = b.num_entries + 1 := by
    apply Nat.mod_eq_of_lt
    norm_num
    omega
  rw [hmod, hmod2]
  by_cases hc : 32 + (b.num_entries + 1) * 16 > P
  · simp only [hc, if_true]
    exact ⟨⟨fun _ => by omega, fun _ => trivial⟩, fun _ => trivial, fun h => by simp at h⟩
  · simp only [hc, if_false]
    refine ⟨⟨fun h => by simp at h, fun h => by omega⟩, fun h => by simp at h, fun _ => ?_⟩
    exact ⟨trivial, trivial, trivial⟩

theorem label_append_all_reads_back :
    ∀ (es : List EdgeLabelEntry) (b : EdgeLabelBlockHeader) (pre : List EdgeLabelEntry)
      (b1 : EdgeLabelBlockHeader), b.order ≤ 63 → 16 * b.num_entries ≤ 2 ^ b.order →
      b.num_entries = pre.length → (∀ i e, pre[i]? = some e → b.entries i = e) →
      b.append_all es = some b1 →
      b1.order = b.order ∧ b1.num_entries = (pre ++ es).length ∧
        ∀ i e, (pre ++ es)[i]? = some e → b1.entries i = e := by
  intro es
  induction es with
  | nil =>
    intro b pre b1 _ _ hn hpre h
    simp only [EdgeLabelBlockHeader.append_all, Option.some.injEq] at h
    subst h
    simpa using ⟨hn, hpre⟩
  | cons x rest ih =>
    intro b pre b1 h63 hJ hn hpre h
    obtain ⟨hiff, -, hok⟩ := label_append_iff b x h63 hJ
    rw [EdgeLabelBlockHeader.append_all] at h
    revert h hiff hok
    generalize b.append x = r
    obtain ⟨r1, r2⟩ := r
    intro h hiff hok
    cases r2 with
    | false => simp at h
    | true =>
      simp only at h hok hiff
      obtain ⟨hh, hn1, hent⟩ := hok trivial
      have hnot : ¬ (32 + 16 * (b.num_entries + 1) > 2 ^ b.order) := by
        intro hc; have := hiff.mpr hc; simp at this
      have ho : r1.order = b.order := by rw [hh]
      obtain ⟨h1, h2, h3⟩ := ih r1 (pre ++ [x]) b1 (by omega) (by rw [ho, hn1]; omega)
        (by rw [hn1, hn]; simp) (by
          intro i e hi
          rw [hent]
          by_cases hlt : i < pre.length
          · rw [List.getElem?_append_left hlt] at hi
            rw [Function.update_noteq (by omega)]
            exact hpre i e hi
          · have hi2 : i = pre.length := by
              have := (List.getElem?_eq_some.mp hi).1
              simp at this
              omega
            subst hi2
            rw [List.getElem?_append_right (le_refl _)] at hi
            simp only [Nat.sub_self, List.getElem?_cons_zero, Option.some.injEq] at hi
            rw [hn, Function.update_same, hi]) h
      refine ⟨by omega, by simpa using h2, ?_⟩
      intro i e hi
      exact h3 i e (by simpa using hi)

/-- C18. Edge-label directory `append` keeps insertion order and is all-or-nothing: for
every directory block of order at most 63 whose `n` entries fit in it, `append(e)` returns
`false` iff `32 + 16 * (n + 1) > 2^order`, leaving the block unchanged; otherwise it
returns `true`, entry `n` equals `e`, `num_entries` becomes `n + 1`, the header and the
entries `0..n-1` are unchanged; and after `fill` and `k` successful appends the entries
read back in the order appended. -/
theorem label_append_all_or_nothing (b : EdgeLabelBlockHeader) (e : EdgeLabelEntry)
    (b0 : EdgeLabelBlockHeader) (order vid : Nat) (ct : Int) (prev : Nat)
    (es : List EdgeLabelEntry) (h63 : b.order ≤ 63)
    (hfit : 32 + 16 * b.num_entries ≤ 2 ^ b.order) (ho63 : order ≤ 63) :
    ((b.append e).2 = false ↔ 32 + 16 * (b.num_entries + 1) > 2 ^ b.order) ∧
      ((b.append e).2 = false → (b.append e).1 = b) ∧
      ((b.append e).2 = true →
        (b.append e).1.entries b.num_entries = e ∧
        (b.append e).1.num_entries = b.num_entries + 1 ∧
        (b.append e).1.toN2OBlockHeader = b.toN2OBlockHeader ∧
        ∀ i : Nat, i < b.num_entries → (b.append e).1.entries i = b.entries i) ∧
      (∀ b1 : EdgeLabelBlockHeader, (b0.fill order vid ct prev).append_all es = some b1 →
        b1.num_entries = es.length ∧ ∀ i x, es[i]? = some x → b1.entries i = x) := by
  obtain ⟨h1, h2, h3⟩ := label_append_iff b e h63 (by omega)
  refine ⟨h1, h2, ?_, ?_⟩
  · intro ht
    obtain ⟨hh, hn, hent⟩ := h3 ht
    refine ⟨by rw [hent, Function.update_same], hn, hh, ?_⟩
    intro i hi
    rw [hent, Function.update_noteq (by omega)]
  · intro b1 hb1
    have ho : (b0.fill order vid ct prev).order = order := rfl
    have hn : (b0.fill order vid ct prev).num_entries = 0 := rfl
    obtain ⟨-, h5, h6⟩ := label_append_all_reads_back es (b0.fill order vid ct prev) [] b1
      (by rw [ho]; exact ho63) (by rw [hn]; simp) (by rw [hn]; rfl)
      (by intro i x hi; simp at hi) hb1
    exact ⟨by simpa using h5, fun i x hi => h6 i x (by simpa using hi)⟩

/-- Witness of C18: an order-6 directory block takes two entries (32 + 2 * 16 = 64) and
refuses the third; the two entries read back in the order appended. -/
theorem label_append_all_or_nothing_witness :
    ((((EdgeLabelBlockHeader.blank.fill 6 5 1 0).append ⟨1, 100⟩).1.append ⟨2, 200⟩).2
        = true ∧
      ((((EdgeLabelBlockHeader.blank.fill 6 5 1 0).append ⟨1, 100⟩).1.append ⟨2, 200⟩).1.append
        ⟨3, 300⟩).2 = false) ∧
    (((((EdgeLabelBlockHeader.blank.fill 6 5 1 0).append ⟨1, 100⟩).1.append ⟨2, 200⟩).1.append
          ⟨3, 300⟩).2 = false ↔
        32 + 16 * ((((EdgeLabelBlockHeader.blank.fill 6 5 1 0).append ⟨1, 100⟩).1.append
          ⟨2, 200⟩).1.num_entries + 1) >
          2 ^ (((EdgeLabelBlockHeader.blank.fill 6 5 1 0).append ⟨1, 100⟩).1.append
            ⟨2, 200⟩).1.order) :=
  ⟨by decide,
   (label_append_all_or_nothing
      (((EdgeLabelBlockHeader.blank.fill 6 5 1 0).append ⟨1, 100⟩).1.append ⟨2, 200⟩).1
      ⟨3, 300⟩ EdgeLabelBlockHeader.blank 6 5 1 0 [⟨1, 100⟩, ⟨2, 200⟩]
      (by decide) (by decide) (by decide)).1⟩

theorem vertex_set_data_cases (b : VertexBlockHeader) (data : Nat → Nat) (len : Nat)
    (h63 : b.order ≤ 63) (hlen : 32 + len < 2 ^ 64) :
    (32 + len > 2 ^ b.order → b.set_data data len = (b, false)) ∧
      (32 + len ≤ 2 ^ b.order →
        b.set_data data len =
          ({ b with data_mem := copy_bytes b.data_mem b.get_data data len, length := len },
            true)) := by
  have hbs := n2o_block_size_eq b.toN2OBlockHeader h63
  unfold VertexBlockHeader.set_data VertexBlockHeader.set_length
  simp only [hbs, sizeof_VertexBlockHeader, Nat.mod_eq_of_lt hlen]
  constructor
  · intro h
    rw [if_pos h]
  · intro h
    rw [if_neg (by omega)]

/-- C19. Vertex payload round trip at block level: for every vertex block of order
`k <= 63` and every byte string `data[0 .. len)` with `32 + len < 2^64`,
`set_data(data, len)` returns `false` and leaves the block (length and payload) unchanged
when `32 + len > 2^k`, and otherwise returns `true` with `get_length() = len` and the first
`len` bytes of `get_data()` equal to the byte string. -/
theorem vertex_set_data_round_trip (b : VertexBlockHeader) (data : Nat → Nat) (len : Nat)
    (h63 : b.order ≤ 63) (hlen : 32 + len < 2 ^ 64) :
    (32 + len > 2 ^ b.order →
      (b.set_data data len).2 = false ∧ (b.set_data data len).1 = b) ∧
    (32 + len ≤ 2 ^ b.order →
      (b.set_data data len).2 = true ∧ (b.set_data data len).1.get_length = len ∧
      ∀ i : Nat, i < len →
        (b.set_data data len).1.data_mem ((b.set_data data len).1.get_data + (i : Nat))
          = data i) := by
  obtain ⟨h1, h2⟩ := vertex_set_data_cases b data len h63 hlen
  constructor
  · intro h
    rw [h1 h]
    exact ⟨rfl, rfl⟩
  · intro h
    rw [h2 h]
    refine ⟨rfl, rfl, ?_⟩
    intro i hi
    simp only [VertexBlockHeader.get_data]
    rw [copy_bytes_apply]
    have hin : (sizeof_VertexBlockHeader : Int) ≤ (sizeof_VertexBlockHeader : Int) + (i : Int) ∧
        (sizeof_VertexBlockHeader : Int) + (i : Int)
          < (sizeof_VertexBlockHeader : Int) + (len : Int) := by omega
    rw [if_pos hin]
    congr 1
    omega

/-- Witness of C19: an order-6 vertex block takes the 3-byte payload `ABC` and refuses a
33-byte one (32 + 33 > 64). -/
theorem vertex_set_data_round_trip_witness :
    ((32 + 33 > 2 ^ (VertexBlockHeader.blank.fill 6 5 1 0 (buffer []) 0).order →
        ((VertexBlockHeader.blank.fill 6 5 1 0 (buffer []) 0).set_data
          (buffer [65, 66, 67]) 33).2 = false ∧
        ((VertexBlockHeader.blank.fill 6 5 1 0 (buffer []) 0).set_data
          (buffer [65, 66, 67]) 33).1 = VertexBlockHeader.blank.fill 6 5 1 0 (buffer []) 0) ∧
      (32 + 33 ≤ 2 ^ (VertexBlockHeader.blank.fill 6 5 1 0 (buffer []) 0).order →
        ((VertexBlockHeader.blank.fill 6 5 1 0 (buffer []) 0).set_data
          (buffer [65, 66, 67]) 33).2 = true ∧
        ((VertexBlockHeader.blank.fill 6 5 1 0 (buffer []) 0).set_data
          (buffer [65, 66, 67]) 33).1.get_length = 33 ∧
        ∀ i : Nat, i < 33 →
          ((VertexBlockHeader.blank.fill 6 5 1 0 (buffer []) 0).set_data
            (buffer [65, 66, 67]) 33).1.data_mem
            (((VertexBlockHeader.blank.fill 6 5 1 0 (buffer []) 0).set_data
              (buffer [65, 66, 67]) 33).1.get_data + (i : Nat)) = buffer [65, 66, 67] i)) ∧
    (((VertexBlockHeader.blank.fill 6 5 1 0 (buffer []) 0).set_data
        (buffer [65, 66, 67]) 3).2 = true ∧
      ((VertexBlockHeader.blank.fill 6 5 1 0 (buffer []) 0).set_data
        (buffer [65, 66, 67]) 3).1.get_length = 3 ∧
      ((VertexBlockHeader.blank.fill 6 5 1 0 (buffer []) 0).set_data
        (buffer [65, 66, 67]) 3).1.data_mem 34 = 67) :=
  ⟨vertex_set_data_round_trip (VertexBlockHeader.blank.fill 6 5 1 0 (buffer []) 0)
      (buffer [65, 66, 67]) 33 (by decide) (by decide),
   by decide⟩

theorem vertex_fill_not_tombstone (b0 : VertexBlockHeader) (order vid : Nat) (ct : Int)
    (prev : Nat) (data : Nat → Nat) (len : Nat) (h63 : order ≤ 63)
    (hfit : 32 + len ≤ 2 ^ order) :
    (b0.fill order vid ct prev data len).get_length = len ∧
      len ≠ VertexBlockHeader.TOMBSTONE := by
  have hP := pow_order_le order (by omega)
  norm_num at hP
  have hne : len ≠ VertexBlockHeader.TOMBSTONE := by
    unfold VertexBlockHeader.TOMBSTONE
    norm_num
    omega
  refine ⟨?_, hne⟩
  unfold VertexBlockHeader.fill
  simp only [hne, if_false]
  have h2 := (vertex_set_data_cases
    { b0 with toN2OBlockHeader := b0.toN2OBlockHeader.fill order BlockType.VERTEX vid ct prev }
    data len h63 (by norm_num; omega)).2 hfit
  rw [h2]
  rfl

/-- C20. Tombstone encoding: for every order, vertex id, creation time and previous
pointer, `VertexBlockHeader::fill` called with `length = TOMBSTONE` stores length
`2^64 - 1` and copies no payload byte; and a `fill` with a payload that fits in the block
(`32 + length <= 2^order`, `order <= 63`) stores that length, which is not `TOMBSTONE`. -/
theorem tombstone_encoding (b0 : VertexBlockHeader) (order vid : Nat) (ct : Int)
    (prev : Nat) (data : Nat → Nat) (order1 len : Nat) (h63 : order1 ≤ 63)
    (hfit : 32 + len ≤ 2 ^ order1) :
    (b0.fill order vid ct prev data VertexBlockHeader.TOMBSTONE).get_length = 2 ^ 64 - 1 ∧
      (b0.fill order vid ct prev data VertexBlockHeader.TOMBSTONE).data_mem = b0.data_mem ∧
      (b0.fill order1 vid ct prev data len).get_length ≠ VertexBlockHeader.TOMBSTONE := by
  refine ⟨?_, ?_, ?_⟩
  · unfold VertexBlockHeader.fill
    simp only [if_true]
    rfl
  · unfold VertexBlockHeader.fill
    simp only [if_true]
    rfl
  · obtain ⟨h1, h2⟩ := vertex_fill_not_tombstone b0 order1 vid ct prev data len h63 hfit
    rw [h1]
    exact h2

/-- Witness of C20: a tombstone `fill` of an order-6 block and a `fill` with the 3-byte
payload `ABC`. -/
theorem tombstone_encoding_witness :
    (VertexBlockHeader.blank.fill 6 5 1 0 (buffer [65, 66, 67])
        VertexBlockHeader.TOMBSTONE).get_length = 2 ^ 64 - 1 ∧
      (VertexBlockHeader.blank.fill 6 5 1 0 (buffer [65, 66, 67])
        VertexBlockHeader.TOMBSTONE).data_mem = VertexBlockHeader.blank.data_mem ∧
      (VertexBlockHeader.blank.fill 6 5 1 0 (buffer [65, 66, 67]) 3).get_length
        ≠ VertexBlockHeader.TOMBSTONE :=
  tombstone_encoding VertexBlockHeader.blank 6 5 1 0 (buffer [65, 66, 67]) 6 3
    (by decide) (by decide)

/-! ### Edge block: publishing in two steps, frames and regions -/

theorem awus_fail (hashes : Nat → Nat → List Nat) (b : EdgeBlockHeader) (e : EdgeEntry)
    (d : Nat → Nat) (n l : Nat) (h : b.has_space e n l = false) :
    b.append_without_update_size hashes e d n l = (b, none) := by
  unfold EdgeBlockHeader.append_without_update_size
  simp [h]

theorem awus_ok (hashes : Nat → Nat → List Nat) (b : EdgeBlockHeader) (e : EdgeEntry)
    (d : Nat → Nat) (n l : Nat) (h : b.has_space e n l = true) :
    b.append_without_update_size hashes e d n l =
      ({ b with
          entry_mem := Function.update b.entry_mem (b.get_entries - 24 * ((n : Int) + 1)) e,
          data_mem := copy_bytes b.data_mem (48 + (l : Int)) d e.length,
          bloom_bits :=
            if b.get_bloom_filter.valid then
              b.get_bloom_filter.insert hashes b.bloom_bits e.get_dst
            else b.bloom_bits },
        some (b.get_entries - 24 * ((n : Int) + 1))) := by
  unfold EdgeBlockHeader.append_without_update_size
  simp only [h, Bool.not_true, Bool.false_eq_true, if_false]
  by_cases hv : b.get_bloom_filter.valid = true
  · simp only [hv, if_true]
    simp [EdgeBlockHeader.get_entries, EdgeBlockHeader.get_block_size, sizeof_EdgeEntry,
      EdgeBlockHeader.get_data, sizeof_EdgeBlockHeader]
  · simp only [hv, Bool.false_eq_true, if_false]
    simp [EdgeBlockHeader.get_entries, EdgeBlockHeader.get_block_size, sizeof_EdgeEntry,
      EdgeBlockHeader.get_data, sizeof_EdgeBlockHeader]

theorem append_eq (hashes : Nat → Nat → List Nat) (b : EdgeBlockHeader) (e : EdgeEntry)
    (d : Nat → Nat) (h : b.has_space e b.num_entries b.data_length = true) :
    b.append hashes e d =
      ({ b with
          entry_mem :=
            Function.update b.entry_mem (b.get_entries - 24 * ((b.num_entries : Int) + 1)) e,
          data_mem := copy_bytes b.data_mem (48 + (b.data_length : Int)) d e.length,
          num_entries := (b.num_entries + 1) % 2 ^ 64,
          data_length := (b.data_length + e.length) % 2 ^ 64,
          bloom_bits :=
            if b.get_bloom_filter.valid then
              b.get_bloom_filter.insert hashes b.bloom_bits e.get_dst
            else b.bloom_bits },
        some (b.get_entries - 24 * ((b.num_entries : Int) + 1))) := by
  unfold EdgeBlockHeader.append EdgeBlockHeader.append_with
  simp only [h, Bool.not_true, Bool.false_eq_true, if_false]
  by_cases hv : b.get_bloom_filter.valid = true
  · simp only [hv, if_true]
    simp [EdgeBlockHeader.get_entries, EdgeBlockHeader.get_block_size, sizeof_EdgeEntry,
      EdgeBlockHeader.get_data, sizeof_EdgeBlockHeader]
  · simp only [hv, Bool.false_eq_true, if_false]
    simp [EdgeBlockHeader.get_entries, EdgeBlockHeader.get_block_size, sizeof_EdgeEntry,
      EdgeBlockHeader.get_data, sizeof_EdgeBlockHeader]

theorem get_entries_eq (b : EdgeBlockHeader) (h64 : b.order < 64) :
    b.get_entries = ((2 ^ b.order - bloom_bytes b.order : Nat) : Int) ∧
      bloom_bytes b.order ≤ 2 ^ b.order := by
  have hP := pow_order_le b.order h64
  unfold EdgeBlockHeader.get_entries bloom_bytes
  simp only [get_block_size_eq b h64, BLOOM_FILTER_THRESHOLD, BLOOM_FILTER_PORTION,
    Nat.shiftRight_eq_div_pow]
  generalize 2 ^ b.order = P at *
  norm_num at hP ⊢
  by_cases ho : 10 ≤ b.order
  · simp only [ho, if_true]
    constructor
    · omega
    · omega
  · simp only [ho, if_false]
    constructor
    · rfl
    · omega

theorem size_ok_no_wrap (b : EdgeBlockHeader) (e : EdgeEntry) (h63 : b.order ≤ 63)
    (hb : b.size_ok) (hwf : e.WF) :
    24 * b.num_entries + b.data_length ≤ 2 ^ b.order ∧
      (b.num_entries + 1) % 2 ^ 64 = b.num_entries + 1 ∧
      (b.data_length + e.length) % 2 ^ 64 = b.data_length + e.length := by
  have hP := pow_order_le b.order (by omega)
  have hlen : e.length < 2 ^ 16 := hwf.1
  unfold EdgeBlockHeader.size_ok at hb
  simp only [sizeof_EdgeBlockHeader, sizeof_EdgeEntry] at hb
  norm_num at hP hlen ⊢
  omega

/-- C15. Two-step publish equals `append`: for every edge block of order at most 63 that
satisfies the size invariant, with current pair `(n, l)`, every well-formed entry and data,
`append(entry, data)` returns `nullptr` exactly when
`append_without_update_size(entry, data, n, l)` does; otherwise `append` leaves the same
block (entries, payload bytes, pair, Bloom filter, header) and returns the same slot as
`append_without_update_size` followed by
`set_num_entries_data_length_atomic(n + 1, l + entry.length)`, after which
`get_num_entries_data_length_atomic` returns `(n + 1, l + entry.length)`. -/
theorem two_step_publish_equals_append (hashes : Nat → Nat → List Nat)
    (b : EdgeBlockHeader) (e : EdgeEntry) (d : Nat → Nat) (h63 : b.order ≤ 63)
    (hb : b.size_ok) (hwf : e.WF) :
    ((b.append hashes e d).2 = none ↔
      (b.append_without_update_size hashes e d b.num_entries b.data_length).2 = none) ∧
    ((b.append hashes e d).2 ≠ none →
      (b.append hashes e d).1 =
        (b.append_without_update_size hashes e d b.num_entries
          b.data_length).1.set_num_entries_data_length_atomic
            (b.num_entries + 1) (b.data_length + e.length) ∧
      (b.append hashes e d).2 =
        (b.append_without_update_size hashes e d b.num_entries b.data_length).2 ∧
      ((b.append_without_update_size hashes e d b.num_entries
          b.data_length).1.set_num_entries_data_length_atomic
            (b.num_entries + 1)
            (b.data_length + e.length)).get_num_entries_data_length_atomic
        = (b.num_entries + 1, b.data_length + e.length)) := by
  obtain ⟨-, hn, hl⟩ := size_ok_no_wrap b e h63 hb hwf
  by_cases hs : b.has_space e b.num_entries b.data_length = true
  · rw [append_eq hashes b e d hs, awus_ok hashes b e d _ _ hs, hn, hl]
    refine ⟨by simp, fun _ => ⟨rfl, rfl, rfl⟩⟩
  · have hs2 : b.has_space e b.num_entries b.data_length = false := by simpa using hs
    rw [append_fail hashes b e d hs2, awus_fail hashes b e d _ _ hs2]
    exact ⟨by simp, fun h => absurd rfl h⟩

/-- Witness of C15: appending a fourth entry to the sample block, in one step and in two. -/
theorem two_step_publish_equals_append_witness :
    (sample_block.append sample_hashes ⟨2, 0, 14, 3, 100⟩ (buffer [69, 70])).2
        = some 160 ∧
      ((sample_block.append sample_hashes ⟨2, 0, 14, 3, 100⟩ (buffer [69, 70])).2 ≠ none →
        (sample_block.append sample_hashes ⟨2, 0, 14, 3, 100⟩ (buffer [69, 70])).1 =
          (sample_block.append_without_update_size sample_hashes ⟨2, 0, 14, 3, 100⟩
            (buffer [69, 70]) sample_block.num_entries
            sample_block.data_length).1.set_num_entries_data_length_atomic
              (sample_block.num_entries + 1) (sample_block.data_length + 2) ∧
        (sample_block.append sample_hashes ⟨2, 0, 14, 3, 100⟩ (buffer [69, 70])).2 =
          (sample_block.append_without_update_size sample_hashes ⟨2, 0, 14, 3, 100⟩
            (buffer [69, 70]) sample_block.num_entries sample_block.data_length).2 ∧
        ((sample_block.append_without_update_size sample_hashes ⟨2, 0, 14, 3, 100⟩
            (buffer [69, 70]) sample_block.num_entries
            sample_block.data_length).1.set_num_entries_data_length_atomic
              (sample_block.num_entries + 1)
              (sample_block.data_length + 2)).get_num_entries_data_length_atomic
          = (sample_block.num_entries + 1, sample_block.data_length + 2)) :=
  ⟨by decide!,
   (two_step_publish_equals_append sample_hashes sample_block ⟨2, 0, 14, 3, 100⟩
      (buffer [69, 70]) (by decide!) (by unfold EdgeBlockHeader.size_ok; decide!)
      (by decide)).2⟩

/-- C16. Edge-block `append` is all-or-nothing: for every edge block of order at most 63
that satisfies the size invariant, with pair `(n, l)`, and every well-formed entry,
`append` returns `nullptr` iff `48 + 24 * (n + 1) + l + entry.length + bloom_bytes >
2^order`, and then the block is unchanged; otherwise the entry is stored at slot
`entries[-(n + 1)]`, which is returned, its bytes at `data[l .. l + entry.length)`, the
pair becomes `(n + 1, l + entry.length)`, and all previously published entries and payload
bytes are unchanged. -/
theorem edge_append_all_or_nothing (hashes : Nat → Nat → List Nat) (b : EdgeBlockHeader)
    (e : EdgeEntry) (d : Nat → Nat) (h63 : b.order ≤ 63) (hb : b.size_ok) (hwf : e.WF) :
    ((b.append hashes e d).2 = none ↔
      48 + 24 * (b.num_entries + 1) + b.data_length + e.length + bloom_bytes b.order
        > 2 ^ b.order) ∧
    ((b.append hashes e d).2 = none → (b.append hashes e d).1 = b) ∧
    ((b.append hashes e d).2 ≠ none →
      (b.append hashes e d).2 = some (b.get_entries - 24 * ((b.num_entries : Int) + 1)) ∧
      (b.append hashes e d).1.entry_mem (b.get_entries - 24 * ((b.num_entries : Int) + 1))
        = e ∧
      (∀ k : Nat, k < e.length →
        (b.append hashes e d).1.data_mem (b.get_data + (b.data_length : Nat) + (k : Nat))
          = d k) ∧
      (b.append hashes e d).1.get_num_entries_data_length_atomic
        = (b.num_entries + 1, b.data_length + e.length) ∧
      (∀ i : Nat, i < b.num_entries →
        (b.append hashes e d).1.entry_mem (b.get_entries - 24 * ((i : Int) + 1))
          = b.entry_mem (b.get_entries - 24 * ((i : Int) + 1))) ∧
      (∀ k : Nat, k < b.data_length →
        (b.append hashes e d).1.data_mem (b.get_data + (k : Nat))
          = b.data_mem (b.get_data + (k : Nat)))) := by
  obtain ⟨hJ, hn, hl⟩ := size_ok_no_wrap b e h63 hb hwf
  have hiff := has_space_iff b e b.num_entries b.data_length (by omega) hJ hwf
  by_cases hs : b.has_space e b.num_entries b.data_length = true
  · have hle := hiff.mp hs
    rw [append_eq hashes b e d hs, hn, hl]
    refine ⟨⟨fun h => by simp at h, fun h => by omega⟩, fun h => by simp at h, fun _ => ?_⟩
    refine ⟨rfl, ?_, ?_, rfl, ?_, ?_⟩
    · simp only [Function.update_same]
    · intro k hk
      simp only [get_data_eq]
      rw [copy_bytes_apply]
      have hin : (48 : Int) + (b.data_length : Int) ≤ 48 + (b.data_length : Int) + (k : Int) ∧
          (48 : Int) + (b.data_length : Int) + (k : Int)
            < 48 + (b.data_length : Int) + (e.length : Int) := by omega
      rw [if_pos hin]
      congr 1
      omega
    · intro i hi
      simp only
      rw [Function.update_noteq (by omega)]
    · intro k hk
      simp only [get_data_eq]
      rw [copy_bytes_apply]
      have hout : ¬ ((48 : Int) + (b.data_length : Int) ≤ 48 + (k : Int) ∧
          (48 : Int) + (k : Int) < 48 + (b.data_length : Int) + (e.length : Int)) := by
        omega
      rw [if_neg hout]
  · have hs2 : b.has_space e b.num_entries b.data_length = false := by simpa using hs
    have hgt : 48 + 24 * (b.num_entries + 1) + b.data_length + e.length
        + bloom_bytes b.order > 2 ^ b.order := by
      by_contra hc
      exact hs (hiff.mpr (by omega))
    rw [append_fail hashes b e d hs2]
    exact ⟨⟨fun _ => hgt, fun _ => rfl⟩, fun _ => rfl, fun h => absurd rfl h⟩

/-- Witness of C16: the sample block (order 8, three entries, four payload bytes) has room
for a fourth entry with two bytes (48 + 96 + 4 + 2 <= 256) at slot 160. -/
theorem edge_append_all_or_nothing_witness :
    ((sample_block.append sample_hashes ⟨2, 0, 14, 3, 100⟩ (buffer [69, 70])).2 = none ↔
      48 + 24 * (sample_block.num_entries + 1) + sample_block.data_length + 2
        + bloom_bytes sample_block.order > 2 ^ sample_block.order) ∧
    (sample_block.append sample_hashes ⟨2, 0, 14, 3, 100⟩ (buffer [69, 70])).2
      = some 160 :=
  ⟨(edge_append_all_or_nothing sample_hashes sample_block ⟨2, 0, 14, 3, 100⟩
      (buffer [69, 70]) (by decide!) (by unfold EdgeBlockHeader.size_ok; decide!)
      (by decide)).1,
   by decide!⟩

theorem awus_frame (hashes : Nat → Nat → List Nat) (b : EdgeBlockHeader) (e : EdgeEntry)
    (d : Nat → Nat) :
    (b.append_without_update_size hashes e d b.num_entries b.data_length).1.order = b.order ∧
    (b.append_without_update_size hashes e d b.num_entries b.data_length).1.num_entries
      = b.num_entries ∧
    (b.append_without_update_size hashes e d b.num_entries b.data_length).1.data_length
      = b.data_length ∧
    (∀ i : Nat, i < b.num_entries →
      (b.append_without_update_size hashes e d b.num_entries b.data_length).1.entry_mem
          (b.get_entries - 24 * ((i : Int) + 1))
        = b.entry_mem (b.get_entries - 24 * ((i : Int) + 1))) ∧
    (∀ a : Int, a < 48 + (b.data_length : Int) →
      (b.append_without_update_size hashes e d b.num_entries b.data_length).1.data_mem a
        = b.data_mem a) := by
  by_cases hs : b.has_space e b.num_entries b.data_length = true
  · rw [awus_ok hashes b e d _ _ hs]
    refine ⟨rfl, rfl, rfl, ?_, ?_⟩
    · intro i hi
      simp only
      rw [Function.update_noteq (by omega)]
    · intro a ha
      simp only
      rw [copy_bytes_apply]
      have hout : ¬ ((48 : Int) + (b.data_length : Int) ≤ a ∧
          a < 48 + (b.data_length : Int) + (e.length : Int)) := by omega
      rw [if_neg hout]
  · have hs2 : b.has_space e b.num_entries b.data_length = false := by simpa using hs
    rw [awus_fail hashes b e d _ _ hs2]
    exact ⟨rfl, rfl, rfl, fun _ _ => rfl, fun _ _ => rfl⟩

theorem holds_awus (hashes : Nat → Nat → List Nat) (b : EdgeBlockHeader)
    (xs : List (EdgeEntry × (Nat → Nat))) (e : EdgeEntry) (d : Nat → Nat)
    (hb : b.Holds xs) :
    (b.append_without_update_size hashes e d b.num_entries b.data_length).1.Holds xs := by
  obtain ⟨hn, hl, hst, hJ⟩ := hb
  obtain ⟨ho, hn1, hl1, hem, hdm⟩ := awus_frame hashes b e d
  refine ⟨by rw [hn1, hn], by rw [hl1, hl], ?_, by rw [ho]; exact hJ⟩
  rw [get_entries_congr b _ ho, get_data_eq]
  rw [get_data_eq] at hst
  intro i x hx
  have hi : i < xs.length := (List.getElem?_eq_some.mp hx).1
  obtain ⟨h1, h2⟩ := hst i x hx
  refine ⟨by rw [hem i (by omega)]; exact h1, ?_⟩
  intro k hk
  have hle := total_length_take_le xs (i + 1)
  rw [total_length_take_succ xs i x hx] at hle
  rw [hdm _ (by rw [hl]; omega)]
  exact h2 k hk

/-- C14. Readers holding an old size pair see a consistent prefix: for every edge block of
order below 64 that holds a list of appended entries with published pair `(n, l)`,
`append_without_update_size(entry, data, n, l)` changes neither `num_entries` nor
`data_length` nor any of the `n` published entries nor the first `l` payload bytes, so a
scan built from `(n, l)` yields the same sequence of entries, `dst_id()` and `edge_data()`
before and after the call, in either direction; and when the call succeeds, the payload
bytes it writes end at or before the slot it writes, which ends where the published entries
begin. -/
theorem stale_pair_scan_unchanged (hashes : Nat → Nat → List Nat)
    (cmp : Int → Int → Int → Int) (tomb : Nat) (b : EdgeBlockHeader)
    (xs : List (EdgeEntry × (Nat → Nat))) (e : EdgeEntry) (d : Nat → Nat) (R T : Int)
    (reverse : Bool) (h64 : b.order < 64) (hb : b.Holds xs) (hwf : e.WF) :
    (b.append_without_update_size hashes e d b.num_entries b.data_length).1.num_entries
      = b.num_entries ∧
    (b.append_without_update_size hashes e d b.num_entries b.data_length).1.data_length
      = b.data_length ∧
    (∀ i : Nat, i < b.num_entries →
      (b.append_without_update_size hashes e d b.num_entries b.data_length).1.entry_mem
          (b.get_entries - 24 * ((i : Int) + 1))
        = b.entry_mem (b.get_entries - 24 * ((i : Int) + 1))) ∧
    (∀ k : Nat, k < b.data_length →
      (b.append_without_update_size hashes e d b.num_entries b.data_length).1.data_mem
          (b.get_data + (k : Nat))
        = b.data_mem (b.get_data + (k : Nat))) ∧
    (b.append_without_update_size hashes e d b.num_entries b.data_length).1.scan_views
        cmp tomb R T reverse
      = b.scan_views cmp tomb R T reverse ∧
    (∀ slot : Int,
      (b.append_without_update_size hashes e d b.num_entries b.data_length).2 = some slot →
      b.get_data + (b.data_length : Nat) + (e.length : Nat) ≤ slot ∧
        slot + 24 = b.get_entries - 24 * (b.num_entries : Int)) := by
  obtain ⟨-, hn1, hl1, hem, hdm⟩ := awus_frame hashes b e d
  have hh := holds_awus hashes b xs e d hb
  refine ⟨hn1, hl1, hem, ?_, ?_, ?_⟩
  · intro k hk
    rw [get_data_eq]
    exact hdm _ (by omega)
  · have h1 := holds_scan_views cmp tomb _ xs R T hh
    have h2 := holds_scan_views cmp tomb b xs R T hb
    cases reverse with
    | false => rw [h1.1, h2.1]
    | true => rw [h1.2, h2.2]
  · intro slot hslot
    obtain ⟨hn, hl, -, hJ⟩ := hb
    have hJ0 : 24 * b.num_entries + b.data_length ≤ 2 ^ b.order := by rw [hn, hl]; exact hJ
    have hiff := has_space_iff b e b.num_entries b.data_length h64 hJ0 hwf
    by_cases hs : b.has_space e b.num_entries b.data_length = true
    · rw [awus_ok hashes b e d _ _ hs] at hslot
      simp only [Option.some.injEq] at hslot
      have hle := hiff.mp hs
      obtain ⟨hA, hbl⟩ := get_entries_eq b h64
      rw [get_data_eq, ← hslot, hA]
      constructor
      · omega
      · omega
    · have hs2 : b.has_space e b.num_entries b.data_length = false := by simpa using hs
      rw [awus_fail hashes b e d _ _ hs2] at hslot
      simp at hslot

theorem append_each_of_append_all (hashes : Nat → Nat → List Nat) :
    ∀ (xs : List (EdgeEntry × (Nat → Nat))) (b b1 : EdgeBlockHeader),
      b.append_all hashes xs = some b1 → (b.append_each hashes xs).1 = b1 := by
  intro xs
  induction xs with
  | nil =>
    intro b b1 h
    simp only [EdgeBlockHeader.append_all, Option.some.injEq] at h
    exact h
  | cons x rest ih =>
    intro b b1 h
    obtain ⟨e, d⟩ := x
    rw [EdgeBlockHeader.append_all] at h
    rw [EdgeBlockHeader.append_each]
    simp only
    revert h
    generalize b.append hashes e d = r
    obtain ⟨r1, r2⟩ := r
    intro h
    cases r2 with
    | none => simp at h
    | some s => exact ih r1 b1 h

theorem sample_block_holds : sample_block.Holds sample_appends ∧ sample_block.order = 8 := by
  have hsome : (EdgeBlockHeader.blank.build sample_hashes 8 5 1 0 1 sample_appends).isSome
      = true := by decide!
  obtain ⟨b, hb⟩ := Option.isSome_iff_exists.mp hsome
  have h := build_holds sample_hashes EdgeBlockHeader.blank 8 5 1 0 1 sample_appends
    (by decide) (by decide) b hb
  have heq : sample_block = b := append_each_of_append_all sample_hashes _ _ _ hb
  rw [heq]
  exact h

/-- Witness of C14: a reader of the sample block at snapshot `(5, 0)` scanning with
`reverse = true`, while a fourth entry is written but not yet published. -/
theorem stale_pair_scan_unchanged_witness :
    (sample_block.append_without_update_size sample_hashes ⟨2, 0, 14, 3, 100⟩
        (buffer [69, 70]) sample_block.num_entries sample_block.data_length).2 = some 160 ∧
      (sample_block.append_without_update_size sample_hashes ⟨2, 0, 14, 3, 100⟩
        (buffer [69, 70]) sample_block.num_entries sample_block.data_length).1.scan_views
          cmp_timestamp 77 5 0 true
        = sample_block.scan_views cmp_timestamp 77 5 0 true :=
  ⟨by decide!,
   (stale_pair_scan_unchanged sample_hashes cmp_timestamp 77 sample_block sample_appends
      ⟨2, 0, 14, 3, 100⟩ (buffer [69, 70]) 5 0 true (by decide!) sample_block_holds.1
      (by decide)).2.2.2.2.1⟩

theorem append_each_size_ok (hashes : Nat → Nat → List Nat) :
    ∀ (xs : List (EdgeEntry × (Nat → Nat))) (b : EdgeBlockHeader), b.order ≤ 63 →
      (∀ x ∈ xs, x.1.WF) → b.size_ok → (b.append_each hashes xs).1.size_ok := by
  intro xs
  induction xs with
  | nil => intro b _ _ hb; exact hb
  | cons x rest ih =>
    intro b h63 hwf hb
    obtain ⟨e, d⟩ := x
    rw [EdgeBlockHeader.append_each]
    simp only
    refine ih _ (by rw [append_order]; exact h63)
      (fun y hy => hwf y (List.mem_cons_of_mem _ hy)) ?_
    exact append_size_ok hashes b e d h63 (hwf (e, d) (by simp)) hb

/-- C17. Edge-block regions never collide: for every edge block of order 6 to 63 built by
`fill` followed by any sequence of appends of well-formed entries, the payload bytes
`[48, 48 + data_length)`, the entry slots `[A - 24 * num_entries, A)` and the Bloom region
`[A, 2^order)` are pairwise disjoint and inside the block, where the entry anchor `A`
returned by `get_entries` is `2^order - (2^order >> 4)` for `order >= 10` and `2^order` for
`order < 10`. -/
theorem edge_block_regions_disjoint (hashes : Nat → Nat → List Nat) (b0 : EdgeBlockHeader)
    (order vid : Nat) (ct : Int) (prev : Nat) (committed : Int)
    (xs : List (EdgeEntry × (Nat → Nat))) (h6 : 6 ≤ order) (h63 : order ≤ 63)
    (hwf : ∀ x ∈ xs, x.1.WF) :
    ((b0.fill order vid ct prev committed).append_each hashes xs).1.get_entries =
        (if 10 ≤ order then ((2 ^ order - (2 ^ order >>> 4) : Nat) : Int)
          else ((2 ^ order : Nat) : Int)) ∧
      ((b0.fill order vid ct prev committed).append_each hashes xs).1.get_data = 48 ∧
      ranges_disjoint 48
        (48 + ((b0.fill order vid ct prev committed).append_each hashes xs).1.data_length)
        (((b0.fill order vid ct prev committed).append_each hashes xs).1.get_entries
          - 24 * ((b0.fill order vid ct prev committed).append_each hashes xs).1.num_entries)
        ((b0.fill order vid ct prev committed).append_each hashes xs).1.get_entries ∧
      ranges_disjoint 48
        (48 + ((b0.fill order vid ct prev committed).append_each hashes xs).1.data_length)
        ((b0.fill order vid ct prev committed).append_each hashes xs).1.get_entries
        ((2 ^ order : Nat) : Int) ∧
      ranges_disjoint
        (((b0.fill order vid ct prev committed).append_each hashes xs).1.get_entries
          - 24 * ((b0.fill order vid ct prev committed).append_each hashes xs).1.num_entries)
        ((b0.fill order vid ct prev committed).append_each hashes xs).1.get_entries
        ((b0.fill order vid ct prev committed).append_each hashes xs).1.get_entries
        ((2 ^ order : Nat) : Int) ∧
      range_inside 48
        (48 + ((b0.fill order vid ct prev committed).append_each hashes xs).1.data_length)
        (2 ^ order) ∧
      range_inside
        (((b0.fill order vid ct prev committed).append_each hashes xs).1.get_entries
          - 24 * ((b0.fill order vid ct prev committed).append_each hashes xs).1.num_entries)
        ((b0.fill order vid ct prev committed).append_each hashes xs).1.get_entries
        (2 ^ order) ∧
      range_inside
        ((b0.fill order vid ct prev committed).append_each hashes xs).1.get_entries
        ((2 ^ order : Nat) : Int) (2 ^ order) := by
  have ho0 := (fill_holds b0 order vid ct prev committed).2
  have hs0 := fill_size_ok b0 order vid ct prev committed h6
  have hs := append_each_size_ok hashes xs _ (by rw [ho0]; exact h63) hwf hs0
  have ho := append_each_order hashes xs (b0.fill order vid ct prev committed)
  rw [ho0] at ho
  revert hs ho
  generalize ((b0.fill order vid ct prev committed).append_each hashes xs).1 = b
  intro hs ho
  obtain ⟨hA, hbl⟩ := get_entries_eq b (by omega)
  unfold EdgeBlockHeader.size_ok at hs
  simp only [sizeof_EdgeBlockHeader, sizeof_EdgeEntry] at hs
  rw [ho] at hA hbl hs
  have hbb : bloom_bytes order = if 10 ≤ order then 2 ^ order >>> 4 else 0 := by
    unfold bloom_bytes
    simp [BLOOM_FILTER_THRESHOLD, BLOOM_FILTER_PORTION]
  unfold ranges_disjoint range_inside
  rw [get_data_eq, hA]
  refine ⟨?_, rfl, ?_, ?_, ?_, ?_, ?_, ?_⟩
  · rw [hbb]
    split <;> simp
  · left; omega
  · left; omega
  · left; omega
  · omega
  · omega
  · omega

/-- Witness of C17: the sample appends into an order-10 block, whose entry anchor is
`1024 - 64 = 960`. -/
theorem edge_block_regions_disjoint_witness :
    ((EdgeBlockHeader.blank.fill 10 5 1 0 1).append_each sample_hashes
        sample_appends).1.get_entries = 960 ∧
      ranges_disjoint 48
        (48 + ((EdgeBlockHeader.blank.fill 10 5 1 0 1).append_each sample_hashes
          sample_appends).1.data_length)
        (((EdgeBlockHeader.blank.fill 10 5 1 0 1).append_each sample_hashes
            sample_appends).1.get_entries
          - 24 * ((EdgeBlockHeader.blank.fill 10 5 1 0 1).append_each sample_hashes
            sample_appends).1.num_entries)
        ((EdgeBlockHeader.blank.fill 10 5 1 0 1).append_each sample_hashes
          sample_appends).1.get_entries :=
  ⟨by decide!,
   (edge_block_regions_disjoint sample_hashes EdgeBlockHeader.blank 10 5 1 0 1
      sample_appends (by decide) (by decide) (by decide)).2.2.1⟩

/-! ### Block manager: file growth -/

theorem free_fields (m : BlockManager) (block order : Nat) :
    (m.free block order).used_size = m.used_size ∧
      (m.free block order).file_size = m.file_size := by
  unfold BlockManager.free; split <;> exact ⟨rfl, rfl⟩

/-- The file size after `alloc` is not below the file size before it, and stays a multiple
of `FILE_TRUNC_SIZE`. -/
theorem alloc_file_size (m : BlockManager) (order : Nat) :
    m.file_size ≤ (m.alloc order).2.file_size ∧
      (FILE_TRUNC_SIZE ∣ m.file_size → FILE_TRUNC_SIZE ∣ (m.alloc order).2.file_size) := by
  have hd : ∀ x : Nat, FILE_TRUNC_SIZE ∣ (x * FILE_TRUNC_SIZE) % 2 ^ 64 := by
    intro x
    have h64 : FILE_TRUNC_SIZE ∣ 2 ^ 64 := ⟨2 ^ 34, by simp [FILE_TRUNC_SIZE, Nat.shiftLeft_eq]⟩
    exact (Nat.dvd_mod_iff h64).mpr (Dvd.intro_left x rfl)
  unfold BlockManager.alloc
  by_cases hlt : order < LARGE_BLOCK_THRESHOLD
  · simp only [hlt, if_true]
    split <;> [split; skip] <;> [split; skip; skip]
    · exact ⟨by assumption, fun _ => hd _⟩
    · exact ⟨le_refl _, fun h => h⟩
    · exact ⟨le_refl _, fun h => h⟩
    · exact ⟨le_refl _, fun h => h⟩
  · simp only [hlt, if_false]
    split <;> [split; skip] <;> [split; skip; skip]
    · exact ⟨by assumption, fun _ => hd _⟩
    · exact ⟨le_refl _, fun h => h⟩
    · exact ⟨le_refl _, fun h => h⟩
    · exact ⟨le_refl _, fun h => h⟩

theorem run_file_size (ops : List BMCall) :
    ∀ m : BlockManager, m.file_size ≤ (m.run ops).1.file_size ∧
      (FILE_TRUNC_SIZE ∣ m.file_size → FILE_TRUNC_SIZE ∣ (m.run ops).1.file_size) := by
  induction ops with
  | nil => intro m; exact ⟨le_refl _, fun h => h⟩
  | cons op rest ih =>
    intro m
    cases op with
    | alloc order =>
      simp only [BlockManager.run]
      have h1 := alloc_file_size m order
      have h2 := ih (m.alloc order).2
      exact ⟨le_trans h1.1 h2.1, fun h => h2.2 (h1.2 h)⟩
    | free block order =>
      simp only [BlockManager.run]
      have h2 := ih (m.free block order)
      rw [(free_fields m block order).2] at h2
      exact h2

theorem run_append (a b : List BMCall) :
    ∀ m : BlockManager, (m.run (a ++ b)).1 = ((m.run a).1.run b).1 ∧
      (m.run (a ++ b)).2 = (m.run a).2 ++ ((m.run a).1.run b).2 := by
  induction a with
  | nil => intro m; simp [BlockManager.run]
  | cons op rest ih =>
    intro m
    cases op with
    | alloc order =>
      simp only [List.cons_append, BlockManager.run]
      exact ⟨(ih _).1, congrArg _ (ih _).2⟩
    | free block order =>
      simp only [List.cons_append, BlockManager.run]
      exact ih _

/-- Without wrap-around and with `used_size` below `file_size`, `alloc` keeps `used_size` below
`file_size`. -/
theorem alloc_cursor_below_file (m : BlockManager) (order : Nat) (ho : order < MAX_ORDER)
    (hnw : m.used_size + 2 ^ order < 2 ^ 64 - 2 ^ 30) (h : m.used_size < m.file_size) :
    (m.alloc order).2.used_size < (m.alloc order).2.file_size := by
  have hbs := block_size_eq order ho
  have hft : FILE_TRUNC_SIZE = 2 ^ 30 := by simp [FILE_TRUNC_SIZE, Nat.shiftLeft_eq]
  have hmod : (m.used_size + 2 ^ order) % 2 ^ 64 = m.used_size + 2 ^ order :=
    Nat.mod_eq_of_lt (by omega)
  have hnew : (((m.used_size + 2 ^ order) / 2 ^ 30 + 1) * 2 ^ 30) % 2 ^ 64
      = ((m.used_size + 2 ^ order) / 2 ^ 30 + 1) * 2 ^ 30 :=
    Nat.mod_eq_of_lt (by omega)
  have hgt : m.used_size + 2 ^ order < ((m.used_size + 2 ^ order) / 2 ^ 30 + 1) * 2 ^ 30 := by
    omega
  unfold BlockManager.alloc
  by_cases hlt : order < LARGE_BLOCK_THRESHOLD
  · simp only [hlt, if_true, hbs, hft, hmod, hnew]
    split <;> [split; skip] <;> [split; skip; skip]
    · exact hgt
    · simp only [ge_iff_le] at *; omega
    · simp only [ge_iff_le, not_le] at *; assumption
    · exact h
  · simp only [hlt, if_false, hbs, hft, hmod, hnew]
    split <;> [split; skip] <;> [split; skip; skip]
    · exact hgt
    · simp only [ge_iff_le] at *; omega
    · simp only [ge_iff_le, not_le] at *; assumption
    · exact h

/-- While the requests fit below `2^64 - 2^30`, every block handed out or held in a free list
ends at or below the `used_size` cursor, and the cursor stays below `file_size`. -/
theorem run_below_cursor (ops : List BMCall) :
    ∀ (m : BlockManager) (allocated : List (Nat × Nat)),
      m.used_size + BMCall.requested ops < 2 ^ 64 - 2 ^ 30 →
      m.used_size < m.file_size →
      (∀ k l, m.free_blocks[k]? = some l → ∀ p ∈ l, p + 2 ^ k ≤ m.used_size) →
      (∀ k l, m.large_free_blocks[k]? = some l → ∀ p ∈ l, p + 2 ^ k ≤ m.used_size) →
      (∀ pr ∈ allocated, pr.1 + 2 ^ pr.2 ≤ m.used_size) →
      m.legal allocated ops →
      m.used_size ≤ (m.run ops).1.used_size ∧
        (m.run ops).1.used_size < (m.run ops).1.file_size ∧
        ∀ pr ∈ (m.run ops).2, pr.1 + 2 ^ pr.2 ≤ (m.run ops).1.used_size := by
  induction ops with
  | nil =>
    intro m allocated _ hlt _ _ _ _
    refine ⟨le_refl _, hlt, ?_⟩
    intro pr hpr; simp [BlockManager.run] at hpr
  | cons op rest ih =>
    intro m allocated hsum hlt hfb hlb hal hlegal
    cases op with
    | alloc order =>
      simp only [BlockManager.legal] at hlegal
      simp only [BMCall.requested] at hsum
      obtain ⟨ho, hlegal⟩ := hlegal
      have hfl := alloc_free_lists m order
      have hp1 := pop_indexed (fun k p => p + 2 ^ k ≤ m.used_size) m.free_blocks order hfb
      have hp2 := pop_indexed (fun k p => p + 2 ^ k ≤ m.used_size) m.large_free_blocks order hlb
      have hpow : 0 < 2 ^ order := Nat.pow_pos (by norm_num)
      have hbf := alloc_cursor_below_file m order ho (by omega) hlt
      have ha : (m.alloc order).1 + 2 ^ order ≤ (m.alloc order).2.used_size ∧
          m.used_size ≤ (m.alloc order).2.used_size ∧
          (m.alloc order).2.used_size + BMCall.requested rest < 2 ^ 64 - 2 ^ 30 := by
        rcases alloc_cases m order ho with ⟨h1, h2, h3⟩ | ⟨h1, h2⟩
        · refine ⟨?_, by omega, by omega⟩
          rw [h2]
          by_cases hs : order < LARGE_BLOCK_THRESHOLD
          · rw [if_pos hs] at h3
            rcases hp1.1 with hn | hq
            · rw [h3] at h1; exact absurd hn h1
            · rw [h3]; exact hq
          · rw [if_neg hs] at h3
            rcases hp2.1 with hn | hq
            · rw [h3] at h1; exact absurd hn h1
            · rw [h3]; exact hq
        · have hnw : m.used_size + 2 ^ order < 2 ^ 64 := by omega
          rw [Nat.mod_eq_of_lt hnw] at h2
          refine ⟨by omega, by omega, by omega⟩
      have hfb1 : ∀ k l, (m.alloc order).2.free_blocks[k]? = some l →
          ∀ p ∈ l, p + 2 ^ k ≤ (m.alloc order).2.used_size := by
        intro k l hk p hp
        refine le_trans ?_ ha.2.1
        rw [hfl.1] at hk
        split at hk
        · exact hp1.2 k l hk p hp
        · exact hfb k l hk p hp
      have hlb1 : ∀ k l, (m.alloc order).2.large_free_blocks[k]? = some l →
          ∀ p ∈ l, p + 2 ^ k ≤ (m.alloc order).2.used_size := by
        intro k l hk p hp
        refine le_trans ?_ ha.2.1
        rw [hfl.2] at hk
        split at hk
        · exact hlb k l hk p hp
        · exact hp2.2 k l hk p hp
      have hal1 : ∀ pr ∈ ((m.alloc order).1, order) :: allocated,
          pr.1 + 2 ^ pr.2 ≤ (m.alloc order).2.used_size := by
        intro q hq
        rcases List.mem_cons.mp hq with hq | hq
        · subst hq; exact ha.1
        · exact le_trans (hal q hq) ha.2.1
      obtain ⟨i1, i2, i3⟩ := ih _ _ ha.2.2 hbf hfb1 hlb1 hal1 hlegal
      simp only [BlockManager.run]
      refine ⟨le_trans ha.2.1 i1, i2, ?_⟩
      intro pr hpr
      rcases List.mem_cons.mp hpr with hpr | hpr
      · subst hpr; exact le_trans ha.1 i1
      · exact i3 pr hpr
    | free block order =>
      simp only [BlockManager.legal] at hlegal
      simp only [BMCall.requested] at hsum
      obtain ⟨hmem, hlegal⟩ := hlegal
      simp only [BlockManager.run]
      have hb : block + 2 ^ order ≤ m.used_size := hal (block, order) hmem
      have hff := free_fields m block order
      have := ih (m.free block order) allocated (by rw [hff.1]; exact hsum)
        (by rw [hff.1, hff.2]; exact hlt) ?_ ?_ (by rw [hff.1]; exact hal) hlegal
      · rw [hff.1] at this; exact this
      · rw [hff.1]; unfold BlockManager.free; split
        · exact push_indexed _ _ order block hfb hb
        · exact hfb
      · rw [hff.1]; unfold BlockManager.free; split
        · exact hlb
        · exact push_indexed _ _ order block hlb hb

/-- C21 as stated fails. (1) The calls `alloc(63); alloc(62); ...; alloc(30)` on a fresh
manager ask for less than `2^64` bytes in total, the cursor does not wrap, but the last block
`[2^64 - 2^31 + 2^20, 2^64 - 2^30 + 2^20)` ends beyond `file_size = 2^64 - 2^30`: the new
file size `(... / 2^30 + 1) * 2^30` is `2^64`, which is 0 in 64 bits, and the file is not
grown. (2) After `alloc(63); alloc(63)` the second block starts at `2^63 + 2^20` and the sum
`pointer + block_size` wraps to `2^20`, below `file_size = 2^63 + 2^30`, so the file is not
grown either. -/
theorem block_ends_beyond_file_size :
    ((BlockManager.ctor (2 ^ 40)).legal
        [((BlockManager.ctor (2 ^ 40)).null_holder, LARGE_BLOCK_THRESHOLD)] growth_calls ∧
      2 ^ 20 + BMCall.requested growth_calls < 2 ^ 64 ∧
      (2 ^ 64 - 2 ^ 31 + 2 ^ 20, 30) ∈ ((BlockManager.ctor (2 ^ 40)).run growth_calls).2 ∧
      ((BlockManager.ctor (2 ^ 40)).run growth_calls).1.file_size = 2 ^ 64 - 2 ^ 30 ∧
      ¬ (2 ^ 64 - 2 ^ 31 + 2 ^ 20 + 2 ^ 30 < 2 ^ 64 - 2 ^ 30)) ∧
    ((2 ^ 63 + 2 ^ 20, 63) ∈
        ((BlockManager.ctor (2 ^ 40)).run [BMCall.alloc 63, BMCall.alloc 63]).2 ∧
      ((BlockManager.ctor (2 ^ 40)).run [BMCall.alloc 63, BMCall.alloc 63]).1.file_size
        = 2 ^ 63 + 2 ^ 30 ∧
      ¬ (2 ^ 63 + 2 ^ 20 + 2 ^ 63 < 2 ^ 63 + 2 ^ 30)) := by
  refine ⟨⟨by decide!, by decide!, by decide!, by decide!, by decide⟩,
    by decide!, by decide!, by decide⟩

/-- C21, amended. On a freshly constructed manager, for every sequence of `alloc` and `free`
calls in which each `free` returns a previously allocated block with the order it was
allocated with and whose requested block sizes, together with the null holder's `2^20` bytes,
add up to less than `2^64 - 2^30`: after the constructor and after every call the file size
is a positive multiple of `2^30`, it is at least the constructor's `2^30` and never decreases
in any continuation `post`, and every block handed out so far, the null holder included, ends
strictly before it. -/
theorem file_growth_invariant (capacity : Nat) (pre post : List BMCall)
    (hlegal : (BlockManager.ctor capacity).legal
      [((BlockManager.ctor capacity).null_holder, LARGE_BLOCK_THRESHOLD)] pre)
    (hsum : 2 ^ 20 + BMCall.requested pre < 2 ^ 64 - 2 ^ 30) :
    (BlockManager.ctor capacity).file_size = FILE_TRUNC_SIZE ∧
      0 < ((BlockManager.ctor capacity).run pre).1.file_size ∧
      FILE_TRUNC_SIZE ∣ ((BlockManager.ctor capacity).run pre).1.file_size ∧
      (BlockManager.ctor capacity).file_size ≤ ((BlockManager.ctor capacity).run pre).1.file_size ∧
      ((BlockManager.ctor capacity).run pre).1.file_size
        ≤ ((BlockManager.ctor capacity).run (pre ++ post)).1.file_size ∧
      (BlockManager.ctor capacity).null_holder + 2 ^ LARGE_BLOCK_THRESHOLD
        < ((BlockManager.ctor capacity).run pre).1.file_size ∧
      ∀ pr ∈ ((BlockManager.ctor capacity).run pre).2,
        pr.1 + 2 ^ pr.2 < ((BlockManager.ctor capacity).run pre).1.file_size := by
  have hinv : ∀ m : BlockManager, m = BlockManager.ctor capacity →
      m.file_size = FILE_TRUNC_SIZE ∧
      0 < (m.run pre).1.file_size ∧
      FILE_TRUNC_SIZE ∣ (m.run pre).1.file_size ∧
      m.file_size ≤ (m.run pre).1.file_size ∧
      (m.run pre).1.file_size ≤ (m.run (pre ++ post)).1.file_size ∧
      m.null_holder + 2 ^ LARGE_BLOCK_THRESHOLD < (m.run pre).1.file_size ∧
      ∀ pr ∈ (m.run pre).2, pr.1 + 2 ^ pr.2 < (m.run pre).1.file_size := by
    intro m hm
    have hu : m.used_size = 2 ^ 20 := by rw [hm, ctor_eq]
    have hf : m.free_blocks = List.replicate LARGE_BLOCK_THRESHOLD [] := by
      rw [hm, ctor_eq]
    have hl : m.large_free_blocks = List.replicate MAX_ORDER [] := by rw [hm, ctor_eq]
    have hn : m.null_holder = 0 := by rw [hm, ctor_eq]
    have hfs : m.file_size = FILE_TRUNC_SIZE := by rw [hm, ctor_eq]
    have hft : FILE_TRUNC_SIZE = 2 ^ 30 := by simp [FILE_TRUNC_SIZE, Nat.shiftLeft_eq]
    have hlegal1 : m.legal [(m.null_holder, LARGE_BLOCK_THRESHOLD)] pre := by
      rw [hm]; exact hlegal
    rw [hn] at hlegal1
    have h20 : (2 : Nat) ^ LARGE_BLOCK_THRESHOLD = 2 ^ 20 := rfl
    have hmono := run_file_size pre m
    have hmono2 := run_file_size post (m.run pre).1
    obtain ⟨b1, b2, b3⟩ := run_below_cursor pre m [(0, LARGE_BLOCK_THRESHOLD)]
      (by rw [hu]; exact hsum) (by rw [hu, hfs, hft]; norm_num)
      (by
        intro k l hk p hp
        rw [hf] at hk
        exact (mem_replicate_nil_elim hk hp).elim)
      (by
        intro k l hk p hp
        rw [hl] at hk
        exact (mem_replicate_nil_elim hk hp).elim)
      (by
        intro q hq
        rw [List.mem_singleton] at hq
        subst hq
        simp only [h20, hu]
        omega)
      hlegal1
    refine ⟨hfs, ?_, hmono.2 (by rw [hfs]), hmono.1, ?_, ?_, ?_⟩
    · have := hmono.1
      rw [hfs, hft] at this
      omega
    · rw [(run_append pre post m).1]; exact hmono2.1
    · rw [hn, h20]; rw [hu] at b1; omega
    · intro pr hpr
      exact lt_of_le_of_lt (b3 pr hpr) b2
  exact hinv _ rfl

/-- Witness of C21 (amended): after `alloc(6); alloc(12); free(2^20, 6); alloc(6)` on a
fresh manager the order-12 block at `2^20 + 64` ends before the file size, which is still
`2^30`; `alloc(40)` is the continuation. -/
theorem file_growth_invariant_witness :
    (2 ^ 20 + 64, 12) ∈ ((BlockManager.ctor (2 ^ 40)).run
        [BMCall.alloc 6, BMCall.alloc 12, BMCall.free (2 ^ 20) 6, BMCall.alloc 6]).2 ∧
      ((2 ^ 20 + 64, 12) : Nat × Nat).1 + 2 ^ ((2 ^ 20 + 64, 12) : Nat × Nat).2 <
        ((BlockManager.ctor (2 ^ 40)).run
          [BMCall.alloc 6, BMCall.alloc 12, BMCall.free (2 ^ 20) 6, BMCall.alloc 6]).1.file_size :=
  ⟨by decide,
   (file_growth_invariant (2 ^ 40)
      [BMCall.alloc 6, BMCall.alloc 12, BMCall.free (2 ^ 20) 6, BMCall.alloc 6]
      [BMCall.alloc 40] (by decide) (by decide)).2.2.2.2.2.2 (2 ^ 20 + 64, 12) (by decide)⟩

/-! ### Block manager: size classes -/

theorem pop_fst (fb : List (List Nat)) (j : Nat) :
    (BlockManager.pop fb j).1 = (fb.getD j []).getLastD NULLPOINTER := by
  unfold BlockManager.pop
  by_cases hlen : (fb.getD j []).length ≠ 0
  · rw [if_pos hlen]
  · rw [if_neg hlen]
    have : fb.getD j [] = [] := by
      rw [← List.length_eq_zero]; omega
    rw [this]; rfl

theorem pop_snd_getD (fb : List (List Nat)) (j i : Nat) :
    (BlockManager.pop fb j).2.getD i [] =
      if i = j then (fb.getD j []).dropLast else fb.getD i [] := by
  unfold BlockManager.pop
  by_cases hlen : (fb.getD j []).length ≠ 0
  · rw [if_pos hlen]
    simp only [List.getD_eq_getElem?_getD, List.getElem?_set]
    by_cases hij : i = j
    · subst hij
      simp only [if_true]
      split
      · simp
      · rename_i h
        have : fb[i]? = none := by
          rw [List.getElem?_eq_none_iff]; omega
        simp [List.getD_eq_getElem?_getD, this] at hlen
    · have hji : ¬ j = i := fun h => hij h.symm
      simp [hij, hji]
  · rw [if_neg hlen]
    have : fb.getD j [] = [] := by
      rw [← List.length_eq_zero]; omega
    by_cases hij : i = j
    · subst hij; simp only [if_true]; rw [this]; rfl
    · simp [hij]

theorem pop_length (fb : List (List Nat)) (j : Nat) :
    (BlockManager.pop fb j).2.length = fb.length := by
  unfold BlockManager.pop
  split <;> simp

theorem push_getD (fb : List (List Nat)) (k i p : Nat) (hk : k < fb.length) :
    (BlockManager.push fb k p).getD i [] =
      if i = k then fb.getD k [] ++ [p] else fb.getD i [] := by
  unfold BlockManager.push
  simp only [List.getD_eq_getElem?_getD, List.getElem?_set]
  by_cases hik : i = k
  · subst hik; simp [hk]
  · have hki : ¬ k = i := fun h => hik h.symm
    simp [hik, hki]

theorem push_length (fb : List (List Nat)) (k p : Nat) :
    (BlockManager.push fb k p).length = fb.length := by
  unfold BlockManager.push; simp

theorem alloc_fst (m : BlockManager) (j : Nat) :
    (m.alloc j).1 = if (m.free_list j).getLastD NULLPOINTER = NULLPOINTER then m.used_size
      else (m.free_list j).getLastD NULLPOINTER := by
  unfold BlockManager.alloc BlockManager.free_list
  by_cases hlt : j < LARGE_BLOCK_THRESHOLD
  · simp only [hlt, if_true, pop_fst]
    split <;> [split; skip] <;> [split; skip; skip] <;> rfl
  · simp only [hlt, if_false, pop_fst]
    split <;> [split; skip] <;> [split; skip; skip] <;> rfl

theorem alloc_used (m : BlockManager) (j : Nat) :
    (m.alloc j).2.used_size =
      if (m.free_list j).getLastD NULLPOINTER = NULLPOINTER then
        (m.used_size + (1 <<< j) % 2 ^ 64) % 2 ^ 64
      else m.used_size := by
  unfold BlockManager.alloc BlockManager.free_list
  by_cases hlt : j < LARGE_BLOCK_THRESHOLD
  · simp only [hlt, if_true, pop_fst]
    split <;> [split; skip] <;> [split; skip; skip] <;> rfl
  · simp only [hlt, if_false, pop_fst]
    split <;> [split; skip] <;> [split; skip; skip] <;> rfl

theorem alloc_free_list (m : BlockManager) (j i : Nat) :
    (m.alloc j).2.free_list i =
      if i = j then (m.free_list j).dropLast else m.free_list i := by
  have hfl := alloc_free_lists m j
  unfold BlockManager.free_list
  rw [hfl.1, hfl.2]
  by_cases hj : j < LARGE_BLOCK_THRESHOLD <;> by_cases hi : i < LARGE_BLOCK_THRESHOLD
  · simp only [hj, hi, if_true, pop_snd_getD]
  · have hij : i ≠ j := by omega
    simp only [hj, hi, if_true, if_false, hij]
  · have hij : i ≠ j := by omega
    simp only [hj, hi, if_true, if_false, hij]
  · simp only [hj, hi, if_false, pop_snd_getD]

theorem free_free_list (m : BlockManager) (p k i : Nat) (hwf : m.WF) (hk : k < MAX_ORDER) :
    (m.free p k).free_list i =
      if i = k then m.free_list k ++ [p] else m.free_list i := by
  unfold BlockManager.free BlockManager.free_list
  by_cases hk20 : k < LARGE_BLOCK_THRESHOLD <;> by_cases hi : i < LARGE_BLOCK_THRESHOLD
  · simp only [hk20, hi, if_true]
    exact push_getD _ _ _ _ (by rw [hwf.1]; exact hk20)
  · have hik : i ≠ k := by omega
    simp only [hk20, hi, if_true, if_false, hik]
  · have hik : i ≠ k := by omega
    simp only [hk20, hi, if_true, if_false, hik]
  · simp only [hk20, hi, if_false]
    exact push_getD _ _ _ _ (by rw [hwf.2]; exact hk)

theorem alloc_wf (m : BlockManager) (j : Nat) (hwf : m.WF) : (m.alloc j).2.WF := by
  have hfl := alloc_free_lists m j
  unfold BlockManager.WF
  rw [hfl.1, hfl.2]
  constructor
  · split
    · rw [pop_length]; exact hwf.1
    · exact hwf.1
  · split
    · exact hwf.2
    · rw [pop_length]; exact hwf.2

theorem free_wf (m : BlockManager) (p k : Nat) (hwf : m.WF) : (m.free p k).WF := by
  unfold BlockManager.free BlockManager.WF
  split
  · exact ⟨by simp only [push_length]; exact hwf.1, hwf.2⟩
  · exact ⟨hwf.1, by simp only [push_length]; exact hwf.2⟩

/-- Two managers with the same cursor whose free lists agree in every size class but `k`
answer every sequence of calls of orders other than `k` alike, and their free lists of
order `k` stay as they are. -/
theorem run_other_orders (k : Nat) (ops : List BMCall) :
    ∀ (m1 m2 : BlockManager), m1.WF → m2.WF → m1.used_size = m2.used_size →
      (∀ i, i ≠ k → m1.free_list i = m2.free_list i) →
      (∀ c ∈ ops, c.order < MAX_ORDER ∧ c.order ≠ k) →
      (m1.run ops).2 = (m2.run ops).2 ∧ (m1.run ops).1.free_list k = m1.free_list k ∧
        (m1.run ops).1.WF := by
  induction ops with
  | nil => intro m1 m2 h1 _ _ _ _; exact ⟨rfl, rfl, h1⟩
  | cons op rest ih =>
    intro m1 m2 h1 h2 hu hl hops
    have hrest : ∀ c ∈ rest, c.order < MAX_ORDER ∧ c.order ≠ k :=
      fun c hc => hops c (List.mem_cons_of_mem _ hc)
    cases op with
    | alloc j =>
      have hj := hops (BMCall.alloc j) (List.mem_cons_self _ _)
      simp only [BMCall.order] at hj
      have hres : (m1.alloc j).1 = (m2.alloc j).1 := by
        rw [alloc_fst, alloc_fst, hl j hj.2, hu]
      have hus : (m1.alloc j).2.used_size = (m2.alloc j).2.used_size := by
        rw [alloc_used, alloc_used, hl j hj.2, hu]
      have hls : ∀ i, i ≠ k → (m1.alloc j).2.free_list i = (m2.alloc j).2.free_list i := by
        intro i hi
        rw [alloc_free_list, alloc_free_list, hl j hj.2, hl i hi]
      obtain ⟨i1, i2, i3⟩ := ih _ _ (alloc_wf m1 j h1) (alloc_wf m2 j h2) hus hls hrest
      simp only [BlockManager.run]
      refine ⟨by rw [hres, i1], ?_, i3⟩
      rw [i2, alloc_free_list, if_neg (fun h => hj.2 h.symm)]
    | free q j =>
      have hj := hops (BMCall.free q j) (List.mem_cons_self _ _)
      simp only [BMCall.order] at hj
      have hus : (m1.free q j).used_size = (m2.free q j).used_size := by
        rw [(free_fields m1 q j).1, (free_fields m2 q j).1, hu]
      have hls : ∀ i, i ≠ k → (m1.free q j).free_list i = (m2.free q j).free_list i := by
        intro i hi
        rw [free_free_list m1 q j i h1 hj.1, free_free_list m2 q j i h2 hj.1, hl j hj.2, hl i hi]
      obtain ⟨i1, i2, i3⟩ := ih _ _ (free_wf m1 q j h1) (free_wf m2 q j h2) hus hls hrest
      simp only [BlockManager.run]
      refine ⟨i1, ?_, i3⟩
      rw [i2, free_free_list m1 q j k h1 hj.1, if_neg (fun h => hj.2 h.symm)]

/-- While the cursor does not wrap, every offset handed out so far belongs to one order:
free lists only hold blocks that were handed out with the order of the list, and the cursor
lies beyond every block handed out. -/
theorem run_orders_unique (ops : List BMCall) :
    ∀ (m : BlockManager) (allocated : List (Nat × Nat)),
      m.used_size + BMCall.requested ops < 2 ^ 64 →
      (∀ k l, m.free_blocks[k]? = some l → ∀ p ∈ l, (p, k) ∈ allocated) →
      (∀ k l, m.large_free_blocks[k]? = some l → ∀ p ∈ l, (p, k) ∈ allocated) →
      (∀ pr ∈ allocated, pr.1 + 2 ^ pr.2 ≤ m.used_size) →
      (∀ a ∈ allocated, ∀ b ∈ allocated, a.1 = b.1 → a.2 = b.2) →
      m.legal allocated ops →
      (∀ a ∈ (m.run ops).2 ++ allocated, ∀ b ∈ (m.run ops).2 ++ allocated,
          a.1 = b.1 → a.2 = b.2) ∧
        ∀ p k, BMCall.free p k ∈ ops → (p, k) ∈ (m.run ops).2 ++ allocated := by
  induction ops with
  | nil =>
    intro m allocated _ _ _ _ hfun _
    simp only [BlockManager.run, List.nil_append]
    exact ⟨hfun, by intro p k h; simp at h⟩
  | cons op rest ih =>
    intro m allocated hsum hfb hlb hal hfun hlegal
    cases op with
    | alloc order =>
      simp only [BlockManager.legal] at hlegal
      simp only [BMCall.requested] at hsum
      obtain ⟨ho, hlegal⟩ := hlegal
      have hfl := alloc_free_lists m order
      have hp1 := pop_indexed (fun k p => (p, k) ∈ allocated) m.free_blocks order hfb
      have hp2 := pop_indexed (fun k p => (p, k) ∈ allocated) m.large_free_blocks order hlb
      have hpow : 0 < 2 ^ order := Nat.pow_pos (by norm_num)
      have ha : ((m.alloc order).1 + 2 ^ order ≤ (m.alloc order).2.used_size ∧
          m.used_size ≤ (m.alloc order).2.used_size ∧
          (m.alloc order).2.used_size + BMCall.requested rest < 2 ^ 64) ∧
          (((m.alloc order).1, order) ∈ allocated ∨ (m.alloc order).1 = m.used_size) := by
        rcases alloc_cases m order ho with ⟨h1, h2, h3⟩ | ⟨h1, h2⟩
        · have hmem : ((m.alloc order).1, order) ∈ allocated := by
            by_cases hs : order < LARGE_BLOCK_THRESHOLD
            · rw [if_pos hs] at h3
              rcases hp1.1 with hn | hq
              · rw [h3] at h1; exact absurd hn h1
              · rw [h3]; exact hq
            · rw [if_neg hs] at h3
              rcases hp2.1 with hn | hq
              · rw [h3] at h1; exact absurd hn h1
              · rw [h3]; exact hq
          refine ⟨⟨?_, by omega, by omega⟩, Or.inl hmem⟩
          rw [h2]
          exact hal _ hmem
        · have hnw : m.used_size + 2 ^ order < 2 ^ 64 := by omega
          rw [Nat.mod_eq_of_lt hnw] at h2
          exact ⟨⟨by omega, by omega, by omega⟩, Or.inr h1⟩
      have hfb1 : ∀ k l, (m.alloc order).2.free_blocks[k]? = some l →
          ∀ p ∈ l, (p, k) ∈ ((m.alloc order).1, order) :: allocated := by
        intro k l hk p hp
        refine List.mem_cons_of_mem _ ?_
        rw [hfl.1] at hk
        split at hk
        · exact hp1.2 k l hk p hp
        · exact hfb k l hk p hp
      have hlb1 : ∀ k l, (m.alloc order).2.large_free_blocks[k]? = some l →
          ∀ p ∈ l, (p, k) ∈ ((m.alloc order).1, order) :: allocated := by
        intro k l hk p hp
        refine List.mem_cons_of_mem _ ?_
        rw [hfl.2] at hk
        split at hk
        · exact hlb k l hk p hp
        · exact hp2.2 k l hk p hp
      have hal1 : ∀ pr ∈ ((m.alloc order).1, order) :: allocated,
          pr.1 + 2 ^ pr.2 ≤ (m.alloc order).2.used_size := by
        intro q hq
        rcases List.mem_cons.mp hq with hq | hq
        · subst hq; exact ha.1.1
        · exact le_trans (hal q hq) ha.1.2.1
      have hnew : ∀ b ∈ allocated, ((m.alloc order).1, order).1 = b.1 → order = b.2 := by
        intro b hb hab
        rcases ha.2 with hmem | hcur
        · exact hfun _ hmem b hb hab
        · have hbe := hal b hb
          have hbp : 0 < 2 ^ b.2 := Nat.pow_pos (by norm_num)
          simp only at hab
          omega
      have hfun1 : ∀ a ∈ ((m.alloc order).1, order) :: allocated,
          ∀ b ∈ ((m.alloc order).1, order) :: allocated, a.1 = b.1 → a.2 = b.2 := by
        intro a haa b hbb hab
        rcases List.mem_cons.mp haa with haa | haa <;> rcases List.mem_cons.mp hbb with hbb | hbb
        · rw [haa, hbb]
        · subst haa; exact hnew b hbb hab
        · subst hbb; exact (hnew a haa hab.symm).symm
        · exact hfun a haa b hbb hab
      obtain ⟨i1, i2⟩ := ih _ _ ha.1.2.2 hfb1 hlb1 hal1 hfun1 hlegal
      have hsub : ∀ x, x ∈ (BlockManager.run m (BMCall.alloc order :: rest)).2 ++ allocated ↔
          x ∈ ((m.alloc order).2.run rest).2 ++ ((m.alloc order).1, order) :: allocated := by
        intro x
        simp only [BlockManager.run, List.mem_append, List.mem_cons]
        tauto
      refine ⟨?_, ?_⟩
      · intro a haa b hbb hab
        exact i1 a ((hsub a).mp haa) b ((hsub b).mp hbb) hab
      · intro p k hpk
        rcases List.mem_cons.mp hpk with hpk | hpk
        · cases hpk
        · exact (hsub _).mpr (i2 p k hpk)
    | free block order =>
      simp only [BlockManager.legal] at hlegal
      simp only [BMCall.requested] at hsum
      obtain ⟨hmem, hlegal⟩ := hlegal
      simp only [BlockManager.run]
      have hff := free_fields m block order
      obtain ⟨i1, i2⟩ := ih (m.free block order) allocated (by rw [hff.1]; exact hsum)
        (by
          unfold BlockManager.free; split
          · exact push_indexed _ _ order block hfb hmem
          · exact hfb)
        (by
          unfold BlockManager.free; split
          · exact hlb
          · exact push_indexed _ _ order block hlb hmem)
        (by rw [hff.1]; exact hal) hfun hlegal
      refine ⟨i1, ?_⟩
      intro p k hpk
      rcases List.mem_cons.mp hpk with hpk | hpk
      · cases hpk
        exact List.mem_append_right _ hmem
      · exact i2 p k hpk

/-- C22 as stated fails once the 64-bit cursor wraps. (1) In the calls
`alloc(20); alloc(21); ...; alloc(63); alloc(20); free(2^20, 20); alloc(21)` every `free`
returns an allocated block with its order; the first call returns `2^20`, the calls up to
`alloc(63)` bring the cursor to `2^64 = 0`, the second `alloc(20)` moves it to `2^20`, and
after `free(2^20, 20)` the call `alloc(21)` misses its free list and returns the cursor: the
block `2^20` freed with order 20 is returned again by `alloc(21)`. (2) After `alloc(63)` the
cursor is `2^63 + 2^20`; a second `alloc(63)` misses, returns it and leaves the cursor at
`2^20`, not at `2^63 + 2^20 + 2^63`. -/
theorem freed_block_returned_by_other_order :
    ((BlockManager.ctor (2 ^ 40)).legal
        [((BlockManager.ctor (2 ^ 40)).null_holder, LARGE_BLOCK_THRESHOLD)] reuse_calls ∧
      ((BlockManager.ctor (2 ^ 40)).run reuse_calls).2.head? = some (2 ^ 20, 20) ∧
      reuse_calls.dropLast.getLast? = some (BMCall.free (2 ^ 20) 20) ∧
      reuse_calls.getLast? = some (BMCall.alloc 21) ∧
      ((BlockManager.ctor (2 ^ 40)).run reuse_calls).2.getLast? = some (2 ^ 20, 21)) ∧
    ((((BlockManager.ctor (2 ^ 40)).run [BMCall.alloc 63]).1.free_list 63).getLastD NULLPOINTER
        = NULLPOINTER ∧
      ((BlockManager.ctor (2 ^ 40)).run [BMCall.alloc 63]).1.used_size = 2 ^ 63 + 2 ^ 20 ∧
      (((BlockManager.ctor (2 ^ 40)).run [BMCall.alloc 63]).1.alloc 63).1 = 2 ^ 63 + 2 ^ 20 ∧
      (((BlockManager.ctor (2 ^ 40)).run [BMCall.alloc 63]).1.alloc 63).2.used_size = 2 ^ 20 ∧
      ¬ ((2 : Nat) ^ 20 = 2 ^ 63 + 2 ^ 20 + 2 ^ 63)) := by
  refine ⟨⟨by decide!, by decide!, by decide!, by decide!, by decide!⟩,
    by decide!, by decide!, by decide!, by decide!, by decide⟩

/-- C22, amended. Size classes are isolated. For distinct orders `j` and `k` below 64, any
offset `p` and any manager with its two vectors of free lists:
(a) `free(p, k)` changes neither the result of a following `alloc(j)` nor the free list of
order `j`, nor any result of a following sequence of calls of orders other than `k`;
(b) `free(p, k)` appends `p` to the free list of order `k`, calls of other orders leave that
list unchanged, `alloc(j)` on a hit takes the block at the back of list `j` without moving
the cursor, and the next `alloc(k)` returns `p` (`p` not null);
(c) on a miss (the popped pointer is null) `alloc(j)` returns the old `used_size` and
advances it by `2^j` modulo `2^64`, which is exactly `2^j` when `used_size + 2^j < 2^64`;
(d) on a freshly constructed manager, for every sequence `ops` of calls in which each `free`
returns a previously allocated block with the order it was allocated with and whose
requested sizes, with the null holder's `2^20` bytes, add up to less than `2^64`: if
`free(p, k)` is among the calls, no `alloc(j)` returns `p`. -/
theorem size_classes_isolated (m : BlockManager) (j k p : Nat) (capacity : Nat)
    (ops : List BMCall) (hwf : m.WF)
    (hj : j < MAX_ORDER) (hk : k < MAX_ORDER) (hjk : j ≠ k)
    (hlegal : (BlockManager.ctor capacity).legal
      [((BlockManager.ctor capacity).null_holder, LARGE_BLOCK_THRESHOLD)] ops)
    (hsum : 2 ^ 20 + BMCall.requested ops < 2 ^ 64) :
    (((m.free p k).alloc j).1 = (m.alloc j).1 ∧
      (m.free p k).free_list j = m.free_list j ∧
      ∀ calls : List BMCall, (∀ c ∈ calls, c.order < MAX_ORDER ∧ c.order ≠ k) →
        ((m.free p k).run calls).2 = (m.run calls).2) ∧
    ((m.free p k).free_list k = m.free_list k ++ [p] ∧
      (∀ calls : List BMCall, (∀ c ∈ calls, c.order < MAX_ORDER ∧ c.order ≠ k) →
        ((m.free p k).run calls).1.free_list k = m.free_list k ++ [p] ∧
        (p ≠ NULLPOINTER → (((m.free p k).run calls).1.alloc k).1 = p)) ∧
      (m.alloc j).2.free_list k = m.free_list k ∧
      ((m.free_list j).getLastD NULLPOINTER ≠ NULLPOINTER →
        (m.alloc j).1 = (m.free_list j).getLastD NULLPOINTER ∧
        (m.alloc j).2.free_list j = (m.free_list j).dropLast ∧
        (m.alloc j).2.used_size = m.used_size)) ∧
    ((m.free_list j).getLastD NULLPOINTER = NULLPOINTER →
      (m.alloc j).1 = m.used_size ∧
      (m.alloc j).2.used_size = (m.used_size + 2 ^ j) % 2 ^ 64 ∧
      (m.used_size + 2 ^ j < 2 ^ 64 → (m.alloc j).2.used_size = m.used_size + 2 ^ j)) ∧
    (BMCall.free p k ∈ ops → (p, j) ∉ ((BlockManager.ctor capacity).run ops).2) := by
  have hfj : (m.free p k).free_list j = m.free_list j := by
    rw [free_free_list m p k j hwf hk, if_neg hjk]
  have hfk : (m.free p k).free_list k = m.free_list k ++ [p] := by
    rw [free_free_list m p k k hwf hk, if_pos rfl]
  have hfu : (m.free p k).used_size = m.used_size := (free_fields m p k).1
  have hsim : ∀ i, i ≠ k → (m.free p k).free_list i = m.free_list i := by
    intro i hi
    rw [free_free_list m p k i hwf hk, if_neg hi]
  refine ⟨⟨?_, hfj, ?_⟩, ⟨hfk, ?_, ?_, ?_⟩, ?_, ?_⟩
  · rw [alloc_fst, alloc_fst, hfj, hfu]
  · intro calls hcalls
    exact (run_other_orders k calls _ _ (free_wf m p k hwf) hwf hfu hsim hcalls).1
  · intro calls hcalls
    have hrun := run_other_orders k calls _ _ (free_wf m p k hwf) hwf hfu hsim hcalls
    rw [hfk] at hrun
    refine ⟨hrun.2.1, ?_⟩
    intro hp
    rw [alloc_fst, hrun.2.1]
    have hlast : (m.free_list k ++ [p]).getLastD NULLPOINTER = p := by
      simp [List.getLastD_eq_getLast?]
    rw [hlast, if_neg hp]
  · rw [alloc_free_list, if_neg (fun h => hjk h.symm)]
  · intro hhit
    refine ⟨?_, ?_, ?_⟩
    · rw [alloc_fst, if_neg hhit]
    · rw [alloc_free_list, if_pos rfl]
    · rw [alloc_used, if_neg hhit]
  · intro hmiss
    have hbs := block_size_eq j hj
    have hu : (m.alloc j).2.used_size = (m.used_size + 2 ^ j) % 2 ^ 64 := by
      rw [alloc_used, if_pos hmiss, hbs]
    refine ⟨?_, hu, ?_⟩
    · rw [alloc_fst, if_pos hmiss]
    · intro hlt
      rw [hu, Nat.mod_eq_of_lt hlt]
  · have hinv : ∀ c : BlockManager, c = BlockManager.ctor capacity →
        BMCall.free p k ∈ ops → (p, j) ∉ (c.run ops).2 := by
      intro c hc hfree hout
      have hu : c.used_size = 2 ^ 20 := by rw [hc, ctor_eq]
      have hf : c.free_blocks = List.replicate LARGE_BLOCK_THRESHOLD [] := by
        rw [hc, ctor_eq]
      have hl : c.large_free_blocks = List.replicate MAX_ORDER [] := by rw [hc, ctor_eq]
      have hn : c.null_holder = 0 := by rw [hc, ctor_eq]
      have hlegal1 : c.legal [(c.null_holder, LARGE_BLOCK_THRESHOLD)] ops := by
        rw [hc]; exact hlegal
      rw [hn] at hlegal1
      have h20 : (2 : Nat) ^ LARGE_BLOCK_THRESHOLD = 2 ^ 20 := rfl
      obtain ⟨u1, u2⟩ := run_orders_unique ops c [(0, LARGE_BLOCK_THRESHOLD)]
        (by rw [hu]; exact hsum)
        (by
          intro i l hi q hq
          rw [hf] at hi
          exact (mem_replicate_nil_elim hi hq).elim)
        (by
          intro i l hi q hq
          rw [hl] at hi
          exact (mem_replicate_nil_elim hi hq).elim)
        (by
          intro q hq
          rw [List.mem_singleton] at hq
          subst hq
          simp only [h20, hu]
          omega)
        (by
          intro a haa b hbb _
          rw [List.mem_singleton] at haa hbb
          rw [haa, hbb])
        hlegal1
      have := u1 (p, j) (List.mem_append_left _ hout) (p, k) (u2 p k hfree) rfl
      exact hjk this
    exact hinv _ rfl

/-- Witness of C22 (amended): `alloc(6); alloc(12); free(2^20, 6); alloc(6)` on a fresh
manager; `free(2^20, 6)` is among the calls and no `alloc(12)` returns `2^20`. -/
theorem size_classes_isolated_witness :
    (BlockManager.ctor (2 ^ 40)).WF ∧
      BMCall.free (2 ^ 20) 6 ∈
        [BMCall.alloc 6, BMCall.alloc 12, BMCall.free (2 ^ 20) 6, BMCall.alloc 6] ∧
      (2 ^ 20, 12) ∉ ((BlockManager.ctor (2 ^ 40)).run
        [BMCall.alloc 6, BMCall.alloc 12, BMCall.free (2 ^ 20) 6, BMCall.alloc 6]).2 :=
  ⟨ctor_wf_concrete, by decide,
   (size_classes_isolated (BlockManager.ctor (2 ^ 40)) 12 6 (2 ^ 20) (2 ^ 40)
      [BMCall.alloc 6, BMCall.alloc 12, BMCall.free (2 ^ 20) 6, BMCall.alloc 6]
      ctor_wf_concrete (by decide) (by decide) (by decide) (by decide) (by decide)).2.2.2
      (by decide)⟩

/-! ### Block manager: live blocks -/

theorem blocks_disjoint_symm {a b : Nat × Nat} (h : blocks_disjoint a b) :
    blocks_disjoint b a := Or.symm h

theorem pairs_from_push (fb : List (List Nat)) :
    ∀ (s k p : Nat), k < fb.length →
      (pairs_from s (BlockManager.push fb k p)).Perm ((p, s + k) :: pairs_from s fb) := by
  induction fb with
  | nil => intro s k p hk; simp at hk
  | cons l rest ih =>
    intro s k p hk
    cases k with
    | zero =>
      simp only [BlockManager.push, List.getD_cons_zero, List.set_cons_zero, pairs_from,
        List.map_append, List.map_cons, List.map_nil, Nat.add_zero, List.append_assoc,
        List.singleton_append]
      exact List.perm_middle
    | succ k =>
      have hk1 : k < rest.length := by simpa using hk
      have := ih (s + 1) k p hk1
      simp only [BlockManager.push, List.getD_cons_succ, List.set_cons_succ, pairs_from]
      simp only [BlockManager.push] at this
      have h2 : s + 1 + k = s + (k + 1) := by omega
      rw [h2] at this
      exact (List.Perm.append_left _ this).trans List.perm_middle

theorem pairs_from_pop_sublist (fb : List (List Nat)) :
    ∀ (s k : Nat), (pairs_from s (BlockManager.pop fb k).2).Sublist (pairs_from s fb) := by
  induction fb with
  | nil => intro s k; simp [BlockManager.pop]
  | cons l rest ih =>
    intro s k
    unfold BlockManager.pop
    split
    · cases k with
      | zero =>
        simp only [List.getD_cons_zero, List.set_cons_zero, pairs_from]
        exact List.Sublist.append_right ((List.dropLast_sublist l).map _) _
      | succ k =>
        rename_i hlen
        simp only [List.getD_cons_succ, List.set_cons_succ, pairs_from]
        have := ih (s + 1) k
        unfold BlockManager.pop at this
        simp only [List.getD_cons_succ] at hlen
        rw [if_pos hlen] at this
        exact List.Sublist.append_left this _
    · exact List.Sublist.refl _

theorem pairs_from_pop_perm (fb : List (List Nat)) :
    ∀ (s k : Nat), (BlockManager.pop fb k).1 ≠ NULLPOINTER →
      (pairs_from s fb).Perm (((BlockManager.pop fb k).1, s + k)
        :: pairs_from s (BlockManager.pop fb k).2) := by
  induction fb with
  | nil => intro s k h; simp [BlockManager.pop] at h
  | cons l rest ih =>
    intro s k h
    cases k with
    | zero =>
      unfold BlockManager.pop at h ⊢
      simp only [List.getD_cons_zero] at h ⊢
      by_cases hlen : l.length ≠ 0
      · simp only [hlen, if_true, ne_eq, not_false_eq_true] at h ⊢
        have hne : l ≠ [] := by intro h0; rw [h0] at hlen; simp at hlen
        simp only [List.set_cons_zero, pairs_from, Nat.add_zero]
        have hl : l = l.dropLast ++ [l.getLastD NULLPOINTER] := by
          rw [List.getLastD_eq_getLast?, List.getLast?_eq_getLast _ hne]
          exact (List.dropLast_append_getLast hne).symm
        conv_lhs => rw [hl]
        simp only [List.map_append, List.map_cons, List.map_nil, List.append_assoc,
          List.singleton_append]
        exact List.perm_middle
      · simp only [hlen, if_false] at h
        exact absurd rfl h
    | succ k =>
      have hpop : BlockManager.pop (l :: rest) (k + 1) =
          ((BlockManager.pop rest k).1, l :: (BlockManager.pop rest k).2) := by
        unfold BlockManager.pop
        simp only [List.getD_cons_succ]
        split <;> simp
      rw [hpop] at h ⊢
      simp only [pairs_from]
      have := ih (s + 1) k h
      have h2 : s + 1 + k = s + (k + 1) := by omega
      rw [h2] at this
      exact (List.Perm.append_left _ this).trans List.perm_middle

theorem perm_cons_remove_block (a : Nat × Nat) (l : List (Nat × Nat)) (h : a ∈ l) :
    l.Perm (a :: remove_block a l) := by
  induction l with
  | nil => simp at h
  | cons x rest ih =>
    unfold remove_block
    by_cases hx : x = a
    · rw [if_pos hx, hx]
    · rw [if_neg hx]
      have hr : a ∈ rest := by
        rcases List.mem_cons.mp h with h | h
        · exact absurd h.symm hx
        · exact h
      exact ((ih hr).cons x).trans (List.Perm.swap a x _)

theorem mem_of_mem_remove_block (a x : Nat × Nat) (l : List (Nat × Nat))
    (h : x ∈ remove_block a l) : x ∈ l := by
  induction l with
  | nil => simp [remove_block] at h
  | cons y rest ih =>
    unfold remove_block at h
    split at h
    · exact List.mem_cons_of_mem _ h
    · rcases List.mem_cons.mp h with h | h
      · rw [h]; exact List.mem_cons_self _ _
      · exact List.mem_cons_of_mem _ (ih h)

theorem alloc_all_blocks (m : BlockManager) (live : List (Nat × Nat)) (order : Nat)
    (ho : order < MAX_ORDER) :
    ((m.alloc order).2.used_size = m.used_size ∧
      (m.all_blocks live).Perm
        ((m.alloc order).2.all_blocks (((m.alloc order).1, order) :: live))) ∨
    ((m.alloc order).1 = m.used_size ∧
      (m.alloc order).2.used_size = (m.used_size + 2 ^ order) % 2 ^ 64 ∧
      ((m.alloc order).2.all_blocks live).Sublist (m.all_blocks live)) := by
  have hfl := alloc_free_lists m order
  rcases alloc_cases m order ho with ⟨h1, h2, h3⟩ | ⟨h1, h2⟩
  · left
    refine ⟨h2, ?_⟩
    unfold BlockManager.all_blocks
    rw [hfl.1, hfl.2]
    by_cases hs : order < LARGE_BLOCK_THRESHOLD
    · simp only [hs, if_true] at h3 ⊢
      rw [h3] at h1 ⊢
      have hp := pairs_from_pop_perm m.free_blocks 0 order h1
      rw [Nat.zero_add] at hp
      exact ((hp.append_right _).append_left live).trans List.perm_middle
    · simp only [hs, if_false] at h3 ⊢
      rw [h3] at h1 ⊢
      have hp := pairs_from_pop_perm m.large_free_blocks 0 order h1
      rw [Nat.zero_add] at hp
      refine ((hp.append_left _).append_left live).trans ?_
      refine (List.Perm.append_left live List.perm_middle).trans ?_
      exact List.perm_middle
  · right
    refine ⟨h1, h2, ?_⟩
    unfold BlockManager.all_blocks
    rw [hfl.1, hfl.2]
    refine List.Sublist.append (List.Sublist.refl _) ?_
    split
    · exact List.Sublist.append (pairs_from_pop_sublist _ _ _) (List.Sublist.refl _)
    · exact List.Sublist.append (List.Sublist.refl _) (pairs_from_pop_sublist _ _ _)

theorem free_all_blocks (m : BlockManager) (live : List (Nat × Nat)) (block order : Nat)
    (hwf : m.WF) (ho : order < MAX_ORDER) (hmem : (block, order) ∈ live) :
    (m.all_blocks live).Perm ((m.free block order).all_blocks (remove_block (block, order) live)) := by
  have hl := perm_cons_remove_block _ _ hmem
  unfold BlockManager.all_blocks BlockManager.free
  by_cases hs : order < LARGE_BLOCK_THRESHOLD
  · simp only [hs, if_true]
    have hp := pairs_from_push m.free_blocks 0 order block (by rw [hwf.1]; exact hs)
    rw [Nat.zero_add] at hp
    refine (hl.append_right _).trans ?_
    refine List.Perm.trans ?_ (((hp.append_right _).append_left _).symm)
    simp only [List.cons_append]
    exact List.perm_middle.symm
  · simp only [hs, if_false]
    have hp := pairs_from_push m.large_free_blocks 0 order block (by rw [hwf.2]; exact ho)
    rw [Nat.zero_add] at hp
    refine (hl.append_right _).trans ?_
    refine List.Perm.trans ?_ (((hp.append_left _).append_left _).symm)
    refine List.Perm.trans ?_ (List.Perm.append_left _ List.perm_middle).symm
    simp only [List.cons_append]
    exact List.perm_middle.symm

/-- While the cursor does not wrap: the live blocks and the blocks in the free lists are
pairwise disjoint and end at or below the cursor. -/
theorem run_live_disjoint (ops : List BMCall) :
    ∀ (m : BlockManager) (live : List (Nat × Nat)),
      m.WF →
      m.used_size + BMCall.requested ops < 2 ^ 64 →
      (∀ x ∈ live, x.2 < MAX_ORDER) →
      (m.all_blocks live).Pairwise blocks_disjoint →
      (∀ x ∈ m.all_blocks live, x.1 + 2 ^ x.2 ≤ m.used_size) →
      m.frees_live live ops →
      ((m.run_live live ops).2).Pairwise blocks_disjoint := by
  induction ops with
  | nil =>
    intro m live _ _ _ hpw _ _
    simp only [BlockManager.run_live]
    unfold BlockManager.all_blocks at hpw
    exact hpw.sublist (List.sublist_append_left _ _)
  | cons op rest ih =>
    intro m live hwf hsum hord hpw hend hfree
    cases op with
    | alloc order =>
      simp only [BlockManager.frees_live] at hfree
      simp only [BMCall.requested] at hsum
      obtain ⟨ho, hfree⟩ := hfree
      simp only [BlockManager.run_live]
      have hord1 : ∀ x ∈ ((m.alloc order).1, order) :: live, x.2 < MAX_ORDER := by
        intro x hx
        rcases List.mem_cons.mp hx with hx | hx
        · subst hx; exact ho
        · exact hord x hx
      have hpow : 0 < 2 ^ order := Nat.pow_pos (by norm_num)
      rcases alloc_all_blocks m live order ho with ⟨h2, hperm⟩ | ⟨h1, h2, hsub⟩
      · refine ih _ _ (alloc_wf m order hwf) (by rw [h2]; omega) hord1
          ((hperm.pairwise_iff blocks_disjoint_symm).mp hpw) ?_ hfree
        intro x hx
        rw [h2]
        exact hend x (hperm.mem_iff.mpr hx)
      · have hnw : m.used_size + 2 ^ order < 2 ^ 64 := by omega
        rw [Nat.mod_eq_of_lt hnw] at h2
        have hall : (m.alloc order).2.all_blocks (((m.alloc order).1, order) :: live)
            = ((m.alloc order).1, order) :: (m.alloc order).2.all_blocks live := rfl
        refine ih _ _ (alloc_wf m order hwf) (by rw [h2]; omega) hord1 ?_ ?_ hfree
        · rw [hall, List.pairwise_cons]
          refine ⟨?_, hpw.sublist hsub⟩
          intro x hx
          right
          rw [h1]
          exact hend x (hsub.subset hx)
        · intro x hx
          rw [hall] at hx
          rcases List.mem_cons.mp hx with hx | hx
          · subst hx; rw [h1, h2]
          · rw [h2]
            exact le_trans (hend x (hsub.subset hx)) (by omega)
    | free block order =>
      simp only [BlockManager.frees_live] at hfree
      simp only [BMCall.requested] at hsum
      obtain ⟨hmem, hfree⟩ := hfree
      simp only [BlockManager.run_live]
      have ho : order < MAX_ORDER := hord (block, order) hmem
      have hperm := free_all_blocks m live block order hwf ho hmem
      have hff := free_fields m block order
      refine ih _ _ (free_wf m block order hwf) (by rw [hff.1]; exact hsum) ?_
        ((hperm.pairwise_iff blocks_disjoint_symm).mp hpw) ?_ hfree
      · intro x hx
        exact hord x (mem_of_mem_remove_block _ _ _ hx)
      · intro x hx
        rw [hff.1]
        exact hend x (hperm.mem_iff.mpr hx)

/-- C23 as stated fails: the calls `alloc(63); alloc(63); alloc(6)` on a fresh manager free
nothing; the cursor goes `2^20`, `2^63 + 2^20`, then `2^64 + 2^20` which wraps to `2^20`, and
`alloc(6)` returns `2^20`, the offset of the first block, which is still live. -/
theorem live_blocks_overlap_after_wrap :
    (BlockManager.ctor (2 ^ 40)).frees_live
        [((BlockManager.ctor (2 ^ 40)).null_holder, LARGE_BLOCK_THRESHOLD)]
        [BMCall.alloc 63, BMCall.alloc 63, BMCall.alloc 6] ∧
      ((BlockManager.ctor (2 ^ 40)).run_live
        [((BlockManager.ctor (2 ^ 40)).null_holder, LARGE_BLOCK_THRESHOLD)]
        [BMCall.alloc 63, BMCall.alloc 63, BMCall.alloc 6]).2
        = [(2 ^ 20, 6), (2 ^ 63 + 2 ^ 20, 63), (2 ^ 20, 63), (0, 20)] ∧
      ¬ blocks_disjoint (2 ^ 20, 6) (2 ^ 20, 63) ∧
      ¬ List.Pairwise blocks_disjoint ((BlockManager.ctor (2 ^ 40)).run_live
        [((BlockManager.ctor (2 ^ 40)).null_holder, LARGE_BLOCK_THRESHOLD)]
        [BMCall.alloc 63, BMCall.alloc 63, BMCall.alloc 6]).2 := by
  refine ⟨by decide!, by decide!, by decide!, by decide!⟩

/-- C23, amended. On a freshly constructed manager, for every sequence of `alloc` and `free`
calls in which each `free` returns a currently live block exactly once with the order it was
allocated with, and whose requested block sizes, together with the null holder's `2^20`
bytes, add up to less than `2^64`, the byte ranges `[p, p + 2^order)` of all blocks that are
allocated and not yet freed, the null-holder block included, are pairwise disjoint. -/
theorem live_blocks_never_overlap (capacity : Nat) (ops : List BMCall)
    (hfree : (BlockManager.ctor capacity).frees_live
      [((BlockManager.ctor capacity).null_holder, LARGE_BLOCK_THRESHOLD)] ops)
    (hsum : 2 ^ 20 + BMCall.requested ops < 2 ^ 64) :
    List.Pairwise blocks_disjoint ((BlockManager.ctor capacity).run_live
      [((BlockManager.ctor capacity).null_holder, LARGE_BLOCK_THRESHOLD)] ops).2 := by
  have hinv : ∀ m : BlockManager, m = BlockManager.ctor capacity →
      List.Pairwise blocks_disjoint
        (m.run_live [(m.null_holder, LARGE_BLOCK_THRESHOLD)] ops).2 := by
    intro m hm
    have hu : m.used_size = 2 ^ 20 := by rw [hm, ctor_eq]
    have hf : m.free_blocks = List.replicate LARGE_BLOCK_THRESHOLD [] := by
      rw [hm, ctor_eq]
    have hl : m.large_free_blocks = List.replicate MAX_ORDER [] := by rw [hm, ctor_eq]
    have hn : m.null_holder = 0 := by rw [hm, ctor_eq]
    have hfree1 : m.frees_live [(m.null_holder, LARGE_BLOCK_THRESHOLD)] ops := by
      rw [hm]; exact hfree
    have hnil : ∀ (n s : Nat), pairs_from s (List.replicate n ([] : List Nat)) = [] := by
      intro n
      induction n with
      | zero => intro s; rfl
      | succ n ih => intro s; simp only [List.replicate_succ, pairs_from, ih]; rfl
    have hall : m.all_blocks [(m.null_holder, LARGE_BLOCK_THRESHOLD)]
        = [(0, LARGE_BLOCK_THRESHOLD)] := by
      unfold BlockManager.all_blocks
      rw [hf, hl, hnil, hnil, hn]
      rfl
    have h20 : (2 : Nat) ^ LARGE_BLOCK_THRESHOLD = 2 ^ 20 := rfl
    refine run_live_disjoint ops m _ ⟨by rw [hf]; simp, by rw [hl]; simp⟩
      (by rw [hu]; exact hsum) ?_ ?_ ?_ hfree1
    · intro x hx
      rw [List.mem_singleton] at hx
      rw [hx]
      show LARGE_BLOCK_THRESHOLD < MAX_ORDER
      decide
    · rw [hall]; exact List.pairwise_singleton _ _
    · intro x hx
      rw [hall, List.mem_singleton] at hx
      subst hx
      simp only [h20, hu]
      omega
  exact hinv _ rfl

/-- Witness of C23 (amended): after `alloc(6); alloc(12); free(2^20, 6); alloc(6)` on a
fresh manager the live blocks `(2^20, 6)`, `(2^20 + 64, 12)` and the null holder `(0, 20)`
are pairwise disjoint. -/
theorem live_blocks_never_overlap_witness :
    ((BlockManager.ctor (2 ^ 40)).run_live
        [((BlockManager.ctor (2 ^ 40)).null_holder, LARGE_BLOCK_THRESHOLD)]
        [BMCall.alloc 6, BMCall.alloc 12, BMCall.free (2 ^ 20) 6, BMCall.alloc 6]).2
        = [(2 ^ 20, 6), (2 ^ 20 + 64, 12), (0, 20)] ∧
      List.Pairwise blocks_disjoint ((BlockManager.ctor (2 ^ 40)).run_live
        [((BlockManager.ctor (2 ^ 40)).null_holder, LARGE_BLOCK_THRESHOLD)]
        [BMCall.alloc 6, BMCall.alloc 12, BMCall.free (2 ^ 20) 6, BMCall.alloc 6]).2 :=
  ⟨by decide!,
   live_blocks_never_overlap (2 ^ 40)
      [BMCall.alloc 6, BMCall.alloc 12, BMCall.free (2 ^ 20) 6, BMCall.alloc 6]
      (by decide!) (by decide)⟩

/-! ### Edge iterator: the entry slots read -/

theorem ctor_loop_fwd_logged_fst (cmp : Int → Int → Int → Int) (em : Int → EdgeEntry) :
    ∀ (fuel : Nat) (it : EdgeIterator),
      (EdgeIterator.ctor_loop_fwd_logged cmp em fuel it).map Prod.fst
        = EdgeIterator.ctor_loop_fwd cmp em fuel it := by
  intro fuel
  induction fuel with
  | zero =>
    intro it
    unfold EdgeIterator.ctor_loop_fwd_logged EdgeIterator.ctor_loop_fwd
    split <;> [split; skip] <;> rfl
  | succ fuel ih =>
    intro it
    unfold EdgeIterator.ctor_loop_fwd_logged EdgeIterator.ctor_loop_fwd
    split <;> [split; skip]
    · rfl
    · rw [← ih, Option.map_map]; rfl
    · rfl

theorem ctor_loop_rev_logged_fst (cmp : Int → Int → Int → Int) (em : Int → EdgeEntry) :
    ∀ (fuel : Nat) (it : EdgeIterator),
      (EdgeIterator.ctor_loop_rev_logged cmp em fuel it).map Prod.fst
        = EdgeIterator.ctor_loop_rev cmp em fuel it := by
  intro fuel
  induction fuel with
  | zero =>
    intro it
    unfold EdgeIterator.ctor_loop_rev_logged EdgeIterator.ctor_loop_rev
    split <;> [split; skip] <;> rfl
  | succ fuel ih =>
    intro it
    unfold EdgeIterator.ctor_loop_rev_logged EdgeIterator.ctor_loop_rev
    split <;> [split; skip]
    · rfl
    · rw [← ih, Option.map_map]; rfl
    · rfl

theorem next_loop_fwd_logged_fst (cmp : Int → Int → Int → Int) (em : Int → EdgeEntry) :
    ∀ (fuel : Nat) (it : EdgeIterator),
      (EdgeIterator.next_loop_fwd_logged cmp em fuel it).map Prod.fst
        = EdgeIterator.next_loop_fwd cmp em fuel it := by
  intro fuel
  induction fuel with
  | zero =>
    intro it
    unfold EdgeIterator.next_loop_fwd_logged EdgeIterator.next_loop_fwd
    split <;> rfl
  | succ fuel ih =>
    intro it
    unfold EdgeIterator.next_loop_fwd_logged EdgeIterator.next_loop_fwd
    split
    · dsimp only
      split
      · rfl
      · rw [← ih, Option.map_map]; rfl
    · rfl

theorem next_loop_rev_logged_fst (cmp : Int → Int → Int → Int) (em : Int → EdgeEntry) :
    ∀ (fuel : Nat) (it : EdgeIterator),
      (EdgeIterator.next_loop_rev_logged cmp em fuel it).map Prod.fst
        = EdgeIterator.next_loop_rev cmp em fuel it := by
  intro fuel
  induction fuel with
  | zero =>
    intro it
    unfold EdgeIterator.next_loop_rev_logged EdgeIterator.next_loop_rev
    split <;> rfl
  | succ fuel ih =>
    intro it
    unfold EdgeIterator.next_loop_rev_logged EdgeIterator.next_loop_rev
    split
    · dsimp only
      split
      · rfl
      · rw [← ih, Option.map_map]; rfl
    · rfl

/-- The logged constructor and the logged `next` compute the iterator of the plain ones. -/
theorem logged_fst (cmp : Int → Int → Int → Int) (em : Int → EdgeEntry) :
    (∀ (entries data : Int) (n dl : Nat) (R T : Int) (reverse : Bool),
      (EdgeIterator.ctor_logged cmp em entries data n dl R T reverse).map Prod.fst
        = EdgeIterator.ctor cmp em entries data n dl R T reverse) ∧
    ∀ it : EdgeIterator, (it.next_logged cmp em).map Prod.fst = it.next cmp em := by
  constructor
  · intro entries data n dl R T reverse
    unfold EdgeIterator.ctor_logged EdgeIterator.ctor
    cases reverse
    · exact ctor_loop_fwd_logged_fst cmp em _ _
    · exact ctor_loop_rev_logged_fst cmp em _ _
  · intro it
    unfold EdgeIterator.next_logged EdgeIterator.next
    split
    · exact next_loop_fwd_logged_fst cmp em _ _
    · exact next_loop_rev_logged_fst cmp em _ _

theorem mem_published_slots (E : Int) (n : Nat) (p : Int) :
    p ∈ published_slots E n ↔ ∃ i : Nat, i < n ∧ p = E - 24 * ((i : Int) + 1) := by
  unfold published_slots
  rw [List.mem_map]
  have h24 : ((sizeof_EdgeEntry : Nat) : Int) = 24 := rfl
  constructor
  · rintro ⟨i, hi, hp⟩
    exact ⟨i, List.mem_range.mp hi, by rw [← hp, h24]⟩
  · rintro ⟨i, hi, hp⟩
    exact ⟨i, List.mem_range.mpr hi, by rw [hp, h24]⟩

/-- The slot at `entries` and the slot below the oldest published one are not published
slots. -/
theorem not_published (E : Int) (n : Nat) :
    E ∉ published_slots E n ∧ E - 24 * ((n : Int) + 1) ∉ published_slots E n := by
  constructor
  · intro h
    obtain ⟨i, _, hp⟩ := (mem_published_slots E n E).mp h
    omega
  · intro h
    obtain ⟨i, hi, hp⟩ := (mem_published_slots E n _).mp h
    omega

/-- The constructor loop for `reverse = false` returns, and every slot it reads is a
published one: it tests `valid()` before each read. -/
theorem ctor_fwd_reads_inside (cmp : Int → Int → Int → Int) (em : Int → EdgeEntry) (E D : Int)
    (n dl : Nat) (R T : Int) :
    ∀ (j fuel : Nat) (dc : Int), j ≤ fuel → j ≤ n →
      ∃ r, EdgeIterator.ctor_loop_fwd_logged cmp em fuel
          (EdgeIterator.fwd_at E D n dl R T j dc) = some r ∧
        ∀ p ∈ r.2, p ∈ published_slots E n := by
  intro j
  induction j with
  | zero =>
    intro fuel dc _ _
    refine ⟨(EdgeIterator.fwd_at E D n dl R T 0 dc, []), ?_, by simp⟩
    cases fuel <;> simp [EdgeIterator.ctor_loop_fwd_logged, fwd_at_valid]
  | succ j ih =>
    intro fuel dc hf hn
    obtain ⟨fuel, rfl⟩ : ∃ f, fuel = f + 1 := ⟨fuel - 1, by omega⟩
    have hv : (EdgeIterator.fwd_at E D n dl R T (j + 1) dc).entries_cursor
        = E - 24 * ((j : Int) + 1) := by
      simp [EdgeIterator.fwd_at]
    have hin : E - 24 * ((j : Int) + 1) ∈ published_slots E n :=
      (mem_published_slots E n _).mpr ⟨j, by omega, rfl⟩
    rw [EdgeIterator.ctor_loop_fwd_logged, fwd_at_valid, hv, fwd_at_step]
    simp only [ne_eq, Nat.add_one_ne_zero, not_false_eq_true, decide_True, if_true]
    split
    · exact ⟨_, rfl, by simp [hin]⟩
    · obtain ⟨r, hr, hp⟩ := ih fuel (dc - (em (E - 24 * ((j : Int) + 1))).length)
        (by omega) (by omega)
      rw [hr]
      refine ⟨_, rfl, ?_⟩
      intro p hpm
      simp only [Option.map_some', List.mem_cons] at hpm
      rcases hpm with h | h | h
      · rw [h]; exact hin
      · rw [h]; exact hin
      · exact hp p h

/-- The constructor loop for `reverse = true` returns, and every slot it reads is a
published one. -/
theorem ctor_rev_reads_inside (cmp : Int → Int → Int → Int) (em : Int → EdgeEntry) (E D : Int)
    (n dl : Nat) (R T : Int) :
    ∀ (j fuel : Nat) (dc : Int), j ≤ fuel → j ≤ n →
      ∃ r, EdgeIterator.ctor_loop_rev_logged cmp em fuel
          (EdgeIterator.rev_at E D n dl R T j dc) = some r ∧
        ∀ p ∈ r.2, p ∈ published_slots E n := by
  intro j
  induction j with
  | zero =>
    intro fuel dc _ _
    refine ⟨(EdgeIterator.rev_at E D n dl R T 0 dc, []), ?_, by simp⟩
    cases fuel <;> simp [EdgeIterator.ctor_loop_rev_logged, rev_at_valid]
  | succ j ih =>
    intro fuel dc hf hn
    obtain ⟨fuel, rfl⟩ : ∃ f, fuel = f + 1 := ⟨fuel - 1, by omega⟩
    have hin : E - 24 * ((n : Int) - j) ∈ published_slots E n :=
      (mem_published_slots E n _).mpr ⟨n - j - 1, by omega, by omega⟩
    rw [EdgeIterator.ctor_loop_rev_logged, rev_at_valid, rev_at_slot, rev_at_step]
    simp only [ne_eq, Nat.add_one_ne_zero, not_false_eq_true, decide_True, if_true]
    split
    · exact ⟨_, rfl, by simp [hin]⟩
    · obtain ⟨r, hr, hp⟩ := ih fuel (dc + (em (E - 24 * ((n : Int) - j))).length)
        (by omega) (by omega)
      rw [hr]
      refine ⟨_, rfl, ?_⟩
      intro p hpm
      simp only [Option.map_some', List.mem_cons] at hpm
      rcases hpm with h | h | h
      · rw [h]; exact hin
      · rw [h]; exact hin
      · exact hp p h

/-- The constructor returns and reads published slots only, in either direction. -/
theorem ctor_reads_inside (cmp : Int → Int → Int → Int) (em : Int → EdgeEntry) (E D : Int)
    (n dl : Nat) (R T : Int) (reverse : Bool) :
    ∃ r, EdgeIterator.ctor_logged cmp em E D n dl R T reverse = some r ∧
      ∀ p ∈ r.2, p ∈ published_slots E n := by
  unfold EdgeIterator.ctor_logged
  cases reverse
  · simp only [Bool.not_false, if_true]
    have h0 : EdgeIterator.mk E D n dl R T false (E - (↑sizeof_EdgeEntry : Int) * ↑n) (D + ↑dl)
        = EdgeIterator.fwd_at E D n dl R T n (D + dl) := by
      simp [EdgeIterator.fwd_at, sizeof_EdgeEntry]
    rw [h0]
    exact ctor_fwd_reads_inside cmp em E D n dl R T n n _ (le_refl n) (le_refl n)
  · simp only [Bool.not_true, Bool.false_eq_true, if_false]
    have h0 : EdgeIterator.mk E D n dl R T true E D
        = EdgeIterator.rev_at E D n dl R T n D := by
      simp [EdgeIterator.rev_at]
    rw [h0]
    exact ctor_rev_reads_inside cmp em E D n dl R T n n _ (le_refl n) (le_refl n)

/-- The call of `next` on the iterator that stands on the last entry of a scan with
`reverse = false` reads the slot at `entries`. -/
theorem next_fwd_reads_end (cmp : Int → Int → Int → Int) (em : Int → EdgeEntry) (E D : Int)
    (n dl : Nat) (R T : Int) (dc : Int) :
    (EdgeIterator.fwd_at E D (n + 1) dl R T 1 dc).next_logged cmp em =
      some (EdgeIterator.fwd_at E D (n + 1) dl R T 0 (dc - (em (E - 24)).length),
        [E - 24, E]) := by
  have hr : (EdgeIterator.fwd_at E D (n + 1) dl R T 1 dc).reverse = false := rfl
  have hn : (EdgeIterator.fwd_at E D (n + 1) dl R T 1 dc).num_entries = n + 1 := rfl
  have hv : (EdgeIterator.fwd_at E D (n + 1) dl R T 1 dc).entries_cursor = E - 24 := by
    simp [EdgeIterator.fwd_at]
  have hv0 : ∀ dc1, (EdgeIterator.fwd_at E D (n + 1) dl R T 0 dc1).entries_cursor = E := by
    intro dc1; simp [EdgeIterator.fwd_at]
  have hstep := fwd_at_step em E D (n + 1) dl R T 0 dc
  simp only [Nat.zero_add, Nat.cast_zero, zero_add, mul_one] at hstep
  unfold EdgeIterator.next_logged
  rw [hr, hn]
  simp only [Bool.not_false, if_true]
  rw [EdgeIterator.next_loop_fwd_logged, fwd_at_valid]
  simp only [ne_eq, Nat.add_one_ne_zero, not_false_eq_true, decide_True, if_true, hstep, hv, hv0]
  split
  · rfl
  · cases n <;> simp [EdgeIterator.next_loop_fwd_logged, fwd_at_valid]

/-- The call of `next` on the iterator that stands on the last entry of a scan with
`reverse = true` reads the slot below the `n` published ones. -/
theorem next_rev_reads_below (cmp : Int → Int → Int → Int) (em : Int → EdgeEntry) (E D : Int)
    (n dl : Nat) (R T : Int) (dc : Int) :
    (EdgeIterator.rev_at E D (n + 1) dl R T 1 dc).next_logged cmp em =
      some (EdgeIterator.rev_at E D (n + 1) dl R T 0
          (dc + (em (E - 24 * (((n + 1 : Nat) : Int)))).length),
        [E - 24 * (((n + 1 : Nat) : Int)), E - 24 * (((n + 1 : Nat) : Int) + 1)]) := by
  have hr : (EdgeIterator.rev_at E D (n + 1) dl R T 1 dc).reverse = true := rfl
  have hn : (EdgeIterator.rev_at E D (n + 1) dl R T 1 dc).num_entries = n + 1 := rfl
  have hv : (EdgeIterator.rev_at E D (n + 1) dl R T 1 dc).entries_cursor - ↑sizeof_EdgeEntry
      = E - 24 * (((n + 1 : Nat) : Int)) := by
    have := rev_at_slot E D (n + 1) dl R T 0 dc
    simpa using this
  have hv0 : ∀ dc1, (EdgeIterator.rev_at E D (n + 1) dl R T 0 dc1).entries_cursor
      - ↑sizeof_EdgeEntry = E - 24 * (((n + 1 : Nat) : Int) + 1) := by
    intro dc1
    simp only [EdgeIterator.rev_at, sizeof_EdgeEntry, Nat.cast_add, Nat.cast_one,
      Nat.cast_ofNat, Nat.cast_zero]
    omega
  have hstep := rev_at_step em E D (n + 1) dl R T 0 dc
  simp only [Nat.zero_add, Nat.cast_zero, sub_zero] at hstep
  unfold EdgeIterator.next_logged
  rw [hr, hn]
  simp only [Bool.not_true, Bool.false_eq_true, if_false]
  rw [EdgeIterator.next_loop_rev_logged, rev_at_valid]
  simp only [ne_eq, Nat.add_one_ne_zero, not_false_eq_true, decide_True, if_true, hstep, hv, hv0]
  split
  · rfl
  · cases n <;> simp [EdgeIterator.next_loop_rev_logged, rev_at_valid]

/-- C24 fails on the code. On the sample block (order 8, three published entries in the
slots 232, 208, 184 below `get_entries() = 256`, the block size), read at epoch 5: the
constructor reads published slots only, but the last call of `next` of a scan with
`reverse = false` reads the timestamps of the slot at 256, the first byte after the block,
and the last call of a scan with `reverse = true` reads the slot at 160, below the published
ones. In general, `next` on the iterator standing on the last entry of its direction reads
the slot at `entries` (`reverse = false`) or the slot `entries - (n + 1)`
(`reverse = true`): the loop of `next` moves the cursor and evaluates the visibility test
before it tests `valid()` again. The constructor, which tests `valid()` before each read,
reads published slots only. -/
theorem next_reads_beyond_published_slots :
    (sample_block.get_entries = 256 ∧ sample_block.num_entries = 3 ∧
      published_slots 256 3 = [232, 208, 184] ∧
      EdgeIterator.scan_logged cmp_timestamp sample_block.entry_mem sample_block.get_entries
          sample_block.get_data sample_block.num_entries sample_block.data_length 5 0 false
        = some [[184], [184, 208, 208, 232], [232, 256]] ∧
      EdgeIterator.scan_logged cmp_timestamp sample_block.entry_mem sample_block.get_entries
          sample_block.get_data sample_block.num_entries sample_block.data_length 5 0 true
        = some [[232], [232, 208, 208, 184], [184, 160]] ∧
      (256 : Int) ∉ published_slots 256 3 ∧ (160 : Int) ∉ published_slots 256 3) ∧
    ∀ (cmp : Int → Int → Int → Int) (em : Int → EdgeEntry) (E D : Int) (n dl : Nat)
      (R T : Int) (dc : Int),
      ((EdgeIterator.fwd_at E D (n + 1) dl R T 1 dc).valid = true ∧
        ∃ it, (EdgeIterator.fwd_at E D (n + 1) dl R T 1 dc).next_logged cmp em
            = some (it, [E - 24, E]) ∧
          E ∉ published_slots E (n + 1)) ∧
      ((EdgeIterator.rev_at E D (n + 1) dl R T 1 dc).valid = true ∧
        ∃ it, (EdgeIterator.rev_at E D (n + 1) dl R T 1 dc).next_logged cmp em
            = some (it, [E - 24 * (((n + 1 : Nat) : Int)),
              E - 24 * (((n + 1 : Nat) : Int) + 1)]) ∧
          E - 24 * (((n + 1 : Nat) : Int) + 1) ∉ published_slots E (n + 1)) ∧
      ∀ reverse : Bool, ∃ r, EdgeIterator.ctor_logged cmp em E D n dl R T reverse = some r ∧
        ∀ p ∈ r.2, p ∈ published_slots E n := by
  refine ⟨⟨by decide!, by decide!, by decide!, by decide!, by decide!, by decide!, by decide!⟩,
    ?_⟩
  intro cmp em E D n dl R T dc
  refine ⟨?_, ?_, fun reverse => ctor_reads_inside cmp em E D n dl R T reverse⟩
  · exact ⟨by rw [fwd_at_valid]; simp, _, next_fwd_reads_end cmp em E D n dl R T dc,
      (not_published E (n + 1)).1⟩
  · exact ⟨by rw [rev_at_valid]; simp, _, next_rev_reads_below cmp em E D n dl R T dc,
      (not_published E (n + 1)).2⟩

/-! ### Edge block: the two overloads of `get_bloom_filter` -/

/-- C25 fails on the code. The two overloads of `get_bloom_filter` agree on the start address
and on validity, and both return the default filter below order 10, but from order 10 on
they pass different first arguments to the `BloomFilter` constructor: the const overload
passes `bloom_filter_size = block_size >> 4`, the non-const overload passes
`get_order() - BLOOM_FILTER_PORTION`. On a block filled with order 10 these are 64 and 6. -/
theorem bloom_filter_overloads_disagree :
    ((EdgeBlockHeader.blank.fill 10 5 1 0 1).get_bloom_filter_const
        = { size_arg := 64, start := 960, is_valid := true } ∧
      (EdgeBlockHeader.blank.fill 10 5 1 0 1).get_bloom_filter
        = { size_arg := 6, start := 960, is_valid := true }) ∧
    ∀ b : EdgeBlockHeader,
      b.get_bloom_filter.start = b.get_bloom_filter_const.start ∧
      b.get_bloom_filter.valid = b.get_bloom_filter_const.valid ∧
      ((b.order < BLOOM_FILTER_THRESHOLD ∧ b.get_bloom_filter = BloomFilter.default ∧
          b.get_bloom_filter_const = BloomFilter.default) ∨
        (BLOOM_FILTER_THRESHOLD ≤ b.order ∧
          b.get_bloom_filter.size_arg = b.order - BLOOM_FILTER_PORTION ∧
          b.get_bloom_filter_const.size_arg = b.get_block_size >>> BLOOM_FILTER_PORTION ∧
          b.get_bloom_filter.size_arg ≠ b.get_bloom_filter_const.size_arg)) := by
  refine ⟨⟨by decide!, by decide!⟩, ?_⟩
  intro b
  unfold EdgeBlockHeader.get_bloom_filter EdgeBlockHeader.get_bloom_filter_const
    BloomFilter.valid
  by_cases h : b.order < BLOOM_FILTER_THRESHOLD
  · simp only [h, if_true, true_and, and_self]
    exact Or.inl trivial
  · simp only [h, if_false, false_and, true_and, false_or]
    have h10 : BLOOM_FILTER_THRESHOLD ≤ b.order := Nat.le_of_not_lt h
    refine ⟨h10, ?_⟩
    have hthr : BLOOM_FILTER_THRESHOLD = 10 := rfl
    have hpor : BLOOM_FILTER_PORTION = 4 := rfl
    rw [hthr] at h10
    rw [hpor]
    unfold EdgeBlockHeader.get_block_size
    by_cases h64 : b.order < 64
    · have hbs : (1 <<< b.order) % 2 ^ 64 = 2 ^ b.order := by
        rw [Nat.one_shiftLeft]
        exact Nat.mod_eq_of_lt (Nat.pow_lt_pow_right (by norm_num) h64)
      rw [hbs, Nat.shiftRight_eq_div_pow]
      have hdiv : 2 ^ b.order / 2 ^ 4 = 2 ^ (b.order - 4) := by
        rw [Nat.pow_div (by omega) (by norm_num)]
      rw [hdiv]
      exact Nat.ne_of_lt (Nat.lt_two_pow _)
    · have hbs : (1 <<< b.order) % 2 ^ 64 = 0 := by
        rw [Nat.one_shiftLeft]
        obtain ⟨k, hk⟩ : ∃ k, b.order = 64 + k := ⟨b.order - 64, by omega⟩
        rw [hk, Nat.pow_add]
        exact Nat.mul_mod_right _ _
      rw [hbs]
      simp only [Nat.zero_shiftRight]
      omega

/-! ### Vertex block: the size test of `set_data` -/

theorem next_of_not_valid (cmp : Int → Int → Int → Int) (em : Int → EdgeEntry)
    (it : EdgeIterator) (h : it.valid = false) : it.next cmp em = some it := by
  unfold EdgeIterator.next
  split
  · cases it.num_entries <;> simp [EdgeIterator.next_loop_fwd, h]
  · cases it.num_entries <;> simp [EdgeIterator.next_loop_rev, h]

theorem fwd_land_le (cmp : Int → Int → Int → Int) (em : Int → EdgeEntry) (E R T : Int) :
    ∀ (j : Nat) (dc : Int), (fwd_land cmp em E R T j dc).1 ≤ j := by
  intro j
  induction j with
  | zero => intro dc; simp [fwd_land]
  | succ j ih =>
    intro dc
    rw [fwd_land]
    split
    · exact le_refl _
    · exact le_trans (ih _) (Nat.le_succ j)

theorem rev_land_le (cmp : Int → Int → Int → Int) (em : Int → EdgeEntry) (E : Int) (n : Nat)
    (R T : Int) :
    ∀ (j : Nat) (dc : Int), (rev_land cmp em E n R T j dc).1 ≤ j := by
  intro j
  induction j with
  | zero => intro dc; simp [rev_land]
  | succ j ih =>
    intro dc
    rw [rev_land]
    split
    · exact le_refl _
    · exact le_trans (ih _) (Nat.le_succ j)

/-- After `k` calls of `next`, the iterator scanning with `reverse = false` that had `j`
entries to go has at most `j - k` to go. -/
theorem nexts_fwd (cmp : Int → Int → Int → Int) (em : Int → EdgeEntry) (E D : Int)
    (n dl : Nat) (R T : Int) :
    ∀ (k j : Nat) (dc : Int), j ≤ n →
      ∃ (j1 : Nat) (dc1 : Int), j1 ≤ j - k ∧
        (EdgeIterator.fwd_at E D n dl R T j dc).nexts cmp em k
          = some (EdgeIterator.fwd_at E D n dl R T j1 dc1) := by
  intro k
  induction k with
  | zero => intro j dc _; exact ⟨j, dc, le_refl _, rfl⟩
  | succ k ih =>
    intro j dc hj
    cases j with
    | zero =>
      obtain ⟨j1, dc1, h1, h2⟩ := ih 0 dc (Nat.zero_le _)
      refine ⟨j1, dc1, by omega, ?_⟩
      rw [EdgeIterator.nexts, next_of_not_valid _ _ _ (by rw [fwd_at_valid]; simp)]
      exact h2
    | succ j =>
      have hl := fwd_land_le cmp em E R T j (dc - (em (E - 24 * ((j : Int) + 1))).length)
      obtain ⟨j1, dc1, h1, h2⟩ := ih _
        (fwd_land cmp em E R T j (dc - (em (E - 24 * ((j : Int) + 1))).length)).2
        (le_trans hl (by omega))
      refine ⟨j1, dc1, by omega, ?_⟩
      rw [EdgeIterator.nexts, next_fwd_eq cmp em E D n dl R T j dc hj]
      exact h2

/-- After `k` calls of `next`, the iterator scanning with `reverse = true` that had `j`
entries to go has at most `j - k` to go. -/
theorem nexts_rev (cmp : Int → Int → Int → Int) (em : Int → EdgeEntry) (E D : Int)
    (n dl : Nat) (R T : Int) :
    ∀ (k j : Nat) (dc : Int), j ≤ n →
      ∃ (j1 : Nat) (dc1 : Int), j1 ≤ j - k ∧
        (EdgeIterator.rev_at E D n dl R T j dc).nexts cmp em k
          = some (EdgeIterator.rev_at E D n dl R T j1 dc1) := by
  intro k
  induction k with
  | zero => intro j dc _; exact ⟨j, dc, le_refl _, rfl⟩
  | succ k ih =>
    intro j dc hj
    cases j with
    | zero =>
      obtain ⟨j1, dc1, h1, h2⟩ := ih 0 dc (Nat.zero_le _)
      refine ⟨j1, dc1, by omega, ?_⟩
      rw [EdgeIterator.nexts, next_of_not_valid _ _ _ (by rw [rev_at_valid]; simp)]
      exact h2
    | succ j =>
      have hl := rev_land_le cmp em E n R T j (dc + (em (E - 24 * ((n : Int) - j))).length)
      obtain ⟨j1, dc1, h1, h2⟩ := ih _
        (rev_land cmp em E n R T j (dc + (em (E - 24 * ((n : Int) - j))).length)).2
        (le_trans hl (by omega))
      refine ⟨j1, dc1, by omega, ?_⟩
      rw [EdgeIterator.nexts, next_rev_eq cmp em E D n dl R T j dc hj]
      exact h2

/-- C27. Iteration terminates. For every comparison function, entry store, `n` entries,
snapshot and direction: the constructor returns an iterator `it0`; for every `k` the first
`k` calls of `next` all return, and the iterator `it` they leave is not valid once `k >= n`;
if `it` is valid, the next call of `next` returns and has moved the cursor by at least one
entry (24 bytes) toward the end of its direction (`entries` with `reverse = false`,
`entries - n` with `reverse = true`) and not beyond it; and `next` on any iterator that is
not valid returns it unchanged, entry cursor and data cursor included. -/
theorem iteration_terminates (cmp : Int → Int → Int → Int) (em : Int → EdgeEntry)
    (entries data : Int) (n dl : Nat) (R T : Int) (reverse : Bool) :
    (∃ it0, EdgeIterator.ctor cmp em entries data n dl R T reverse = some it0 ∧
      ∀ k : Nat, ∃ it, it0.nexts cmp em k = some it ∧
        (n ≤ k → it.valid = false) ∧
        (it.valid = true → ∃ it1, it.next cmp em = some it1 ∧
          (reverse = false → it.entries_cursor + 24 ≤ it1.entries_cursor ∧
            it1.entries_cursor ≤ entries) ∧
          (reverse = true → it1.entries_cursor + 24 ≤ it.entries_cursor ∧
            entries - 24 * (n : Int) ≤ it1.entries_cursor))) ∧
    ∀ it : EdgeIterator, it.valid = false →
      it.next cmp em = some it ∧
      ∀ it1, it.next cmp em = some it1 →
        it1.entries_cursor = it.entries_cursor ∧ it1.data_cursor = it.data_cursor := by
  refine ⟨?_, ?_⟩
  · cases reverse
    · have h0 : EdgeIterator.ctor cmp em entries data n dl R T false =
          some (EdgeIterator.fwd_at entries data n dl R T
            (fwd_land cmp em entries R T n (data + dl)).1
            (fwd_land cmp em entries R T n (data + dl)).2) := by
        unfold EdgeIterator.ctor
        simp only [Bool.not_false, if_true]
        have h0 : EdgeIterator.mk entries data n dl R T false
            (entries - (↑sizeof_EdgeEntry : Int) * ↑n) (data + ↑dl)
            = EdgeIterator.fwd_at entries data n dl R T n (data + dl) := by
          simp [EdgeIterator.fwd_at, sizeof_EdgeEntry]
        rw [h0]
        exact ctor_loop_fwd_eq cmp em entries data n dl R T n n _ (le_refl n)
      refine ⟨_, h0, ?_⟩
      intro k
      have hj0 := fwd_land_le cmp em entries R T n (data + dl)
      obtain ⟨j1, dc1, hj1, hk⟩ := nexts_fwd cmp em entries data n dl R T k _
        (fwd_land cmp em entries R T n (data + dl)).2 hj0
      refine ⟨_, hk, ?_, ?_⟩
      · intro hnk
        rw [fwd_at_valid]
        have : j1 = 0 := by omega
        simp [this]
      · intro hv
        rw [fwd_at_valid] at hv
        have hne : j1 ≠ 0 := by simpa using hv
        obtain ⟨i, rfl⟩ : ∃ i, j1 = i + 1 := ⟨j1 - 1, by omega⟩
        refine ⟨_, next_fwd_eq cmp em entries data n dl R T i dc1 (by omega), ?_, ?_⟩
        · intro _
          have hl := fwd_land_le cmp em entries R T i
            (dc1 - (em (entries - 24 * ((i : Int) + 1))).length)
          simp only [EdgeIterator.fwd_at, Nat.cast_add, Nat.cast_one]
          omega
        · intro h; cases h
    · have h0 : EdgeIterator.ctor cmp em entries data n dl R T true =
          some (EdgeIterator.rev_at entries data n dl R T
            (rev_land cmp em entries n R T n data).1
            (rev_land cmp em entries n R T n data).2) := by
        unfold EdgeIterator.ctor
        simp only [Bool.not_true, Bool.false_eq_true, if_false]
        have h0 : EdgeIterator.mk entries data n dl R T true entries data
            = EdgeIterator.rev_at entries data n dl R T n data := by
          simp [EdgeIterator.rev_at]
        rw [h0]
        exact ctor_loop_rev_eq cmp em entries data n dl R T n n _ (le_refl n)
      refine ⟨_, h0, ?_⟩
      intro k
      have hj0 := rev_land_le cmp em entries n R T n data
      obtain ⟨j1, dc1, hj1, hk⟩ := nexts_rev cmp em entries data n dl R T k _
        (rev_land cmp em entries n R T n data).2 hj0
      refine ⟨_, hk, ?_, ?_⟩
      · intro hnk
        rw [rev_at_valid]
        have : j1 = 0 := by omega
        simp [this]
      · intro hv
        rw [rev_at_valid] at hv
        have hne : j1 ≠ 0 := by simpa using hv
        obtain ⟨i, rfl⟩ : ∃ i, j1 = i + 1 := ⟨j1 - 1, by omega⟩
        refine ⟨_, next_rev_eq cmp em entries data n dl R T i dc1 (by omega), ?_, ?_⟩
        · intro h; cases h
        · intro _
          have hl := rev_land_le cmp em entries n R T i
            (dc1 + (em (entries - 24 * ((n : Int) - i))).length)
          simp only [EdgeIterator.rev_at, Nat.cast_add, Nat.cast_one]
          omega
  · intro it hv
    have h := next_of_not_valid cmp em it hv
    refine ⟨h, ?_⟩
    intro it1 h1
    rw [h] at h1
    cases h1
    exact ⟨rfl, rfl⟩

end livegraph
